import Mathlib

/-!
# ThinkingCode: the lazy sequence combinators of `Lazy.h`

A shallow embedding of `ThinkingCode/Lazy.h`.

* A C++ call either returns a value or does not: it throws
  `std::exception("Dereferencing end iterator!")`, it runs into undefined
  behaviour on a raw container iterator, or it loops.  `Res α` records the
  outcome; a loop is unrolled at most `fuel` times and reports
  `Fault.outOfFuel` when that does not suffice.
* The template parameter `_Iter` of a stage is a type together with the
  operations the stage uses on it (`==`, `!=`, `++`, `*`); they are passed as
  an `IterOps` record.  `LazyRange` additionally uses `begin()` and `end()` of
  its `_Range` parameter, passed as a `RangeOps` record.
* A `std::vector<T>::const_iterator` into a container `cont` is the position
  it points at, a natural number between `0` and `cont.length`.
-/

namespace Lazy

/-- Ways in which a call fails to return a value. -/
inductive Fault where
  /-- The exception `std::exception("Dereferencing end iterator!")`. -/
  | derefEnd
  /-- Undefined behaviour of a raw container iterator (read or step at its end). -/
  | undefined
  /-- The loop bound of the model was exhausted. -/
  | outOfFuel
  deriving DecidableEq, Repr

/-- Outcome of a call: a value or a fault. -/
abbrev Res (α : Type) := Except Fault α

/-- The struct `Optional<T>`: `False()` leaves `val` default-initialised, which
is recorded as `none`; `True(v)` stores `v`. -/
structure Optional (T : Type) where
  val : Option T
  exists_ : Bool
  deriving DecidableEq, Repr

/-- The factory `Optional::False()`. -/
def Optional.False {T : Type} : Optional T := Optional.mk none false

/-- The factory `Optional::True(val)`. -/
def Optional.True {T : Type} (val : T) : Optional T := Optional.mk (some val) true

/-- The conversion `Optional::operator bool`. -/
def Optional.toBool {T : Type} (o : Optional T) : Bool := o.exists_

/-- The operations a stage uses on its template parameter `_Iter`:
`a == b`, `a != b`, `++a` and `*a`. -/
structure IterOps (I V : Type) where
  eq : I → I → Bool
  ne : I → I → Bool
  inc : Nat → I → Res I
  deref : I → Res V

/-- The operations `LazyRange` uses on its template parameter `_Range`:
`begin()` and `end()`, both returning an `_Iter`. -/
structure RangeOps (R I : Type) where
  begin : Nat → R → Res I
  end_ : R → I

/-- The operations of `std::vector<T>::const_iterator` over the container `cont`.
Reading or stepping the past-the-end iterator is undefined behaviour. -/
def stdIter {V : Type} (cont : List V) : IterOps Nat V :=
  IterOps.mk
    (fun a b => a == b)
    (fun a b => a != b)
    (fun _ a => if a < cont.length then .ok (a + 1) else .error Fault.undefined)
    (fun a => match cont[a]? with
      | some v => .ok v
      | none => .error Fault.undefined)

/-! ## LazyFilter -/

/-- The class `LazyFilter<_ValType, _Iter>`. -/
structure LazyFilter (V I : Type) where
  _begin : I
  _end : I
  _cur : I
  _pred : V → Bool

namespace LazyFilter

variable {V I : Type}

/-- The loop of `operator++`:
`do { ++_cur; } while ( _cur != _end && !_pred( *_cur ) );` -/
def skip (ops : IterOps I V) (fuel : Nat) (e : I) (pred : V → Bool) : Nat → I → Res I
  | 0, _ => .error Fault.outOfFuel
  | k + 1, cur =>
    match ops.inc fuel cur with
    | .error f => .error f
    | .ok cur1 =>
      if ops.ne cur1 e then
        match ops.deref cur1 with
        | .error f => .error f
        | .ok v => if !pred v then skip ops fuel e pred k cur1 else .ok cur1
      else .ok cur1

/-- The prefix increment `LazyFilter::operator++`. -/
def inc (ops : IterOps I V) (fuel : Nat) (c : LazyFilter V I) : Res (LazyFilter V I) :=
  if ops.eq c._cur c._end then .ok c
  else
    match skip ops fuel c._end c._pred fuel c._cur with
    | .error f => .error f
    | .ok cur1 => .ok (LazyFilter.mk c._begin c._end cur1 c._pred)

/-- The dereference `LazyFilter::operator*`. -/
def deref (ops : IterOps I V) (c : LazyFilter V I) : Res V :=
  if ops.eq c._cur c._end then .error Fault.derefEnd else ops.deref c._cur

/-- The comparison `LazyFilter::operator==` (the predicate is not compared). -/
def eq (ops : IterOps I V) (a b : LazyFilter V I) : Bool :=
  ops.eq a._cur b._cur && ops.eq a._begin b._begin && ops.eq a._end b._end

/-- The comparison `LazyFilter::operator!=`. -/
def ne (ops : IterOps I V) (a b : LazyFilter V I) : Bool :=
  !eq ops a b

/-- The query `LazyFilter::IsAtEnd`. -/
def IsAtEnd (ops : IterOps I V) (c : LazyFilter V I) : Bool :=
  ops.eq c._cur c._end

/-- The loop of `begin()`:
`while ( begin != _end && !_pred( *begin ) ) ++begin;` -/
def seek (ops : IterOps I V) (fuel : Nat) (e : I) (pred : V → Bool) : Nat → I → Res I
  | 0, _ => .error Fault.outOfFuel
  | k + 1, b =>
    if ops.ne b e then
      match ops.deref b with
      | .error f => .error f
      | .ok v =>
        if !pred v then
          match ops.inc fuel b with
          | .error f => .error f
          | .ok b1 => seek ops fuel e pred k b1
        else .ok b
    else .ok b

/-- The member `LazyFilter::begin`. -/
def begin (ops : IterOps I V) (fuel : Nat) (c : LazyFilter V I) : Res (LazyFilter V I) :=
  match seek ops fuel c._end c._pred fuel c._begin with
  | .error f => .error f
  | .ok b => .ok (LazyFilter.mk c._begin c._end b c._pred)

/-- The member `LazyFilter::end`. -/
def end_ (c : LazyFilter V I) : LazyFilter V I :=
  LazyFilter.mk c._begin c._end c._end c._pred

/-- A `LazyFilter` used as the `_Iter` of an outer stage. -/
def iterOps (ops : IterOps I V) : IterOps (LazyFilter V I) V :=
  IterOps.mk (eq ops) (ne ops) (inc ops) (deref ops)

/-- A `LazyFilter` used as the `_Range` of a `LazyRange`. -/
def rangeOps (ops : IterOps I V) : RangeOps (LazyFilter V I) (LazyFilter V I) :=
  RangeOps.mk (begin ops) end_

end LazyFilter

/-! ## LazyMap -/

/-- The class `LazyMap<_SrcType, _DstType, _Iter>`. -/
structure LazyMap (S D I : Type) where
  _begin : I
  _end : I
  _cur : I
  _map : S → D

namespace LazyMap

variable {S D I : Type}

/-- The prefix increment `LazyMap::operator++`. -/
def inc (ops : IterOps I S) (fuel : Nat) (c : LazyMap S D I) : Res (LazyMap S D I) :=
  if ops.ne c._cur c._end then
    match ops.inc fuel c._cur with
    | .error f => .error f
    | .ok cur1 => .ok (LazyMap.mk c._begin c._end cur1 c._map)
  else .ok c

/-- The dereference `LazyMap::operator*`. -/
def deref (ops : IterOps I S) (c : LazyMap S D I) : Res D :=
  if ops.eq c._cur c._end then .error Fault.derefEnd
  else
    match ops.deref c._cur with
    | .error f => .error f
    | .ok v => .ok (c._map v)

/-- The comparison `LazyMap::operator==`. -/
def eq (ops : IterOps I S) (a b : LazyMap S D I) : Bool :=
  ops.eq a._begin b._begin && ops.eq a._end b._end && ops.eq a._cur b._cur

/-- The comparison `LazyMap::operator!=`. -/
def ne (ops : IterOps I S) (a b : LazyMap S D I) : Bool :=
  !eq ops a b

/-- The query `LazyMap::IsAtEnd`. -/
def IsAtEnd (ops : IterOps I S) (c : LazyMap S D I) : Bool :=
  ops.eq c._cur c._end

/-- The member `LazyMap::begin`. -/
def begin (c : LazyMap S D I) : LazyMap S D I :=
  LazyMap.mk c._begin c._end c._begin c._map

/-- The member `LazyMap::end`. -/
def end_ (c : LazyMap S D I) : LazyMap S D I :=
  LazyMap.mk c._begin c._end c._end c._map

/-- A `LazyMap` used as the `_Iter` of an outer stage. -/
def iterOps (ops : IterOps I S) : IterOps (LazyMap S D I) D :=
  IterOps.mk (eq ops) (ne ops) (inc ops) (deref ops)

/-- A `LazyMap` used as the `_Range` of a `LazyRange`. -/
def rangeOps : RangeOps (LazyMap S D I) (LazyMap S D I) :=
  RangeOps.mk (fun _ c => .ok (begin c)) end_

end LazyMap

/-! ## LazyLimit -/

/-- The class `LazyLimit<_ValType, _Iter>`.  The counters are `size_t`; the
code increments `_index` only while it differs from `_limit`. -/
structure LazyLimit (I : Type) where
  _begin : I
  _end : I
  _cur : I
  _index : Nat
  _limit : Nat

namespace LazyLimit

variable {V I : Type}

/-- The dereference `LazyLimit::operator*`. -/
def deref (ops : IterOps I V) (c : LazyLimit I) : Res V :=
  if c._index == c._limit || ops.eq c._cur c._end then .error Fault.derefEnd
  else ops.deref c._cur

/-- The inner loop of `operator++`: `while ( _cur != _end ) ++_cur;` -/
def drain (ops : IterOps I V) (fuel : Nat) (e : I) : Nat → I → Res I
  | 0, _ => .error Fault.outOfFuel
  | k + 1, cur =>
    if ops.ne cur e then
      match ops.inc fuel cur with
      | .error f => .error f
      | .ok cur1 => drain ops fuel e k cur1
    else .ok cur

/-- The prefix increment `LazyLimit::operator++`. -/
def inc (ops : IterOps I V) (fuel : Nat) (c : LazyLimit I) : Res (LazyLimit I) :=
  if c._index != c._limit && ops.ne c._cur c._end then
    match ops.inc fuel c._cur with
    | .error f => .error f
    | .ok cur1 =>
      if ops.eq cur1 c._end then
        .ok (LazyLimit.mk c._begin c._end cur1 c._limit c._limit)
      else if c._index + 1 == c._limit then
        match drain ops fuel c._end fuel cur1 with
        | .error f => .error f
        | .ok cur2 => .ok (LazyLimit.mk c._begin c._end cur2 (c._index + 1) c._limit)
      else .ok (LazyLimit.mk c._begin c._end cur1 (c._index + 1) c._limit)
  else .ok c

/-- The comparison `LazyLimit::operator==`. -/
def eq (ops : IterOps I V) (a b : LazyLimit I) : Bool :=
  ops.eq a._begin b._begin && ops.eq a._end b._end && ops.eq a._cur b._cur &&
    a._index == b._index && a._limit == b._limit

/-- The comparison `LazyLimit::operator!=`. -/
def ne (ops : IterOps I V) (a b : LazyLimit I) : Bool :=
  !eq ops a b

/-- The member `LazyLimit::begin`. -/
def begin (ops : IterOps I V) (c : LazyLimit I) : LazyLimit I :=
  LazyLimit.mk c._begin c._end c._begin (if ops.eq c._begin c._end then c._limit else 0) c._limit

/-- The member `LazyLimit::end`. -/
def end_ (c : LazyLimit I) : LazyLimit I :=
  LazyLimit.mk c._begin c._end c._end c._limit c._limit

/-- A `LazyLimit` used as the `_Iter` of an outer stage. -/
def iterOps (ops : IterOps I V) : IterOps (LazyLimit I) V :=
  IterOps.mk (eq ops) (ne ops) (inc ops) (deref ops)

/-- A `LazyLimit` used as the `_Range` of a `LazyRange`. -/
def rangeOps (ops : IterOps I V) : RangeOps (LazyLimit I) (LazyLimit I) :=
  RangeOps.mk (fun _ c => .ok (begin ops c)) end_

end LazyLimit

/-! ## ContainerRange -/

/-- The class `ContainerRange<_Cont>`: three iterators into the container. -/
structure ContainerRange where
  _begin : Nat
  _end : Nat
  _cur : Nat
  deriving DecidableEq, Repr

namespace ContainerRange

variable {V : Type}

/-- The constructor `ContainerRange( const _Cont& cont )`. -/
def ofCont (cont : List V) : ContainerRange :=
  ContainerRange.mk 0 cont.length 0

/-- The prefix increment `ContainerRange::operator++`. -/
def inc (cont : List V) (fuel : Nat) (c : ContainerRange) : Res ContainerRange :=
  if (stdIter cont).ne c._cur c._end then
    match (stdIter cont).inc fuel c._cur with
    | .error f => .error f
    | .ok cur1 => .ok (ContainerRange.mk c._begin c._end cur1)
  else .ok c

/-- The dereference `ContainerRange::operator*`. -/
def deref (cont : List V) (c : ContainerRange) : Res V :=
  if (stdIter cont).eq c._cur c._end then .error Fault.derefEnd
  else (stdIter cont).deref c._cur

/-- The comparison `ContainerRange::operator==`. -/
def eq (a b : ContainerRange) : Bool :=
  a._begin == b._begin && a._end == b._end && a._cur == b._cur

/-- The comparison `ContainerRange::operator!=`, whose body is
`return operator==( other );`. -/
def ne (a b : ContainerRange) : Bool :=
  eq a b

/-- The member `ContainerRange::begin`. -/
def begin (c : ContainerRange) : Nat := c._begin

/-- The member `ContainerRange::end`. -/
def end_ (c : ContainerRange) : Nat := c._end

/-- The query `ContainerRange::IsAtEnd`. -/
def IsAtEnd (c : ContainerRange) : Bool := c._cur == c._end

/-- A `ContainerRange` used as the `_Range` of a `LazyRange`; its `_IterType`
is the container's `const_iterator`. -/
def rangeOps : RangeOps ContainerRange Nat :=
  RangeOps.mk (fun _ c => .ok (begin c)) end_

end ContainerRange

/-! ## LazyRange -/

/-- The class `LazyRange<_ValType, _Range, _Iter>`. -/
structure LazyRange (R : Type) where
  _range : R

namespace LazyRange

variable {R I V W : Type}

/-- The member `LazyRange::begin`: `std::begin( _range )`. -/
def begin (rops : RangeOps R I) (fuel : Nat) (s : LazyRange R) : Res I :=
  rops.begin fuel s._range

/-- The member `LazyRange::end`: `std::end( _range )`. -/
def end_ (rops : RangeOps R I) (s : LazyRange R) : I :=
  rops.end_ s._range

/-- The transformation `LazyRange::Map`: the new stage is built from
`std::begin( _range )`, `std::end( _range )`, `std::begin( _range )`; both
calls of `begin()` read the same unchanged `_range` and return the same
iterator. -/
def Map (rops : RangeOps R I) (fuel : Nat) (s : LazyRange R) (map : V → W) :
    Res (LazyRange (LazyMap V W I)) :=
  match rops.begin fuel s._range with
  | .error f => .error f
  | .ok b => .ok (LazyRange.mk (LazyMap.mk b (rops.end_ s._range) b map))

/-- The transformation `LazyRange::Filter`. -/
def Filter (rops : RangeOps R I) (fuel : Nat) (s : LazyRange R) (pred : V → Bool) :
    Res (LazyRange (LazyFilter V I)) :=
  match rops.begin fuel s._range with
  | .error f => .error f
  | .ok b => .ok (LazyRange.mk (LazyFilter.mk b (rops.end_ s._range) b pred))

/-- The transformation `LazyRange::Limit`. -/
def Limit (rops : RangeOps R I) (fuel : Nat) (s : LazyRange R) (limit : Nat) :
    Res (LazyRange (LazyLimit I)) :=
  match rops.begin fuel s._range with
  | .error f => .error f
  | .ok b => .ok (LazyRange.mk (LazyLimit.mk b (rops.end_ s._range) b 0 limit))

/-- The member `LazyRange::First`:
`for ( auto val : _range ) { return Optional::True( val ); } return Optional::False();` -/
def First (rops : RangeOps R I) (ops : IterOps I V) (fuel : Nat) (s : LazyRange R) :
    Res (Optional V) :=
  match rops.begin fuel s._range with
  | .error f => .error f
  | .ok it =>
    if ops.ne it (rops.end_ s._range) then
      match ops.deref it with
      | .error f => .error f
      | .ok val => .ok (Optional.True val)
    else .ok Optional.False

/-- The loop of `ToVector`, from the iterator `it` with `ret` filled so far:
`for ( ; it != end; ++it ) { auto elem = *it; ret.push_back( elem ); }` -/
def collect (ops : IterOps I V) (fuel : Nat) (e : I) : Nat → I → List V → Res (List V)
  | 0, _, _ => .error Fault.outOfFuel
  | k + 1, it, ret =>
    if ops.ne it e then
      match ops.deref it with
      | .error f => .error f
      | .ok elem =>
        match ops.inc fuel it with
        | .error f => .error f
        | .ok it1 => collect ops fuel e k it1 (ret ++ [elem])
    else .ok ret

/-- The member `LazyRange::ToVector`. -/
def ToVector (rops : RangeOps R I) (ops : IterOps I V) (fuel : Nat) (s : LazyRange R) :
    Res (List V) :=
  match rops.begin fuel s._range with
  | .error f => .error f
  | .ok it => collect ops fuel (rops.end_ s._range) fuel it []

/-- The loop of `ToVector` again, returning what has been pushed to `ret` when
the loop ends, also when it ends by a fault. -/
def pushed (ops : IterOps I V) (fuel : Nat) (e : I) : Nat → I → List V → List V
  | 0, _, ret => ret
  | k + 1, it, ret =>
    if ops.ne it e then
      match ops.deref it with
      | .error _ => ret
      | .ok elem =>
        match ops.inc fuel it with
        | .error _ => ret ++ [elem]
        | .ok it1 => pushed ops fuel e k it1 (ret ++ [elem])
    else ret

/-- The elements `ToVector` has pushed to `ret` when it returns or fails. -/
def ToVectorPushed (rops : RangeOps R I) (ops : IterOps I V) (fuel : Nat) (s : LazyRange R) :
    List V :=
  match rops.begin fuel s._range with
  | .error _ => []
  | .ok it => pushed ops fuel (rops.end_ s._range) fuel it []

end LazyRange

/-! ## Specification vocabulary -/

/-- The laws every `_Iter` of the library obeys: `==` is reflexive and `!=` is
its negation. -/
structure Lawful {I V : Type} (ops : IterOps I V) : Prop where
  eq_self : ∀ a, ops.eq a a = true
  ne_not : ∀ a b, ops.ne a b = !ops.eq a b

/-- The iterator `it` reads the elements of `l` one after another, each step
succeeding with `fuel`, and is then the iterator `e`. -/
def Yields {I V : Type} (ops : IterOps I V) (fuel : Nat) (e : I) : I → List V → Prop
  | it, [] => it = e
  | it, v :: t =>
    ops.eq it e = false ∧ ops.deref it = .ok v ∧
      ∃ it1, ops.inc fuel it = .ok it1 ∧ Yields ops fuel e it1 t

/-- The sequence `s` has lawful iterators, its `begin()` returns, and iterating
from there to its `end()` reads exactly `l`. -/
def Denotes {R I V : Type} (rops : RangeOps R I) (ops : IterOps I V) (fuel : Nat)
    (s : LazyRange R) (l : List V) : Prop :=
  Lawful ops ∧ ∃ b, rops.begin fuel s._range = .ok b ∧ Yields ops fuel (rops.end_ s._range) b l

/-- The function `MakeLazy( container )`. -/
def MakeLazy {V : Type} (container : List V) : LazyRange ContainerRange :=
  LazyRange.mk (ContainerRange.ofCont container)

/-! ## The expressions the properties are stated about -/

/-- The comparison `s.begin() == s.end()` on a sequence. -/
def LazyRange.beginIsEnd {R I V : Type} (rops : RangeOps R I) (ops : IterOps I V) (fuel : Nat)
    (s : LazyRange R) : Res Bool :=
  match rops.begin fuel s._range with
  | .error f => .error f
  | .ok b => .ok (ops.eq b (rops.end_ s._range))

/-- The sequence `MakeLazy( source ).Filter( P )`. -/
def filterSeq {V : Type} (source : List V) (P : V → Bool) (fuel : Nat) :
    Res (LazyRange (LazyFilter V Nat)) :=
  (MakeLazy source).Filter ContainerRange.rangeOps fuel P

/-- The sequence `MakeLazy( source ).Map( f )`. -/
def mapSeq {V W : Type} (source : List V) (f : V → W) (fuel : Nat) :
    Res (LazyRange (LazyMap V W Nat)) :=
  (MakeLazy source).Map ContainerRange.rangeOps fuel f

/-- The sequence `MakeLazy( source ).Limit( n )`. -/
def limitSeq {V : Type} (source : List V) (n : Nat) (fuel : Nat) :
    Res (LazyRange (LazyLimit Nat)) :=
  (MakeLazy source).Limit ContainerRange.rangeOps fuel n

/-- The expression `MakeLazy( source ).Filter( P ).ToVector()`. -/
def filterToVector {V : Type} (source : List V) (P : V → Bool) (fuel : Nat) : Res (List V) :=
  match filterSeq source P fuel with
  | .error f => .error f
  | .ok s =>
    s.ToVector (LazyFilter.rangeOps (stdIter source)) (LazyFilter.iterOps (stdIter source)) fuel

/-- The expression `MakeLazy( source ).Map( f ).ToVector()`. -/
def mapToVector {V W : Type} (source : List V) (f : V → W) (fuel : Nat) : Res (List W) :=
  match mapSeq source f fuel with
  | .error e => .error e
  | .ok s => s.ToVector LazyMap.rangeOps (LazyMap.iterOps (stdIter source)) fuel

/-- The expression `MakeLazy( source ).Limit( n ).ToVector()`. -/
def limitToVector {V : Type} (source : List V) (n : Nat) (fuel : Nat) : Res (List V) :=
  match limitSeq source n fuel with
  | .error f => .error f
  | .ok s =>
    s.ToVector (LazyLimit.rangeOps (stdIter source)) (LazyLimit.iterOps (stdIter source)) fuel

/-- The expression `MakeLazy( source ).Limit( n ).First()`. -/
def limitFirst {V : Type} (source : List V) (n : Nat) (fuel : Nat) : Res (Optional V) :=
  match limitSeq source n fuel with
  | .error f => .error f
  | .ok s =>
    s.First (LazyLimit.rangeOps (stdIter source)) (LazyLimit.iterOps (stdIter source)) fuel

/-- The expression `MakeLazy( source ).Filter( P ).Map( f ).Limit( n ).ToVector()`. -/
def filterMapLimitToVector {V W : Type} (source : List V) (P : V → Bool) (f : V → W) (n : Nat)
    (fuel : Nat) : Res (List W) :=
  match filterSeq source P fuel with
  | .error e => .error e
  | .ok s1 =>
    match s1.Map (LazyFilter.rangeOps (stdIter source)) fuel f with
    | .error e => .error e
    | .ok s2 =>
      match s2.Limit LazyMap.rangeOps fuel n with
      | .error e => .error e
      | .ok s3 =>
        s3.ToVector (LazyLimit.rangeOps (LazyMap.iterOps (LazyFilter.iterOps (stdIter source))))
          (LazyLimit.iterOps (LazyMap.iterOps (LazyFilter.iterOps (stdIter source)))) fuel

/-! ## A sequence used as a cursor, and iterated directly -/

/-- A `ContainerRange` with its own `==`, `!=`, `++` and `*`, as `LazyRange`
uses them on its `_range`. -/
def ContainerRange.selfOps {V : Type} (cont : List V) : IterOps ContainerRange V :=
  IterOps.mk ContainerRange.eq ContainerRange.ne (ContainerRange.inc cont)
    (ContainerRange.deref cont)

/-- The dereference `LazyRange::operator*`: `return *_range;`. -/
def LazyRange.deref {R V : Type} (sops : IterOps R V) (s : LazyRange R) : Res V :=
  sops.deref s._range

/-- The prefix increment `LazyRange::operator++`: `++_range; return *this;`. -/
def LazyRange.inc {R V : Type} (sops : IterOps R V) (fuel : Nat) (s : LazyRange R) :
    Res (LazyRange R) :=
  match sops.inc fuel s._range with
  | .error f => .error f
  | .ok r => .ok (LazyRange.mk r)

/-- The comparison `LazyRange::operator==`. -/
def LazyRange.eq {R V : Type} (sops : IterOps R V) (a b : LazyRange R) : Bool :=
  sops.eq a._range b._range

/-- The comparison `LazyRange::operator!=`. -/
def LazyRange.ne {R V : Type} (sops : IterOps R V) (a b : LazyRange R) : Bool :=
  !LazyRange.eq sops a b

/-- The loop a caller writes to iterate a sequence `s` directly,
`for ( auto it = s.begin(); it != s.end(); ++it ) out.push_back( *it );`,
from the iterator `it` with `out` filled so far. -/
def LazyRange.iterateFrom {R I V : Type} (rops : RangeOps R I) (ops : IterOps I V) (fuel : Nat)
    (s : LazyRange R) : Nat → I → List V → Res (List V)
  | 0, _, _ => .error Fault.outOfFuel
  | k + 1, it, out =>
    if ops.ne it (LazyRange.end_ rops s) then
      match ops.deref it with
      | .error f => .error f
      | .ok v =>
        match ops.inc fuel it with
        | .error f => .error f
        | .ok it1 => LazyRange.iterateFrom rops ops fuel s k it1 (out ++ [v])
    else .ok out

/-- Iterating the sequence `s` directly through `s.begin()` and `s.end()`. -/
def LazyRange.iterate {R I V : Type} (rops : RangeOps R I) (ops : IterOps I V) (fuel : Nat)
    (s : LazyRange R) : Res (List V) :=
  match LazyRange.begin rops fuel s with
  | .error f => .error f
  | .ok it => LazyRange.iterateFrom rops ops fuel s fuel it []

/-- The cursor `MakeLazy( source ).Filter( P ).Filter( Q ).end()`. -/
def filterFilterEnd {V : Type} (source : List V) (P Q : V → Bool) (fuel : Nat) :
    Res (LazyFilter V (LazyFilter V Nat)) :=
  match filterSeq source P fuel with
  | .error f => .error f
  | .ok s1 =>
    match s1.Filter (LazyFilter.rangeOps (stdIter source)) fuel Q with
    | .error f => .error f
    | .ok s2 => .ok (LazyRange.end_ (LazyFilter.rangeOps (LazyFilter.iterOps (stdIter source))) s2)

/-- The cursor `MakeLazy( source ).Limit( n ).end()`. -/
def limitEnd {V : Type} (source : List V) (n : Nat) (fuel : Nat) : Res (LazyLimit Nat) :=
  match limitSeq source n fuel with
  | .error f => .error f
  | .ok s => .ok (LazyRange.end_ (LazyLimit.rangeOps (stdIter source)) s)

/-- The tags of the user functions a call invoked, in order. -/
abbrev Trace := List Nat

/-- Outcome of a call together with the user functions it invoked. -/
abbrev TRes (α : Type) := Res (α × Trace)

/-- The operations of an `_Iter`, each with the user functions it invokes. -/
structure TIterOps (I V : Type) where
  eq : I → I → Bool
  ne : I → I → Bool
  inc : Nat → I → TRes I
  deref : I → TRes V

/-- The operations of a `_Range`, each with the user functions it invokes. -/
structure TRangeOps (R I : Type) where
  begin : Nat → R → TRes I
  end_ : R → I

/-- Forgetting the recorded invocations. -/
def TIterOps.erase {I V : Type} (ops : TIterOps I V) : IterOps I V :=
  IterOps.mk ops.eq ops.ne (fun fuel i => (ops.inc fuel i).map Prod.fst)
    (fun i => (ops.deref i).map Prod.fst)

/-- Forgetting the recorded invocations. -/
def TRangeOps.erase {R I : Type} (rops : TRangeOps R I) : RangeOps R I :=
  RangeOps.mk (fun fuel r => (rops.begin fuel r).map Prod.fst) rops.end_

/-- Operations that invoke no user function, such as those of a container iterator. -/
def IterOps.silent {I V : Type} (ops : IterOps I V) : TIterOps I V :=
  TIterOps.mk ops.eq ops.ne (fun fuel i => (ops.inc fuel i).map (fun x => (x, [])))
    (fun i => (ops.deref i).map (fun x => (x, [])))

/-- A range whose `begin()` returns without invoking a user function. -/
def SilentBegin {R I : Type} (rops : TRangeOps R I) : Prop :=
  ∀ fuel r, ∃ b, rops.begin fuel r = .ok (b, [])

namespace Traced

namespace LazyFilter

variable {V I : Type}

/-- The loop of `LazyFilter::operator++`; each test `_pred( *_cur )` records `tag`. -/
def skip (tag : Nat) (ops : TIterOps I V) (fuel : Nat) (e : I) (pred : V → Bool) :
    Nat → I → TRes I
  | 0, _ => .error Fault.outOfFuel
  | k + 1, cur =>
    match ops.inc fuel cur with
    | .error f => .error f
    | .ok (cur1, t1) =>
      if ops.ne cur1 e then
        match ops.deref cur1 with
        | .error f => .error f
        | .ok (v, t2) =>
          if !pred v then
            match skip tag ops fuel e pred k cur1 with
            | .error f => .error f
            | .ok (cur2, t3) => .ok (cur2, t1 ++ t2 ++ tag :: t3)
          else .ok (cur1, t1 ++ t2 ++ [tag])
      else .ok (cur1, t1)

/-- The prefix increment `LazyFilter::operator++`. -/
def inc (tag : Nat) (ops : TIterOps I V) (fuel : Nat) (c : Lazy.LazyFilter V I) :
    TRes (Lazy.LazyFilter V I) :=
  if ops.eq c._cur c._end then .ok (c, [])
  else
    match skip tag ops fuel c._end c._pred fuel c._cur with
    | .error f => .error f
    | .ok (cur1, t) => .ok (Lazy.LazyFilter.mk c._begin c._end cur1 c._pred, t)

/-- The dereference `LazyFilter::operator*`. -/
def deref (ops : TIterOps I V) (c : Lazy.LazyFilter V I) : TRes V :=
  if ops.eq c._cur c._end then .error Fault.derefEnd else ops.deref c._cur

/-- The loop of `LazyFilter::begin`; each test `_pred( *begin )` records `tag`. -/
def seek (tag : Nat) (ops : TIterOps I V) (fuel : Nat) (e : I) (pred : V → Bool) :
    Nat → I → TRes I
  | 0, _ => .error Fault.outOfFuel
  | k + 1, b =>
    if ops.ne b e then
      match ops.deref b with
      | .error f => .error f
      | .ok (v, t1) =>
        if !pred v then
          match ops.inc fuel b with
          | .error f => .error f
          | .ok (b1, t2) =>
            match seek tag ops fuel e pred k b1 with
            | .error f => .error f
            | .ok (b2, t3) => .ok (b2, t1 ++ tag :: t2 ++ t3)
        else .ok (b, t1 ++ [tag])
    else .ok (b, [])

/-- The member `LazyFilter::begin`. -/
def begin (tag : Nat) (ops : TIterOps I V) (fuel : Nat) (c : Lazy.LazyFilter V I) :
    TRes (Lazy.LazyFilter V I) :=
  match seek tag ops fuel c._end c._pred fuel c._begin with
  | .error f => .error f
  | .ok (b, t) => .ok (Lazy.LazyFilter.mk c._begin c._end b c._pred, t)

/-- A `LazyFilter` whose predicate has the tag `tag`, used as an `_Iter`. -/
def iterOps (tag : Nat) (ops : TIterOps I V) : TIterOps (Lazy.LazyFilter V I) V :=
  TIterOps.mk (Lazy.LazyFilter.eq ops.erase) (Lazy.LazyFilter.ne ops.erase) (inc tag ops)
    (deref ops)

/-- A `LazyFilter` whose predicate has the tag `tag`, used as a `_Range`. -/
def rangeOps (tag : Nat) (ops : TIterOps I V) :
    TRangeOps (Lazy.LazyFilter V I) (Lazy.LazyFilter V I) :=
  TRangeOps.mk (begin tag ops) Lazy.LazyFilter.end_

end LazyFilter

namespace LazyMap

variable {S D I : Type}

/-- The prefix increment `LazyMap::operator++`. -/
def inc (ops : TIterOps I S) (fuel : Nat) (c : Lazy.LazyMap S D I) : TRes (Lazy.LazyMap S D I) :=
  if ops.ne c._cur c._end then
    match ops.inc fuel c._cur with
    | .error f => .error f
    | .ok (cur1, t) => .ok (Lazy.LazyMap.mk c._begin c._end cur1 c._map, t)
  else .ok (c, [])

/-- The dereference `LazyMap::operator*`; the call `_map( *_cur )` records `tag`. -/
def deref (tag : Nat) (ops : TIterOps I S) (c : Lazy.LazyMap S D I) : TRes D :=
  if ops.eq c._cur c._end then .error Fault.derefEnd
  else
    match ops.deref c._cur with
    | .error f => .error f
    | .ok (v, t) => .ok (c._map v, t ++ [tag])

/-- A `LazyMap` whose conversion function has the tag `tag`, used as an `_Iter`. -/
def iterOps (tag : Nat) (ops : TIterOps I S) : TIterOps (Lazy.LazyMap S D I) D :=
  TIterOps.mk (Lazy.LazyMap.eq ops.erase) (Lazy.LazyMap.ne ops.erase) (inc ops) (deref tag ops)

/-- A `LazyMap` used as a `_Range`. -/
def rangeOps : TRangeOps (Lazy.LazyMap S D I) (Lazy.LazyMap S D I) :=
  TRangeOps.mk (fun _ c => .ok (Lazy.LazyMap.begin c, [])) Lazy.LazyMap.end_

end LazyMap

namespace LazyLimit

variable {V I : Type}

/-- The dereference `LazyLimit::operator*`. -/
def deref (ops : TIterOps I V) (c : Lazy.LazyLimit I) : TRes V :=
  if c._index == c._limit || ops.eq c._cur c._end then .error Fault.derefEnd
  else ops.deref c._cur

/-- The inner loop of `LazyLimit::operator++`. -/
def drain (ops : TIterOps I V) (fuel : Nat) (e : I) : Nat → I → TRes I
  | 0, _ => .error Fault.outOfFuel
  | k + 1, cur =>
    if ops.ne cur e then
      match ops.inc fuel cur with
      | .error f => .error f
      | .ok (cur1, t1) =>
        match drain ops fuel e k cur1 with
        | .error f => .error f
        | .ok (cur2, t2) => .ok (cur2, t1 ++ t2)
    else .ok (cur, [])

/-- The prefix increment `LazyLimit::operator++`. -/
def inc (ops : TIterOps I V) (fuel : Nat) (c : Lazy.LazyLimit I) : TRes (Lazy.LazyLimit I) :=
  if c._index != c._limit && ops.ne c._cur c._end then
    match ops.inc fuel c._cur with
    | .error f => .error f
    | .ok (cur1, t1) =>
      if ops.eq cur1 c._end then
        .ok (Lazy.LazyLimit.mk c._begin c._end cur1 c._limit c._limit, t1)
      else if c._index + 1 == c._limit then
        match drain ops fuel c._end fuel cur1 with
        | .error f => .error f
        | .ok (cur2, t2) =>
          .ok (Lazy.LazyLimit.mk c._begin c._end cur2 (c._index + 1) c._limit, t1 ++ t2)
      else .ok (Lazy.LazyLimit.mk c._begin c._end cur1 (c._index + 1) c._limit, t1)
  else .ok (c, [])

/-- A `LazyLimit` used as an `_Iter`. -/
def iterOps (ops : TIterOps I V) : TIterOps (Lazy.LazyLimit I) V :=
  TIterOps.mk (Lazy.LazyLimit.eq ops.erase) (Lazy.LazyLimit.ne ops.erase) (inc ops) (deref ops)

/-- A `LazyLimit` used as a `_Range`. -/
def rangeOps (ops : TIterOps I V) : TRangeOps (Lazy.LazyLimit I) (Lazy.LazyLimit I) :=
  TRangeOps.mk (fun _ c => .ok (Lazy.LazyLimit.begin ops.erase c, [])) Lazy.LazyLimit.end_

end LazyLimit

/-- A `ContainerRange` used as a `_Range`. -/
def ContainerRange.rangeOps : TRangeOps Lazy.ContainerRange Nat :=
  TRangeOps.mk (fun _ c => .ok (Lazy.ContainerRange.begin c, [])) Lazy.ContainerRange.end_

namespace LazyRange

variable {R I V W : Type}

/-- The transformation `LazyRange::Map`, which evaluates `std::begin( _range )`
for its first and for its third constructor argument. -/
def Map (rops : TRangeOps R I) (fuel : Nat) (s : Lazy.LazyRange R) (map : V → W) :
    TRes (Lazy.LazyRange (Lazy.LazyMap V W I)) :=
  match rops.begin fuel s._range with
  | .error f => .error f
  | .ok (b, t1) =>
    match rops.begin fuel s._range with
    | .error f => .error f
    | .ok (cur, t2) =>
      .ok (Lazy.LazyRange.mk (Lazy.LazyMap.mk b (rops.end_ s._range) cur map), t1 ++ t2)

/-- The transformation `LazyRange::Filter`. -/
def Filter (rops : TRangeOps R I) (fuel : Nat) (s : Lazy.LazyRange R) (pred : V → Bool) :
    TRes (Lazy.LazyRange (Lazy.LazyFilter V I)) :=
  match rops.begin fuel s._range with
  | .error f => .error f
  | .ok (b, t1) =>
    match rops.begin fuel s._range with
    | .error f => .error f
    | .ok (cur, t2) =>
      .ok (Lazy.LazyRange.mk (Lazy.LazyFilter.mk b (rops.end_ s._range) cur pred), t1 ++ t2)

/-- The transformation `LazyRange::Limit`. -/
def Limit (rops : TRangeOps R I) (fuel : Nat) (s : Lazy.LazyRange R) (limit : Nat) :
    TRes (Lazy.LazyRange (Lazy.LazyLimit I)) :=
  match rops.begin fuel s._range with
  | .error f => .error f
  | .ok (b, t1) =>
    match rops.begin fuel s._range with
    | .error f => .error f
    | .ok (cur, t2) =>
      .ok (Lazy.LazyRange.mk (Lazy.LazyLimit.mk b (rops.end_ s._range) cur 0 limit), t1 ++ t2)

/-- The member `LazyRange::First`. -/
def First (rops : TRangeOps R I) (ops : TIterOps I V) (fuel : Nat) (s : Lazy.LazyRange R) :
    TRes (Optional V) :=
  match rops.begin fuel s._range with
  | .error f => .error f
  | .ok (it, t1) =>
    if ops.ne it (rops.end_ s._range) then
      match ops.deref it with
      | .error f => .error f
      | .ok (val, t2) => .ok (Optional.True val, t1 ++ t2)
    else .ok (Optional.False, t1)

end LazyRange

/-- The call `S.Map( f )` on `S = MakeLazy( source ).Filter( P )`, the predicate
tagged `0`: its result and the user functions the call invokes. -/
def mapOverFilter {V W : Type} (source : List V) (P : V → Bool) (f : V → W) (fuel : Nat) :
    TRes (Lazy.LazyRange (Lazy.LazyMap V W (Lazy.LazyFilter V Nat))) :=
  match LazyRange.Filter ContainerRange.rangeOps fuel (MakeLazy source) P with
  | .error e => .error e
  | .ok (s, _) => LazyRange.Map (LazyFilter.rangeOps 0 (stdIter source).silent) fuel s f

/-- The call `S.First()` on `S = MakeLazy( source ).Map( f )`, the conversion
function tagged `0`: its result and the user functions the call invokes. -/
def mapFirst {V W : Type} (source : List V) (f : V → W) (fuel : Nat) : TRes (Optional W) :=
  match LazyRange.Map ContainerRange.rangeOps fuel (MakeLazy source) f with
  | .error e => .error e
  | .ok (s, _) =>
    LazyRange.First LazyMap.rangeOps (LazyMap.iterOps 0 (stdIter source).silent) fuel s

/-- The call `S.First()` on `S = MakeLazy( source ).Map( f ).Filter( P )`, the
conversion function tagged `0` and the predicate tagged `1`: its result and
the user functions the call invokes. -/
def mapFilterFirst {V W : Type} (source : List V) (f : V → W) (P : W → Bool) (fuel : Nat) :
    TRes (Optional W) :=
  match LazyRange.Map ContainerRange.rangeOps fuel (MakeLazy source) f with
  | .error e => .error e
  | .ok (s1, _) =>
    match LazyRange.Filter LazyMap.rangeOps fuel s1 P with
    | .error e => .error e
    | .ok (s2, _) =>
      LazyRange.First (LazyFilter.rangeOps 1 (LazyMap.iterOps 0 (stdIter source).silent))
        (LazyFilter.iterOps 1 (LazyMap.iterOps 0 (stdIter source).silent)) fuel s2

/-- The call `S.begin()` on `S = MakeLazy( source ).Filter( P ).Filter( Q )`, the
predicate `P` tagged `0` and `Q` tagged `1`: its result and the user functions
the call invokes. -/
def filterOverFilterBegin {V : Type} (source : List V) (P Q : V → Bool) (fuel : Nat) :
    TRes (Lazy.LazyFilter V (Lazy.LazyFilter V Nat)) :=
  match LazyRange.Filter ContainerRange.rangeOps fuel (MakeLazy source) P with
  | .error e => .error e
  | .ok (s1, _) =>
    match LazyRange.Filter (LazyFilter.rangeOps 0 (stdIter source).silent) fuel s1 Q with
    | .error e => .error e
    | .ok (s2, _) =>
      (LazyFilter.rangeOps 1 (LazyFilter.iterOps 0 (stdIter source).silent)).begin fuel s2._range

/-- The call `S.Map( f )` on `S = MakeLazy( source ).Filter( P ).Filter( Q )`, the
predicate `P` tagged `0` and `Q` tagged `1`: its result and the user functions
the call invokes. -/
def mapOverFilterFilter {V W : Type} (source : List V) (P Q : V → Bool) (f : V → W)
    (fuel : Nat) :
    TRes (Lazy.LazyRange (Lazy.LazyMap V W (Lazy.LazyFilter V (Lazy.LazyFilter V Nat)))) :=
  match LazyRange.Filter ContainerRange.rangeOps fuel (MakeLazy source) P with
  | .error e => .error e
  | .ok (s1, _) =>
    match LazyRange.Filter (LazyFilter.rangeOps 0 (stdIter source).silent) fuel s1 Q with
    | .error e => .error e
    | .ok (s2, _) =>
      LazyRange.Map (LazyFilter.rangeOps 1 (LazyFilter.iterOps 0 (stdIter source).silent))
        fuel s2 f

end Traced

end Lazy

/-!
# The tuple helpers of `TupleHelper.h`

A `std::tuple<T 0, ..., T (k - 1)>` is a dependent function on `Fin k`, and
`std::get<i>( t )` is `t i`.  The comparison `==` of each component type is
its `BEq` instance.
-/

namespace TupleHelper

/-- The type `std::tuple<T 0, ..., T (k - 1)>`. -/
abbrev Tuple {k : Nat} (T : Fin k → Type) : Type := (i : Fin k) → T i

/-- The function `_AnyEqualHelper<N, _Tuple>::Compare`: the specialisation for
`N = 0` compares the components at index `0`; for larger `N` it returns true
when the components at index `N` are equal and otherwise continues with
`N - 1`. -/
def _AnyEqualHelper.Compare {k : Nat} {T : Fin k → Type} [∀ i, BEq (T i)] :
    (N : Nat) → N < k → Tuple T → Tuple T → Bool
  | 0, h, l, r => l ⟨0, h⟩ == r ⟨0, h⟩
  | N + 1, h, l, r =>
    if l ⟨N + 1, h⟩ == r ⟨N + 1, h⟩ then true
    else _AnyEqualHelper.Compare N (Nat.lt_of_succ_lt h) l r

/-- The function `AnyEqual( l, r )` on tuples `std::tuple<_First, _Rest...>` of
arity `n + 1`, where `n` is `sizeof...( _Rest )`. -/
def AnyEqual {n : Nat} {T : Fin (n + 1) → Type} [∀ i, BEq (T i)] (l r : Tuple T) : Bool :=
  _AnyEqualHelper.Compare n (Nat.lt_succ_self n) l r

end TupleHelper

/-!
# The zip iterator of `ZipIterator.h`

The collections zipped are `cs i : List (T i)` for `i : Fin k`.  An iterator
into a collection is the position it points at; reading or stepping an
iterator that is not below the length of its collection is undefined
behaviour.  `Sequence<0, ..., k - 1>` expands `Deref` and `Increment` over
every component.
-/

namespace Zip

open Lazy (Res Fault)

/-- The struct `_IterCollection<_Iters...>`: its `_iteratorPack`. -/
structure _IterCollection (k : Nat) where
  _iteratorPack : TupleHelper.Tuple (fun _ : Fin k => Nat)

namespace _IterCollection

variable {k n : Nat} {T : Fin k → Type}

/-- The member `_IterCollection::MatchAny`. -/
def MatchAny (a b : _IterCollection (n + 1)) : Bool :=
  TupleHelper.AnyEqual a._iteratorPack b._iteratorPack

/-- The comparison `_IterCollection::operator==`: equality of the tuples. -/
def eq (a b : _IterCollection k) : Bool :=
  decide (∀ i, a._iteratorPack i = b._iteratorPack i)

/-- The comparison `_IterCollection::operator!=`. -/
def ne (a b : _IterCollection k) : Bool :=
  !eq a b

/-- The member `_IterCollection::Deref`: the tuple of `*std::get<S>( _iteratorPack )`. -/
def Deref (cs : (i : Fin k) → List (T i)) (c : _IterCollection k) : Res (TupleHelper.Tuple T) :=
  if h : ∀ i, c._iteratorPack i < (cs i).length then
    .ok (fun i => (cs i).get ⟨c._iteratorPack i, h i⟩)
  else .error Fault.undefined

/-- The member `_IterCollection::Increment`: `operator++` on every component. -/
def Increment (cs : (i : Fin k) → List (T i)) (c : _IterCollection k) :
    Res (_IterCollection k) :=
  if ∀ i, c._iteratorPack i < (cs i).length then
    .ok (_IterCollection.mk (fun i => c._iteratorPack i + 1))
  else .error Fault.undefined

end _IterCollection

/-- The class `ZipIterator<_Iters...>`. -/
structure ZipIterator (k : Nat) where
  _curIters : _IterCollection k

namespace ZipIterator

variable {k n : Nat} {T : Fin k → Type}

/-- The dereference `ZipIterator::operator*`. -/
def deref (cs : (i : Fin k) → List (T i)) (it : ZipIterator k) : Res (TupleHelper.Tuple T) :=
  it._curIters.Deref cs

/-- The prefix increment `ZipIterator::operator++`. -/
def inc (cs : (i : Fin k) → List (T i)) (it : ZipIterator k) : Res (ZipIterator k) :=
  match it._curIters.Increment cs with
  | .error f => .error f
  | .ok c => .ok (ZipIterator.mk c)

/-- The comparison `ZipIterator::operator==`: one matching component is enough. -/
def eq (a b : ZipIterator (n + 1)) : Bool :=
  a._curIters.MatchAny b._curIters

/-- The comparison `ZipIterator::operator!=`. -/
def ne (a b : ZipIterator (n + 1)) : Bool :=
  !eq a b

end ZipIterator

/-- The class `ZipCollection<_Iters...>`. -/
structure ZipCollection (k : Nat) where
  _begins : _IterCollection k
  _ends : _IterCollection k

/-- The member `ZipCollection::begin`. -/
def ZipCollection.begin {k : Nat} (z : ZipCollection k) : ZipIterator k :=
  ZipIterator.mk z._begins

/-- The member `ZipCollection::end`. -/
def ZipCollection.end_ {k : Nat} (z : ZipCollection k) : ZipIterator k :=
  ZipIterator.mk z._ends

/-- The function `Zip( args... )`: the begins and the ends of the collections. -/
def Zip {k : Nat} {T : Fin k → Type} (cs : (i : Fin k) → List (T i)) : ZipCollection k :=
  ZipCollection.mk (_IterCollection.mk (fun _ => 0))
    (_IterCollection.mk (fun i => (cs i).length))

/-- The range-based for loop over a zip collection, from the iterator `it`,
with `out` the tuples its body has received so far:
`for ( ; it != end; ++it ) { auto tuple = *it; ... }` -/
def loop {n : Nat} {T : Fin (n + 1) → Type} (cs : (i : Fin (n + 1)) → List (T i))
    (e : ZipIterator (n + 1)) :
    Nat → ZipIterator (n + 1) → List (TupleHelper.Tuple T) → Res (List (TupleHelper.Tuple T))
  | 0, _, _ => .error Fault.outOfFuel
  | f + 1, it, out =>
    if ZipIterator.ne it e then
      match ZipIterator.deref cs it with
      | .error x => .error x
      | .ok tuple =>
        match ZipIterator.inc cs it with
        | .error x => .error x
        | .ok it1 => loop cs e f it1 (out ++ [tuple])
    else .ok out

/-- The tuples that `for ( auto tuple : Zip( cs... ) )` hands to its body. -/
def forEach {n : Nat} {T : Fin (n + 1) → Type} (cs : (i : Fin (n + 1)) → List (T i))
    (fuel : Nat) : Res (List (TupleHelper.Tuple T)) :=
  loop cs (Zip cs).end_ fuel (Zip cs).begin []

/-- The two collections of the test "Two vectors, different length": five
elements zipped with two. -/
def testDifferentLength : (i : Fin 2) → List Nat :=
  fun i => if i = 0 then [1, 2, 3, 4, 5] else [10, 20]

end Zip

/-! ## Further expressions of `Lazy.h` the properties are stated about -/

namespace Lazy

/-- What the range-based for loop does at the iterator `it`: it reads the
elements of `l` one after another, each test `it != e`, dereference and
increment succeeding with `fuel`, and then finds `it != e` false. -/
def Reads {I V : Type} (ops : IterOps I V) (fuel : Nat) (e : I) : I → List V → Prop
  | it, [] => ops.ne it e = false
  | it, v :: t =>
    ops.ne it e = true ∧ ops.deref it = .ok v ∧
      ∃ it1, ops.inc fuel it = .ok it1 ∧ Reads ops fuel e it1 t

/-- The loop of `ToVector` once more, returning the iterator at which it stops:
`for ( ; it != end; ++it ) { auto elem = *it; ret.push_back( elem ); }` -/
def LazyRange.stopsAt {I V : Type} (ops : IterOps I V) (fuel : Nat) (e : I) : Nat → I → Res I
  | 0, _ => .error Fault.outOfFuel
  | k + 1, it =>
    if ops.ne it e then
      match ops.deref it with
      | .error f => .error f
      | .ok _ =>
        match ops.inc fuel it with
        | .error f => .error f
        | .ok it1 => LazyRange.stopsAt ops fuel e k it1
    else .ok it

/-- The comparison `it == s.end()` for the iterator `it` that the traversal
of `ToVector` has reached when its loop stops. -/
def LazyRange.reachedIsEnd {R I V : Type} (rops : RangeOps R I) (ops : IterOps I V)
    (fuel : Nat) (s : LazyRange R) : Res Bool :=
  match rops.begin fuel s._range with
  | .error f => .error f
  | .ok b =>
    match LazyRange.stopsAt ops fuel (rops.end_ s._range) fuel b with
    | .error f => .error f
    | .ok it => .ok (ops.eq it (rops.end_ s._range))

/-- The cursor `MakeLazy( source ).Limit( n ).Limit( m ).begin()`. -/
def limitLimitBegin {V : Type} (source : List V) (n m : Nat) (fuel : Nat) :
    Res (LazyLimit (LazyLimit Nat)) :=
  match limitSeq source n fuel with
  | .error f => .error f
  | .ok s1 =>
    match s1.Limit (LazyLimit.rangeOps (stdIter source)) fuel m with
    | .error f => .error f
    | .ok s2 => LazyRange.begin (LazyLimit.rangeOps (LazyLimit.iterOps (stdIter source))) fuel s2

/-- The statement `++it;` on `it = MakeLazy( source ).Limit( n ).Limit( m ).begin()`. -/
def limitLimitBeginInc {V : Type} (source : List V) (n m : Nat) (fuel : Nat) :
    Res (LazyLimit (LazyLimit Nat)) :=
  match limitLimitBegin source n m fuel with
  | .error f => .error f
  | .ok it => LazyLimit.inc (LazyLimit.iterOps (stdIter source)) fuel it

/-- Two dereferences of the same `LazyMap` cursor, `auto x = *c; auto y = *c;`,
with the user functions they invoke. -/
def Traced.LazyMap.derefTwice {S D I : Type} (tag : Nat) (ops : TIterOps I S)
    (c : LazyMap S D I) : TRes (D × D) :=
  match Traced.LazyMap.deref tag ops c with
  | .error f => .error f
  | .ok (x, t1) =>
    match Traced.LazyMap.deref tag ops c with
    | .error f => .error f
    | .ok (y, t2) => .ok ((x, y), t1 ++ t2)

end Lazy

/-! ## ForEachInTuple -/

namespace TupleHelper

/-- The function `_ForEachInTupleHelper<_Action, N, _TupleArgs...>::Call`.  The
action is a functor whose `operator()<Tuple, N>( tuple )` may change the tuple
(passed by reference) and its own state `σ`; `action N` is that call for the
index `N`.  The specialisation for `N = 0` calls the action at index `0`; for
larger `N` the action is called at index `N` and then `Call` for `N - 1`. -/
def _ForEachInTupleHelper.Call {k : Nat} {T : Fin k → Type} {σ : Type}
    (action : Nat → Tuple T → σ → Tuple T × σ) : Nat → Tuple T → σ → Tuple T × σ
  | 0, tuple, st => action 0 tuple st
  | N + 1, tuple, st =>
    let after := action (N + 1) tuple st
    _ForEachInTupleHelper.Call action N after.1 after.2

/-- The function `ForEachInTuple( tuple, action )` on a tuple of arity `n + 1`
(the `static_assert` rejects the empty tuple): `Call` for `N = sizeof... - 1`. -/
def ForEachInTuple {n : Nat} {T : Fin (n + 1) → Type} {σ : Type} (tuple : Tuple T)
    (action : Nat → Tuple T → σ → Tuple T × σ) (st : σ) : Tuple T × σ :=
  _ForEachInTupleHelper.Call action n tuple st

/-- An action that leaves the tuple alone and records the index it is invoked with. -/
def recordIndex {k : Nat} {T : Fin k → Type} : Nat → Tuple T → List Nat → Tuple T × List Nat :=
  fun N tuple log => (tuple, log ++ [N])

end TupleHelper

/-! ## The positions a zip traversal visits -/

namespace Zip

open Lazy (Res Fault)

/-- The range-based for loop over a zip collection once more, returning the
iterators at which it tests `it != end`, in order; every one but the last is
dereferenced and incremented. -/
def visited {n : Nat} {T : Fin (n + 1) → Type} (cs : (i : Fin (n + 1)) → List (T i))
    (e : ZipIterator (n + 1)) :
    Nat → ZipIterator (n + 1) → List (ZipIterator (n + 1)) → Res (List (ZipIterator (n + 1)))
  | 0, _, _ => .error Fault.outOfFuel
  | f + 1, it, seen =>
    if ZipIterator.ne it e then
      match ZipIterator.deref cs it with
      | .error x => .error x
      | .ok _ =>
        match ZipIterator.inc cs it with
        | .error x => .error x
        | .ok it1 => visited cs e f it1 (seen ++ [it])
    else .ok (seen ++ [it])

/-- The iterators visited by `for ( auto tuple : Zip( cs... ) )`. -/
def forEachVisited {n : Nat} {T : Fin (n + 1) → Type} (cs : (i : Fin (n + 1)) → List (T i))
    (fuel : Nat) : Res (List (ZipIterator (n + 1))) :=
  visited cs (Zip cs).end_ fuel (Zip cs).begin []

/-- The zip iterator all of whose components stand at position `j`. -/
def allAt (k : Nat) (j : Nat) : ZipIterator k :=
  ZipIterator.mk (_IterCollection.mk (fun _ => j))

end Zip

/-!
# The propositional logic templates of `Propositional.h`

The part of the header compiled when `SIMPLE` is not defined.  An expression
type is built from variable types (structs deriving from `Truth`, such as `A`,
`B`, `C`) with the templates `Not`, `And`, `Or`, `Implies` and `Equals`.
`BuildExpr` turns an expression type and typed arguments into an expression
object, whose `operator()` evaluates it.  A template instantiation that does
not compile has no result (`none`).
-/

namespace Propositional

/-- An expression type over the variable types `Var`. -/
inductive ExpType (Var : Type) where
  /-- A variable type: a struct deriving from `Truth`, with `NArgs = NoArg`. -/
  | truth (v : Var)
  | Not (Exp : ExpType Var)
  | And (Exp1 Exp2 : ExpType Var)
  | Or (Exp1 Exp2 : ExpType Var)
  | Implies (Exp1 Exp2 : ExpType Var)
  | Equals (Exp1 Exp2 : ExpType Var)
  deriving DecidableEq, Repr

/-- An expression object: a value of an expression type. -/
inductive Expr (Var : Type) where
  /-- An object of a variable type, holding `Truth::val`. -/
  | truth (v : Var) (val : Bool)
  | Not (exp : Expr Var)
  | And (exp1 exp2 : Expr Var)
  | Or (exp1 exp2 : Expr Var)
  | Implies (exp1 exp2 : Expr Var)
  | Equals (exp1 exp2 : Expr Var)
  deriving DecidableEq, Repr

/-- The call operator `operator()` of an expression object. -/
def Expr.call {Var : Type} : Expr Var → Bool
  | .truth _ val => val
  | .Not exp => !exp.call
  | .And exp1 exp2 => exp1.call && exp2.call
  | .Or exp1 exp2 => exp1.call || exp2.call
  | .Implies exp1 exp2 => !(exp1.call && !exp2.call)
  | .Equals exp1 exp2 => exp1.call == exp2.call

/-- The function `TypeArgMatching<Desired, Args...>::GetArg`: the first
argument whose type is `Desired`; an argument is given with its type.  With no
such argument the call does not compile. -/
def TypeArgMatching.GetArg {Var : Type} [DecidableEq Var] (Desired : Var) :
    List (Var × Bool) → Option Bool
  | [] => none
  | (First, first) :: args =>
    if Desired = First then some first else TypeArgMatching.GetArg Desired args

/-- The function `BuildExpr<Exp, Truths...>::DoBuild`, selected by `Exp::NArgs`. -/
def BuildExpr.DoBuild {Var : Type} [DecidableEq Var] :
    ExpType Var → List (Var × Bool) → Option (Expr Var)
  | .truth v, args => (TypeArgMatching.GetArg v args).map (Expr.truth v)
  | .Not Exp, args => (BuildExpr.DoBuild Exp args).map Expr.Not
  | .And Exp1 Exp2, args =>
    match BuildExpr.DoBuild Exp1 args, BuildExpr.DoBuild Exp2 args with
    | some exp1, some exp2 => some (Expr.And exp1 exp2)
    | _, _ => none
  | .Or Exp1 Exp2, args =>
    match BuildExpr.DoBuild Exp1 args, BuildExpr.DoBuild Exp2 args with
    | some exp1, some exp2 => some (Expr.Or exp1 exp2)
    | _, _ => none
  | .Implies Exp1 Exp2, args =>
    match BuildExpr.DoBuild Exp1 args, BuildExpr.DoBuild Exp2 args with
    | some exp1, some exp2 => some (Expr.Implies exp1 exp2)
    | _, _ => none
  | .Equals Exp1 Exp2, args =>
    match BuildExpr.DoBuild Exp1 args, BuildExpr.DoBuild Exp2 args with
    | some exp1, some exp2 => some (Expr.Equals exp1 exp2)
    | _, _ => none

/-- The function `BuildExpr<Exp, Truths...>::Build( args... )`. -/
def BuildExpr.Build {Var : Type} [DecidableEq Var] (Exp : ExpType Var)
    (args : List (Var × Bool)) : Option (Expr Var) :=
  BuildExpr.DoBuild Exp args

/-- The expression `BuildExpr<Exp, Truths...>::Build( args... )()`. -/
def BuildExpr.result {Var : Type} [DecidableEq Var] (Exp : ExpType Var)
    (args : List (Var × Bool)) : Option Bool :=
  (BuildExpr.Build Exp args).map Expr.call

/-- The enumeration `Validity`. -/
inductive Validity where
  | Always
  | Never
  | Unknown
  deriving DecidableEq, Repr

/-- The overload `CheckValidity<Exp, Truth1>()`. -/
def CheckValidity1 {Var : Type} [DecidableEq Var] (Exp : ExpType Var) (Truth1 : Var) :
    Option Validity :=
  match BuildExpr.result Exp [(Truth1, true)], BuildExpr.result Exp [(Truth1, false)] with
  | some result1, some result2 =>
    if !result1 && !result2 then some Validity.Never
    else if result1 && result2 then some Validity.Always
    else some Validity.Unknown
  | _, _ => none

/-- The overload `CheckValidity<Exp, Truth1, Truth2>()`.  The four calls of
`Build` instantiate the same template, so they compile or fail together;
their results are compared in the order of the source. -/
def CheckValidity2 {Var : Type} [DecidableEq Var] (Exp : ExpType Var) (Truth1 Truth2 : Var) :
    Option Validity :=
  match BuildExpr.result Exp [(Truth1, true), (Truth2, true)],
    BuildExpr.result Exp [(Truth1, true), (Truth2, false)],
    BuildExpr.result Exp [(Truth1, false), (Truth2, true)],
    BuildExpr.result Exp [(Truth1, false), (Truth2, false)] with
  | some r1, some r2, some r3, some r4 =>
    if r2 != r1 then some Validity.Unknown
    else if r3 != r1 then some Validity.Unknown
    else if r4 != r1 then some Validity.Unknown
    else some (if r1 then Validity.Always else Validity.Never)
  | _, _, _, _ => none

/-- The body of the loop `for ( int i = 1; i < 8; i++ )` of the overload with
three variables, for the values of `i` still to come. -/
def CheckValidity3.loop {Var : Type} [DecidableEq Var] (Exp : ExpType Var) (T1 T2 T3 : Var)
    (first : Bool) : List Nat → Option Validity
  | [] => some (if first then Validity.Always else Validity.Never)
  | i :: rest =>
    match BuildExpr.result Exp [(T1, i / 2 != 0), (T2, i % 2 != 0), (T3, i % 4 != 0)] with
    | none => none
    | some next =>
      if next != first then some Validity.Unknown
      else CheckValidity3.loop Exp T1 T2 T3 first rest

/-- The overload `CheckValidity<Exp, T1, T2, T3>()`. -/
def CheckValidity3 {Var : Type} [DecidableEq Var] (Exp : ExpType Var) (T1 T2 T3 : Var) :
    Option Validity :=
  match BuildExpr.result Exp [(T1, false), (T2, false), (T3, false)] with
  | none => none
  | some first => CheckValidity3.loop Exp T1 T2 T3 first [1, 2, 3, 4, 5, 6, 7]

/-- The variable types `A`, `B`, `C` of the header. -/
inductive Atom where
  | A
  | B
  | C
  deriving DecidableEq, Repr

/-- The variable types that occur in an expression type. -/
def ExpType.vars {Var : Type} : ExpType Var → List Var
  | .truth v => [v]
  | .Not Exp => Exp.vars
  | .And Exp1 Exp2 => Exp1.vars ++ Exp2.vars
  | .Or Exp1 Exp2 => Exp1.vars ++ Exp2.vars
  | .Implies Exp1 Exp2 => Exp1.vars ++ Exp2.vars
  | .Equals Exp1 Exp2 => Exp1.vars ++ Exp2.vars

/-- The truth-table value of an expression type under an assignment of truth
values to the variable types, as the specification words it: `Not` is
negation, `And` conjunction, `Or` disjunction, `Implies<X, Y>` is (not X) or Y,
and `Equals<X, Y>` is X if and only if Y. -/
def ExpType.value {Var : Type} (assignment : Var → Bool) : ExpType Var → Bool
  | .truth v => assignment v
  | .Not X => !(X.value assignment)
  | .And X Y => X.value assignment && Y.value assignment
  | .Or X Y => X.value assignment || Y.value assignment
  | .Implies X Y => !(X.value assignment) || Y.value assignment
  | .Equals X Y => decide (X.value assignment = true ↔ Y.value assignment = true)

/-- The assignment that gives `T1`, `T2`, `T3` the values `b1`, `b2`, `b3`. -/
def assign3 {Var : Type} [DecidableEq Var] (T1 T2 T3 : Var) (b1 b2 b3 : Bool) : Var → Bool :=
  fun v => if v = T1 then b1 else if v = T2 then b2 else if v = T3 then b3 else false

/-- The assignment that gives `T1`, `T2` the values `b1`, `b2`. -/
def assign2 {Var : Type} [DecidableEq Var] (T1 T2 : Var) (b1 b2 : Bool) : Var → Bool :=
  fun v => if v = T1 then b1 else if v = T2 then b2 else false

/-- The assignment that gives `T1` the value `b1`. -/
def assign1 {Var : Type} [DecidableEq Var] (T1 : Var) (b1 : Bool) : Var → Bool :=
  fun v => if v = T1 then b1 else false

end Propositional

/-! ## Iterating a well-behaved iterator -/

namespace Lazy

variable {R I V W : Type}

theorem Yields.nil_iff (ops : IterOps I V) (fuel : Nat) (e it : I) :
    Yields ops fuel e it [] ↔ it = e := Iff.rfl

theorem Yields.cons_iff (ops : IterOps I V) (fuel : Nat) (e it : I) (v : V) (t : List V) :
    Yields ops fuel e it (v :: t) ↔
      (ops.eq it e = false ∧ ops.deref it = .ok v ∧
        ∃ it1, ops.inc fuel it = .ok it1 ∧ Yields ops fuel e it1 t) := Iff.rfl

/-- The loop of `ToVector` over a well-behaved iterator appends what it reads. -/
theorem collect_of_yields (ops : IterOps I V) (hl : Lawful ops) (fuel : Nat) (e : I) :
    ∀ (l : List V) (k : Nat) (it : I) (ret : List V),
      Yields ops fuel e it l → l.length < k →
      LazyRange.collect ops fuel e k it ret = .ok (ret ++ l) := by
  intro l
  induction l with
  | nil =>
    intro k it ret hy hk
    rw [Yields.nil_iff] at hy
    subst hy
    obtain ⟨k, rfl⟩ : ∃ j, k = j + 1 := ⟨k - 1, by simp at hk; omega⟩
    simp [LazyRange.collect, hl.ne_not, hl.eq_self]
  | cons v t ih =>
    intro k it ret hy hk
    rw [Yields.cons_iff] at hy
    obtain ⟨h1, h2, it1, h3, h4⟩ := hy
    obtain ⟨k, rfl⟩ : ∃ j, k = j + 1 := ⟨k - 1, by simp at hk; omega⟩
    have hk2 : t.length < k := by simp at hk; omega
    simp [LazyRange.collect, hl.ne_not, h1, h2, h3, ih k it1 (ret ++ [v]) h4 hk2]

/-- A raw container iterator at position `pre.length` reads the rest of the container. -/
theorem stdIter_yields_append (fuel : Nat) :
    ∀ (suf pre : List V),
      Yields (stdIter (pre ++ suf)) fuel (pre ++ suf).length pre.length suf := by
  intro suf
  induction suf with
  | nil => intro pre; simp [Yields.nil_iff]
  | cons v t ih =>
    intro pre
    rw [Yields.cons_iff]
    have hget : (pre ++ v :: t)[pre.length]? = some v := by
      rw [List.getElem?_append_right (le_refl _)]
      simp
    refine ⟨by simp [stdIter], by simp [stdIter, hget], pre.length + 1, by simp [stdIter], ?_⟩
    have := ih (pre ++ [v])
    simpa using this

theorem stdIter_yields (fuel : Nat) (cont : List V) :
    Yields (stdIter cont) fuel cont.length 0 cont := by
  simpa using stdIter_yields_append fuel cont ([] : List V)

theorem stdIter_lawful (cont : List V) : Lawful (stdIter cont) :=
  ⟨by intro a; simp [stdIter], by intro a b; simp [stdIter, bne]⟩

/-! ## The Filter stage over a well-behaved iterator -/

theorem filter_dropWhile_not (p : V → Bool) :
    ∀ l : List V, (l.dropWhile (fun x => !p x)).filter p = l.filter p := by
  intro l
  induction l with
  | nil => rfl
  | cons v t ih =>
    cases hv : p v <;> simp [List.dropWhile, List.filter, hv, ih]

theorem dropWhile_not_head (p : V → Bool) :
    ∀ (l : List V) (v : V) (t : List V), l.dropWhile (fun x => !p x) = v :: t → p v = true := by
  intro l
  induction l with
  | nil => intro v t h; simp at h
  | cons w u ih =>
    intro v t h
    cases hw : p w
    · simp [List.dropWhile, hw] at h
      exact ih v t h
    · simp [List.dropWhile, hw] at h
      rw [← h.1]; exact hw

theorem dropWhile_not_length_le (p : V → Bool) (l : List V) :
    (l.dropWhile (fun x => !p x)).length ≤ l.length := by
  induction l with
  | nil => simp
  | cons w u ih =>
    cases hw : p w <;> simp [List.dropWhile, hw]
    omega

/-- The loop of `LazyFilter::begin` stops at the first element satisfying the predicate. -/
theorem seek_of_yields (ops : IterOps I V) (hl : Lawful ops) (fuel : Nat) (e : I) (p : V → Bool) :
    ∀ (l : List V) (k : Nat) (c : I), Yields ops fuel e c l → l.length < k →
      ∃ c1, LazyFilter.seek ops fuel e p k c = .ok c1 ∧
        Yields ops fuel e c1 (l.dropWhile (fun x => !p x)) := by
  intro l
  induction l with
  | nil =>
    intro k c hy hk
    rw [Yields.nil_iff] at hy
    subst hy
    obtain ⟨k, rfl⟩ : ∃ j, k = j + 1 := ⟨k - 1, by simp at hk; omega⟩
    exact ⟨c, by simp [LazyFilter.seek, hl.ne_not, hl.eq_self], by simp [Yields.nil_iff]⟩
  | cons v t ih =>
    intro k c hy hk
    have hy0 := hy
    rw [Yields.cons_iff] at hy
    obtain ⟨h1, h2, c1, h3, h4⟩ := hy
    obtain ⟨k, rfl⟩ : ∃ j, k = j + 1 := ⟨k - 1, by simp at hk; omega⟩
    have hk2 : t.length < k := by simp at hk; omega
    cases hv : p v
    · obtain ⟨c2, h5, h6⟩ := ih k c1 h4 hk2
      exact ⟨c2, by simp [LazyFilter.seek, hl.ne_not, h1, h2, h3, hv, h5],
        by simpa [List.dropWhile, hv] using h6⟩
    · exact ⟨c, by simp [LazyFilter.seek, hl.ne_not, h1, h2, hv],
        by simpa [List.dropWhile, hv] using hy0⟩

/-- The loop of `LazyFilter::operator++` stops at the next element satisfying the predicate. -/
theorem skip_of_yields (ops : IterOps I V) (hl : Lawful ops) (fuel : Nat) (e : I) (p : V → Bool) :
    ∀ (t : List V) (k : Nat) (c : I) (v : V), Yields ops fuel e c (v :: t) → t.length < k →
      ∃ c1, LazyFilter.skip ops fuel e p k c = .ok c1 ∧
        Yields ops fuel e c1 (t.dropWhile (fun x => !p x)) := by
  intro t
  induction t with
  | nil =>
    intro k c v hy hk
    rw [Yields.cons_iff] at hy
    obtain ⟨_, _, c1, h3, h4⟩ := hy
    rw [Yields.nil_iff] at h4
    subst h4
    obtain ⟨k, rfl⟩ : ∃ j, k = j + 1 := ⟨k - 1, by simp at hk; omega⟩
    exact ⟨c1, by simp [LazyFilter.skip, h3, hl.ne_not, hl.eq_self], by simp [Yields.nil_iff]⟩
  | cons w u ih =>
    intro k c v hy hk
    rw [Yields.cons_iff] at hy
    obtain ⟨_, _, c1, h3, h4⟩ := hy
    have h40 := h4
    rw [Yields.cons_iff] at h4
    obtain ⟨g1, g2, _⟩ := h4
    obtain ⟨k, rfl⟩ : ∃ j, k = j + 1 := ⟨k - 1, by simp at hk; omega⟩
    have hk2 : u.length < k := by simp at hk; omega
    cases hw : p w
    · obtain ⟨c2, h5, h6⟩ := ih k c1 w h40 hk2
      exact ⟨c2, by simp [LazyFilter.skip, h3, hl.ne_not, g1, g2, hw, h5],
        by simpa [List.dropWhile, hw] using h6⟩
    · exact ⟨c1, by simp [LazyFilter.skip, h3, hl.ne_not, g1, g2, hw],
        by simpa [List.dropWhile, hw] using h40⟩

theorem filter_iterOps_lawful (ops : IterOps I V) (hl : Lawful ops) :
    Lawful (LazyFilter.iterOps ops) :=
  ⟨by intro a; simp [LazyFilter.iterOps, LazyFilter.eq, hl.eq_self],
   by intro a b; rfl⟩

/-- A filter cursor standing on a matching element (or at the end) reads the
matching elements of what its inner iterator reads. -/
theorem filter_yields (ops : IterOps I V) (hl : Lawful ops) (fuel : Nat) (b e : I)
    (p : V → Bool) :
    ∀ (n : Nat) (l : List V) (c : I), l.length ≤ n → l.length < fuel →
      Yields ops fuel e c l → (∀ v t, l = v :: t → p v = true) →
      Yields (LazyFilter.iterOps ops) fuel (LazyFilter.mk b e e p) (LazyFilter.mk b e c p)
        (l.filter p) := by
  intro n
  induction n with
  | zero =>
    intro l c hn _ hy _
    have : l = [] := List.length_eq_zero.mp (by omega)
    subst this
    rw [Yields.nil_iff] at hy
    subst hy
    simp [Yields.nil_iff]
  | succ n ih =>
    intro l c hn hf hy hp
    cases l with
    | nil =>
      rw [Yields.nil_iff] at hy
      subst hy
      simp [Yields.nil_iff]
    | cons v t =>
      have hv : p v = true := hp v t rfl
      have hy0 := hy
      rw [Yields.cons_iff] at hy
      obtain ⟨h1, h2, _, _, _⟩ := hy
      have htf : t.length < fuel := by simp at hf; omega
      obtain ⟨c2, h5, h6⟩ := skip_of_yields ops hl fuel e p t fuel c v hy0 htf
      have hlen := dropWhile_not_length_le p t
      have hrec := ih (t.dropWhile (fun x => !p x)) c2 (by simp at hn; omega) (by omega) h6
        (dropWhile_not_head p t)
      rw [filter_dropWhile_not] at hrec
      rw [List.filter_cons_of_pos hv, Yields.cons_iff]
      refine ⟨by simp [LazyFilter.iterOps, LazyFilter.eq, h1],
        by simp [LazyFilter.iterOps, LazyFilter.deref, h1, h2],
        LazyFilter.mk b e c2 p, by simp [LazyFilter.iterOps, LazyFilter.inc, h1, h5], hrec⟩

/-- `Filter` over a sequence denoting `l` denotes the matching elements of `l`. -/
theorem Denotes.filter (rops : RangeOps R I) (ops : IterOps I V) (fuel : Nat)
    (s : LazyRange R) (l : List V) (p : V → Bool)
    (h : Denotes rops ops fuel s l) (hf : l.length < fuel) :
    ∃ s1, s.Filter rops fuel p = .ok s1 ∧
      Denotes (LazyFilter.rangeOps ops) (LazyFilter.iterOps ops) fuel s1 (l.filter p) := by
  obtain ⟨hl, b, hb, hy⟩ := h
  obtain ⟨c1, h5, h6⟩ := seek_of_yields ops hl fuel (rops.end_ s._range) p l fuel b hy hf
  have hlen := dropWhile_not_length_le p l
  have hrec := filter_yields ops hl fuel b (rops.end_ s._range) p l.length
    (l.dropWhile (fun x => !p x)) c1 hlen (by omega) h6 (dropWhile_not_head p l)
  rw [filter_dropWhile_not] at hrec
  refine ⟨LazyRange.mk (LazyFilter.mk b (rops.end_ s._range) b p),
    by simp [LazyRange.Filter, hb], filter_iterOps_lawful ops hl,
    LazyFilter.mk b (rops.end_ s._range) c1 p, ?_, hrec⟩
  simp [LazyFilter.rangeOps, LazyFilter.begin, h5]

/-- `ToVector` of a sequence denoting `l` returns `l`. -/
theorem Denotes.toVector (rops : RangeOps R I) (ops : IterOps I V) (fuel : Nat)
    (s : LazyRange R) (l : List V)
    (h : Denotes rops ops fuel s l) (hf : l.length < fuel) :
    s.ToVector rops ops fuel = .ok l := by
  obtain ⟨hl, b, hb, hy⟩ := h
  have := collect_of_yields ops hl fuel (rops.end_ s._range) l fuel b [] hy hf
  simpa [LazyRange.ToVector, hb] using this

/-- `MakeLazy( container )` denotes the container. -/
theorem Denotes.makeLazy (fuel : Nat) (cont : List V) :
    Denotes ContainerRange.rangeOps (stdIter cont) fuel (MakeLazy cont) cont :=
  ⟨stdIter_lawful cont, 0, rfl, stdIter_yields fuel cont⟩

/-! ## The Map stage over a well-behaved iterator -/

theorem map_iterOps_lawful (ops : IterOps I V) (hl : Lawful ops) :
    Lawful (LazyMap.iterOps ops : IterOps (LazyMap V W I) W) :=
  ⟨by intro a; simp [LazyMap.iterOps, LazyMap.eq, hl.eq_self],
   by intro a b; rfl⟩

/-- A map cursor reads the images of what its inner iterator reads. -/
theorem map_yields (ops : IterOps I V) (hl : Lawful ops) (fuel : Nat) (b e : I) (f : V → W) :
    ∀ (l : List V) (c : I), Yields ops fuel e c l →
      Yields (LazyMap.iterOps ops) fuel (LazyMap.mk b e e f) (LazyMap.mk b e c f)
        (l.map f) := by
  intro l
  induction l with
  | nil =>
    intro c hy
    rw [Yields.nil_iff] at hy
    subst hy
    simp [Yields.nil_iff]
  | cons v t ih =>
    intro c hy
    rw [Yields.cons_iff] at hy
    obtain ⟨h1, h2, c1, h3, h4⟩ := hy
    rw [List.map_cons, Yields.cons_iff]
    exact ⟨by simp [LazyMap.iterOps, LazyMap.eq, h1],
      by simp [LazyMap.iterOps, LazyMap.deref, h1, h2],
      LazyMap.mk b e c1 f, by simp [LazyMap.iterOps, LazyMap.inc, hl.ne_not, h1, h3],
      ih c1 h4⟩

/-- `Map` over a sequence denoting `l` denotes the images of `l`. -/
theorem Denotes.map (rops : RangeOps R I) (ops : IterOps I V) (fuel : Nat)
    (s : LazyRange R) (l : List V) (f : V → W)
    (h : Denotes rops ops fuel s l) :
    ∃ s1, s.Map rops fuel f = .ok s1 ∧
      Denotes LazyMap.rangeOps (LazyMap.iterOps ops) fuel s1 (l.map f) := by
  obtain ⟨hl, b, hb, hy⟩ := h
  exact ⟨LazyRange.mk (LazyMap.mk b (rops.end_ s._range) b f),
    by simp [LazyRange.Map, hb], map_iterOps_lawful ops hl,
    LazyMap.mk b (rops.end_ s._range) b f, rfl,
    map_yields ops hl fuel b (rops.end_ s._range) f l b hy⟩

/-! ## The Limit stage over a well-behaved iterator -/

theorem limit_iterOps_lawful (ops : IterOps I V) (hl : Lawful ops) :
    Lawful (LazyLimit.iterOps ops) :=
  ⟨by intro a; simp [LazyLimit.iterOps, LazyLimit.eq, hl.eq_self],
   by intro a b; rfl⟩

/-- The loop `while ( _cur != _end ) ++_cur;` reaches the inner end. -/
theorem drain_of_yields (ops : IterOps I V) (hl : Lawful ops) (fuel : Nat) (e : I) :
    ∀ (l : List V) (k : Nat) (c : I), Yields ops fuel e c l → l.length < k →
      LazyLimit.drain ops fuel e k c = .ok e := by
  intro l
  induction l with
  | nil =>
    intro k c hy hk
    rw [Yields.nil_iff] at hy
    subst hy
    obtain ⟨k, rfl⟩ : ∃ j, k = j + 1 := ⟨k - 1, by simp at hk; omega⟩
    simp [LazyLimit.drain, hl.ne_not, hl.eq_self]
  | cons v t ih =>
    intro k c hy hk
    rw [Yields.cons_iff] at hy
    obtain ⟨h1, _, c1, h3, h4⟩ := hy
    obtain ⟨k, rfl⟩ : ∃ j, k = j + 1 := ⟨k - 1, by simp at hk; omega⟩
    have hk2 : t.length < k := by simp at hk; omega
    simp [LazyLimit.drain, hl.ne_not, h1, h3, ih k c1 h4 hk2]

/-- A limit cursor whose counter is below the limit and whose inner iterator
is not at its end reads the next `_limit - _index` elements. -/
theorem limit_yields (ops : IterOps I V) (hl : Lawful ops) (fuel : Nat) (b e : I) (n : Nat) :
    ∀ (l : List V) (c : I) (idx : Nat), Yields ops fuel e c l → l ≠ [] → idx < n →
      l.length < fuel →
      Yields (LazyLimit.iterOps ops) fuel (LazyLimit.mk b e e n n) (LazyLimit.mk b e c idx n)
        (l.take (n - idx)) := by
  intro l
  induction l with
  | nil => intro c idx _ h; exact absurd rfl h
  | cons v t ih =>
    intro c idx hy _ hidx hf
    rw [Yields.cons_iff] at hy
    obtain ⟨h1, h2, c1, h3, h4⟩ := hy
    have htf : t.length < fuel := by simp at hf; omega
    obtain ⟨m, hm⟩ : ∃ m, n - idx = m + 1 := ⟨n - idx - 1, by omega⟩
    have hne : idx ≠ n := by omega
    rw [hm, List.take_succ_cons, Yields.cons_iff]
    refine ⟨by simp [LazyLimit.iterOps, LazyLimit.eq, h1],
      by simp [LazyLimit.iterOps, LazyLimit.deref, h1, h2, hne], ?_⟩
    cases t with
    | nil =>
      rw [Yields.nil_iff] at h4
      subst h4
      exact ⟨LazyLimit.mk b c1 c1 n n,
        by simp [LazyLimit.iterOps, LazyLimit.inc, hl.ne_not, hl.eq_self, h1, h3, hne],
        by simp [Yields.nil_iff]⟩
    | cons w u =>
      have h40 := h4
      rw [Yields.cons_iff] at h4
      obtain ⟨g1, _, _⟩ := h4
      by_cases hlim : idx + 1 = n
      · have hd := drain_of_yields ops hl fuel e (w :: u) fuel c1 h40 htf
        have hm0 : m = 0 := by omega
        refine ⟨LazyLimit.mk b e e (idx + 1) n,
          by simp [LazyLimit.iterOps, LazyLimit.inc, hl.ne_not, h1, h3, hne, g1, hlim, hd], ?_⟩
        subst hm0
        rw [List.take_zero, Yields.nil_iff, hlim]
      · have hrec := ih c1 (idx + 1) h40 (by simp) (by omega) htf
        have hm1 : n - (idx + 1) = m := by omega
        rw [hm1] at hrec
        exact ⟨LazyLimit.mk b e c1 (idx + 1) n,
          by simp [LazyLimit.iterOps, LazyLimit.inc, hl.ne_not, h1, h3, hne, g1, hlim], hrec⟩

/-- `Limit( n )` over a sequence denoting `l` denotes the first `n` elements of
`l`, as long as `n` is positive or `l` is empty. -/
theorem Denotes.limit (rops : RangeOps R I) (ops : IterOps I V) (fuel : Nat)
    (s : LazyRange R) (l : List V) (n : Nat)
    (h : Denotes rops ops fuel s l) (hf : l.length < fuel) (hn : 0 < n ∨ l = []) :
    ∃ s1, s.Limit rops fuel n = .ok s1 ∧
      Denotes (LazyLimit.rangeOps ops) (LazyLimit.iterOps ops) fuel s1 (l.take n) := by
  obtain ⟨hl, b, hb, hy⟩ := h
  refine ⟨LazyRange.mk (LazyLimit.mk b (rops.end_ s._range) b 0 n),
    by simp [LazyRange.Limit, hb], limit_iterOps_lawful ops hl,
    LazyLimit.begin ops (LazyLimit.mk b (rops.end_ s._range) b 0 n), rfl, ?_⟩
  cases l with
  | nil =>
    rw [Yields.nil_iff] at hy
    subst hy
    simp [LazyLimit.rangeOps, LazyLimit.begin, LazyLimit.end_, hl.eq_self, Yields.nil_iff]
  | cons v t =>
    have hpos : 0 < n := by
      rcases hn with h | h
      · exact h
      · simp at h
    have hy0 := hy
    rw [Yields.cons_iff] at hy
    obtain ⟨h1, _, _⟩ := hy
    have := limit_yields ops hl fuel b (rops.end_ s._range) n (v :: t) b 0 hy0 (by simp) hpos hf
    simpa [LazyLimit.rangeOps, LazyLimit.begin, LazyLimit.end_, h1] using this

/-! ## First -/

/-- `First` of a sequence denoting `l` holds the head of `l`. -/
theorem Denotes.first (rops : RangeOps R I) (ops : IterOps I V) (fuel : Nat)
    (s : LazyRange R) (l : List V) (h : Denotes rops ops fuel s l) :
    s.First rops ops fuel =
      .ok (match l with
        | [] => Optional.False
        | v :: _ => Optional.True v) := by
  obtain ⟨hl, b, hb, hy⟩ := h
  cases l with
  | nil =>
    rw [Yields.nil_iff] at hy
    subst hy
    simp [LazyRange.First, hb, hl.ne_not, hl.eq_self]
  | cons v t =>
    rw [Yields.cons_iff] at hy
    obtain ⟨h1, h2, _⟩ := hy
    simp [LazyRange.First, hb, hl.ne_not, h1, h2]

/-! ## Single stages over a container -/

theorem filterSeq_denotes (source : List V) (P : V → Bool) (fuel : Nat)
    (hf : source.length < fuel) :
    ∃ s, filterSeq source P fuel = .ok s ∧
      Denotes (LazyFilter.rangeOps (stdIter source)) (LazyFilter.iterOps (stdIter source))
        fuel s (source.filter P) :=
  Denotes.filter ContainerRange.rangeOps (stdIter source) fuel (MakeLazy source) source P
    (Denotes.makeLazy fuel source) hf

theorem mapSeq_denotes (source : List V) (f : V → W) (fuel : Nat) :
    ∃ s, mapSeq source f fuel = .ok s ∧
      Denotes LazyMap.rangeOps (LazyMap.iterOps (stdIter source)) fuel s (source.map f) :=
  Denotes.map ContainerRange.rangeOps (stdIter source) fuel (MakeLazy source) source f
    (Denotes.makeLazy fuel source)

theorem limitSeq_denotes (source : List V) (n : Nat) (fuel : Nat)
    (hf : source.length < fuel) (hn : 0 < n ∨ source = []) :
    ∃ s, limitSeq source n fuel = .ok s ∧
      Denotes (LazyLimit.rangeOps (stdIter source)) (LazyLimit.iterOps (stdIter source))
        fuel s (source.take n) :=
  Denotes.limit ContainerRange.rangeOps (stdIter source) fuel (MakeLazy source) source n
    (Denotes.makeLazy fuel source) hf hn

theorem filterToVector_ok (source : List V) (P : V → Bool) (fuel : Nat)
    (hf : source.length < fuel) :
    filterToVector source P fuel = .ok (source.filter P) := by
  obtain ⟨s, hs, hd⟩ := filterSeq_denotes source P fuel hf
  have hlen : (source.filter P).length < fuel :=
    lt_of_le_of_lt (List.length_filter_le P source) hf
  simp only [filterToVector, hs]
  exact Denotes.toVector _ _ fuel s _ hd hlen

theorem mapToVector_ok (source : List V) (f : V → W) (fuel : Nat)
    (hf : source.length < fuel) :
    mapToVector source f fuel = .ok (source.map f) := by
  obtain ⟨s, hs, hd⟩ := mapSeq_denotes source f fuel
  simp only [mapToVector, hs]
  exact Denotes.toVector _ _ fuel s _ hd (by simpa using hf)

theorem limitToVector_ok (source : List V) (n : Nat) (fuel : Nat)
    (hf : source.length < fuel) (hn : 0 < n ∨ source = []) :
    limitToVector source n fuel = .ok (source.take n) := by
  obtain ⟨s, hs, hd⟩ := limitSeq_denotes source n fuel hf hn
  have hlen : (source.take n).length < fuel := by
    rw [List.length_take]
    omega
  simp only [limitToVector, hs]
  exact Denotes.toVector _ _ fuel s _ hd hlen

/-! ## Filter correctness -/

/-- C1: for every source and predicate `P`, with fuel beyond the length of the
source, `MakeLazy(source).Filter(P).ToVector()` returns the elements of the
source satisfying `P` in their original order; an always-true predicate
returns the source and an always-false predicate the empty list. -/
theorem filterToVector_eq_filter (source : List V) (P : V → Bool) (fuel : Nat)
    (hf : source.length < fuel) :
    filterToVector source P fuel = .ok (source.filter P) ∧
      filterToVector source (fun _ => true) fuel = .ok source ∧
      filterToVector source (fun _ => false) fuel = .ok [] := by
  refine ⟨filterToVector_ok source P fuel hf, ?_, ?_⟩
  · simpa using filterToVector_ok source (fun _ => true) fuel hf
  · simpa using filterToVector_ok source (fun _ => false) fuel hf

theorem filterToVector_eq_filter_witness :
    filterToVector [1, 2, 3, 4, 5, 6, 7, 8, 9] (fun x => x % 2 == 1) 10 = .ok [1, 3, 5, 7, 9] ∧
      filterToVector [1, 2, 3, 4, 5, 6, 7, 8, 9] (fun _ => true) 10
        = .ok [1, 2, 3, 4, 5, 6, 7, 8, 9] ∧
      filterToVector [1, 2, 3, 4, 5, 6, 7, 8, 9] (fun _ => false) 10 = .ok [] :=
  filterToVector_eq_filter [1, 2, 3, 4, 5, 6, 7, 8, 9] (fun x => x % 2 == 1) 10 (by decide)

/-! ## Map correctness -/

/-- C2: for every source and function `f`, with fuel beyond the length of the
source, `MakeLazy(source).Map(f).ToVector()` returns a list of the length of
the source whose `i`-th element is `f(source[i])`. -/
theorem mapToVector_eq_map (source : List V) (f : V → W) (fuel : Nat)
    (hf : source.length < fuel) :
    ∃ l, mapToVector source f fuel = .ok l ∧ l.length = source.length ∧
      ∀ i (hi : i < source.length), l[i]? = some (f (source.get ⟨i, hi⟩)) := by
  refine ⟨source.map f, mapToVector_ok source f fuel hf, by simp, ?_⟩
  intro i hi
  simp [List.getElem?_map, List.getElem?_eq_getElem hi]

theorem mapToVector_eq_map_witness :
    ∃ l, mapToVector [1, 2, 3, 4] (fun x => x * 2) 5 = .ok l ∧ l.length = [1, 2, 3, 4].length ∧
      ∀ i (hi : i < [1, 2, 3, 4].length),
        l[i]? = some ((fun x => x * 2) ([1, 2, 3, 4].get ⟨i, hi⟩)) :=
  mapToVector_eq_map [1, 2, 3, 4] (fun x => x * 2) 5 (by decide)

/-! ## Limit -/

/-- A limit of zero over a sequence that reads at least one element: the
traversal of `ToVector` starts, and its first dereference throws. -/
theorem Denotes.limit_zero_toVector (rops : RangeOps R I) (ops : IterOps I V) (fuel : Nat)
    (s : LazyRange R) (v : V) (t : List V) (h : Denotes rops ops (fuel + 1) s (v :: t)) :
    ∃ s1, s.Limit rops (fuel + 1) 0 = .ok s1 ∧
      s1.ToVector (LazyLimit.rangeOps ops) (LazyLimit.iterOps ops) (fuel + 1)
        = .error Fault.derefEnd ∧
      s1.First (LazyLimit.rangeOps ops) (LazyLimit.iterOps ops) (fuel + 1)
        = .error Fault.derefEnd ∧
      s1.beginIsEnd (LazyLimit.rangeOps ops) (LazyLimit.iterOps ops) (fuel + 1) = .ok false := by
  obtain ⟨hl, b, hb, hy⟩ := h
  rw [Yields.cons_iff] at hy
  obtain ⟨h1, _, _⟩ := hy
  refine ⟨LazyRange.mk (LazyLimit.mk b (rops.end_ s._range) b 0 0),
    by simp [LazyRange.Limit, hb], ?_, ?_, ?_⟩
  · simp [LazyRange.ToVector, LazyRange.collect, LazyLimit.rangeOps, LazyLimit.iterOps,
      LazyLimit.begin, LazyLimit.end_, LazyLimit.ne, LazyLimit.eq, LazyLimit.deref, h1]
  · simp [LazyRange.First, LazyLimit.rangeOps, LazyLimit.iterOps,
      LazyLimit.begin, LazyLimit.end_, LazyLimit.ne, LazyLimit.eq, LazyLimit.deref, h1]
  · simp [LazyRange.beginIsEnd, LazyLimit.rangeOps, LazyLimit.iterOps,
      LazyLimit.begin, LazyLimit.end_, LazyLimit.eq, h1]

/-- C3 (at the failing input): over a non-empty source `MakeLazy(source).Limit(0).ToVector()`
does not return the empty list; with any positive fuel it throws the
dereference-past-end exception. -/
theorem limitToVector_zero_throws (v : V) (t : List V) (fuel : Nat) :
    limitToVector (v :: t) 0 (fuel + 1) = .error Fault.derefEnd := by
  obtain ⟨s1, hs, h, _, _⟩ := Denotes.limit_zero_toVector ContainerRange.rangeOps
    (stdIter (v :: t)) fuel (MakeLazy (v :: t)) v t (Denotes.makeLazy (fuel + 1) (v :: t))
  simp only [limitToVector, limitSeq, hs]
  exact h

/-- C8: for every source and every limit `n` greater than the length of the
source, with fuel beyond that length, `MakeLazy(source).Limit(n).ToVector()`
returns the whole source. -/
theorem limitToVector_high (source : List V) (n : Nat) (fuel : Nat)
    (hn : source.length < n) (hf : source.length < fuel) :
    limitToVector source n fuel = .ok source := by
  have h := limitToVector_ok source n fuel hf (Or.inl (by omega))
  rwa [List.take_of_length_le (by omega)] at h

theorem limitToVector_high_witness :
    limitToVector [1, 2, 3, 4, 5, 6, 7, 8, 9] 100 10 = .ok [1, 2, 3, 4, 5, 6, 7, 8, 9] :=
  limitToVector_high [1, 2, 3, 4, 5, 6, 7, 8, 9] 100 10 (by decide) (by decide)

/-! ## Composition -/

/-- With a positive limit (or nothing passing the filter) the chain
`Filter(P).Map(f).Limit(n)` agrees with the eager operations on a list. -/
theorem filterMapLimitToVector_ok (source : List V) (P : V → Bool) (f : V → W) (n : Nat)
    (fuel : Nat) (hf : source.length < fuel) (hn : 0 < n ∨ source.filter P = []) :
    filterMapLimitToVector source P f n fuel = .ok (((source.filter P).map f).take n) := by
  obtain ⟨s1, hs1, hd1⟩ := filterSeq_denotes source P fuel hf
  obtain ⟨s2, hs2, hd2⟩ := Denotes.map _ _ fuel s1 _ f hd1
  have hlen : ((source.filter P).map f).length < fuel := by
    rw [List.length_map]
    exact lt_of_le_of_lt (List.length_filter_le P source) hf
  have hn2 : 0 < n ∨ (source.filter P).map f = [] := by
    rcases hn with h | h
    · exact Or.inl h
    · exact Or.inr (by simp [h])
  obtain ⟨s3, hs3, hd3⟩ := Denotes.limit _ _ fuel s2 _ n hd2 hlen hn2
  have hlen3 : (((source.filter P).map f).take n).length < fuel := by
    rw [List.length_take]
    omega
  simp only [filterMapLimitToVector, hs1, hs2, hs3]
  exact Denotes.toVector _ _ fuel s3 _ hd3 hlen3

/-- C4 (at the failing input): with source `[1]`, a predicate that always
holds, the identity function and limit `0`, the eager result
`take(0, map(f, filter(P, source)))` is the empty list, while
`MakeLazy(source).Filter(P).Map(f).Limit(0).ToVector()` throws the
dereference-past-end exception with any fuel of two or more. -/
theorem filterMapLimitToVector_zero_throws (fuel : Nat) :
    filterMapLimitToVector [1] (fun _ => true) (fun x => x) 0 (fuel + 2)
        = .error Fault.derefEnd ∧
      (([1].filter (fun _ => true)).map (fun x => x)).take 0 = ([] : List Nat) := by
  constructor
  · rfl
  · rfl

/-! ## Traversal by the library -/

/-- C5 (at the failing input): with source `[1]` and limit `0` both
`MakeLazy(source).Limit(0).ToVector()` and `MakeLazy(source).Limit(0).First()`
throw the dereference-past-end exception, with any positive fuel. -/
theorem limit_zero_traversal_throws (fuel : Nat) :
    limitToVector [1] 0 (fuel + 1) = .error Fault.derefEnd ∧
      limitFirst [1] 0 (fuel + 1) = .error Fault.derefEnd := by
  constructor
  · rfl
  · rfl

/-! ## Empty source -/

/-- C6: over an empty source, with any positive fuel, `Filter(P).ToVector()`,
`Map(f).ToVector()` and `Limit(n).ToVector()` return the empty list, `First()`
of the source and of each of the three stages is absent, and in each case
`begin() == end()`. -/
theorem empty_source (P : V → Bool) (f : V → W) (n : Nat) (fuel : Nat) (hf : 0 < fuel) :
    (filterToVector ([] : List V) P fuel = .ok [] ∧
      mapToVector ([] : List V) f fuel = .ok [] ∧
      limitToVector ([] : List V) n fuel = .ok []) ∧
    ((MakeLazy ([] : List V)).First ContainerRange.rangeOps (stdIter ([] : List V)) fuel
        = .ok Optional.False ∧
      (∃ s, filterSeq ([] : List V) P fuel = .ok s ∧
        s.First (LazyFilter.rangeOps (stdIter [])) (LazyFilter.iterOps (stdIter [])) fuel
          = .ok Optional.False) ∧
      (∃ s, mapSeq ([] : List V) f fuel = .ok s ∧
        s.First LazyMap.rangeOps (LazyMap.iterOps (stdIter [])) fuel = .ok Optional.False) ∧
      limitFirst ([] : List V) n fuel = .ok Optional.False ∧
      (Optional.False : Optional V).toBool = false) ∧
    ((MakeLazy ([] : List V)).beginIsEnd ContainerRange.rangeOps (stdIter ([] : List V)) fuel
        = .ok true ∧
      (∃ s, filterSeq ([] : List V) P fuel = .ok s ∧
        s.beginIsEnd (LazyFilter.rangeOps (stdIter [])) (LazyFilter.iterOps (stdIter [])) fuel
          = .ok true) ∧
      (∃ s, mapSeq ([] : List V) f fuel = .ok s ∧
        s.beginIsEnd LazyMap.rangeOps (LazyMap.iterOps (stdIter [])) fuel = .ok true) ∧
      (∃ s, limitSeq ([] : List V) n fuel = .ok s ∧
        s.beginIsEnd (LazyLimit.rangeOps (stdIter ([] : List V)))
          (LazyLimit.iterOps (stdIter ([] : List V))) fuel = .ok true)) := by
  obtain ⟨k, rfl⟩ : ∃ j, fuel = j + 1 := ⟨fuel - 1, by omega⟩
  have hlim : limitToVector ([] : List V) n (k + 1) = .ok [] := by
    simpa using limitToVector_ok ([] : List V) n (k + 1) (by simp) (Or.inr rfl)
  have hfirst : limitFirst ([] : List V) n (k + 1) = .ok Optional.False := by
    simp [limitFirst, limitSeq, MakeLazy, ContainerRange.ofCont, ContainerRange.rangeOps,
      ContainerRange.begin, ContainerRange.end_, LazyRange.Limit, LazyRange.First,
      LazyLimit.rangeOps, LazyLimit.iterOps, LazyLimit.begin, LazyLimit.end_, LazyLimit.ne,
      LazyLimit.eq, stdIter]
  have hbe : ∃ s, limitSeq ([] : List V) n (k + 1) = .ok s ∧
      s.beginIsEnd (LazyLimit.rangeOps (stdIter ([] : List V)))
        (LazyLimit.iterOps (stdIter ([] : List V))) (k + 1) = .ok true := by
    refine ⟨_, rfl, ?_⟩
    simp [MakeLazy, ContainerRange.ofCont, ContainerRange.rangeOps,
      ContainerRange.begin, ContainerRange.end_, LazyRange.beginIsEnd,
      LazyLimit.rangeOps, LazyLimit.iterOps, LazyLimit.begin, LazyLimit.end_,
      LazyLimit.eq, stdIter]
  exact ⟨⟨rfl, rfl, hlim⟩, ⟨rfl, ⟨_, rfl, rfl⟩, ⟨_, rfl, rfl⟩, hfirst, rfl⟩,
    ⟨rfl, ⟨_, rfl, rfl⟩, ⟨_, rfl, rfl⟩, hbe⟩⟩

/-! ## First -/

theorem collect_extends (ops : IterOps I V) (fuel : Nat) (e : I) :
    ∀ (k : Nat) (it : I) (ret l : List V),
      LazyRange.collect ops fuel e k it ret = .ok l → ∃ t, l = ret ++ t := by
  intro k
  induction k with
  | zero => intro it ret l h; simp [LazyRange.collect] at h
  | succ k ih =>
    intro it ret l h
    rw [LazyRange.collect] at h
    split at h
    · split at h
      · simp at h
      · split at h
        · simp at h
        · obtain ⟨t, ht⟩ := ih _ _ _ h
          exact ⟨_ :: t, by simpa using ht⟩
    · exact ⟨[], by simpa using (Except.ok.inj h).symm⟩

/-- C7: for every sequence on which `ToVector()` returns a list, `First()`
returns an `Optional` that is present and holds the first element of that
list when the list is non-empty, and is absent (converts to false) when the
list is empty. -/
theorem first_eq_head_of_toVector (rops : RangeOps R I) (ops : IterOps I V) (fuel : Nat)
    (s : LazyRange R) (l : List V) (h : s.ToVector rops ops fuel = .ok l) :
    ∃ o, s.First rops ops fuel = .ok o ∧
      match l with
      | [] => o.exists_ = false ∧ o.toBool = false
      | v :: _ => o.exists_ = true ∧ o.toBool = true ∧ o.val = some v := by
  simp only [LazyRange.ToVector] at h
  simp only [LazyRange.First]
  cases hb : rops.begin fuel s._range with
  | error f => simp [hb] at h
  | ok b =>
    simp only [hb] at h
    cases fuel with
    | zero => simp [LazyRange.collect] at h
    | succ k =>
      rw [LazyRange.collect] at h
      cases hne : ops.ne b (rops.end_ s._range) with
      | false =>
        simp only [hne] at h
        have hl : l = [] := by simpa using (Except.ok.inj h).symm
        subst hl
        exact ⟨Optional.False, by simp [hne], rfl, rfl⟩
      | true =>
        simp only [hne, if_true] at h
        cases hd : ops.deref b with
        | error f => simp [hd] at h
        | ok v =>
          simp only [hd] at h
          cases hi : ops.inc (k + 1) b with
          | error f => simp [hi] at h
          | ok it1 =>
            simp only [hi] at h
            obtain ⟨t, ht⟩ := collect_extends ops (k + 1) _ k it1 _ l h
            subst ht
            exact ⟨Optional.True v, by simp [hne, hd], rfl, rfl, rfl⟩

theorem first_eq_head_of_toVector_witness :
    ∃ o, (MakeLazy [7, 8, 9]).First ContainerRange.rangeOps (stdIter [7, 8, 9]) 4 = .ok o ∧
      o.exists_ = true ∧ o.toBool = true ∧ o.val = some 7 :=
  first_eq_head_of_toVector ContainerRange.rangeOps (stdIter [7, 8, 9]) 4 (MakeLazy [7, 8, 9])
    [7, 8, 9] rfl

/-! ## The Limit stage at its limit -/

/-- C10 (at the failing input): over a non-empty source the begin cursor of
`Limit(0)` has its counter equal to the limit, and yet `begin() == end()` is
false. -/
theorem limit_zero_begin_ne_end (v : V) (t : List V) (fuel : Nat) :
    ∃ s, limitSeq (v :: t) 0 fuel = .ok s ∧
      (LazyLimit.begin (stdIter (v :: t)) s._range)._index
        = (LazyLimit.begin (stdIter (v :: t)) s._range)._limit ∧
      LazyLimit.eq (stdIter (v :: t)) (LazyLimit.begin (stdIter (v :: t)) s._range)
        (LazyLimit.end_ s._range) = false ∧
      s.beginIsEnd (LazyLimit.rangeOps (stdIter (v :: t))) (LazyLimit.iterOps (stdIter (v :: t)))
        fuel = .ok false := by
  refine ⟨_, rfl, ?_, ?_, ?_⟩ <;>
    simp [MakeLazy, ContainerRange.ofCont, ContainerRange.rangeOps, ContainerRange.begin,
      ContainerRange.end_, LazyRange.beginIsEnd, LazyLimit.rangeOps, LazyLimit.iterOps,
      LazyLimit.begin, LazyLimit.end_, LazyLimit.eq, stdIter]

/-! ## A Limit stage never yields more than its limit -/

theorem LazyLimit.deref_ok (ops : IterOps I V) (c : LazyLimit I) (v : V)
    (h : LazyLimit.deref ops c = .ok v) :
    c._index ≠ c._limit ∧ ops.eq c._cur c._end = false := by
  unfold LazyLimit.deref at h
  split at h
  · simp at h
  · rename_i hc
    simp at hc
    exact ⟨hc.1, by simpa using hc.2⟩

theorem LazyLimit.inc_counter (ops : IterOps I V) (fuel : Nat) (c c1 : LazyLimit I)
    (hidx : c._index ≠ c._limit) (hne : ops.ne c._cur c._end = true)
    (h : LazyLimit.inc ops fuel c = .ok c1) :
    c1._limit = c._limit ∧ (c1._index = c._index + 1 ∨ c1._index = c._limit) := by
  unfold LazyLimit.inc at h
  have hc : (c._index != c._limit && ops.ne c._cur c._end) = true := by simp [hidx, hne]
  rw [if_pos hc] at h
  cases hi : ops.inc fuel c._cur with
  | error f => simp [hi] at h
  | ok cur1 =>
    simp only [hi] at h
    by_cases h1 : ops.eq cur1 c._end = true
    · rw [if_pos h1] at h
      cases Except.ok.inj h
      exact ⟨rfl, Or.inr rfl⟩
    · rw [if_neg h1] at h
      by_cases h2 : (c._index + 1 == c._limit) = true
      · rw [if_pos h2] at h
        cases hd : LazyLimit.drain ops fuel c._end fuel cur1 with
        | error f => simp [hd] at h
        | ok cur2 =>
          simp only [hd] at h
          cases Except.ok.inj h
          exact ⟨rfl, Or.inl rfl⟩
      · rw [if_neg h2] at h
        cases Except.ok.inj h
        exact ⟨rfl, Or.inl rfl⟩

/-- While `ToVector` walks a limit cursor, the number of pushed elements stays
at or below the counter, and the counter at or below the limit. -/
theorem pushed_limit_length (ops : IterOps I V) (hne : ∀ a b, ops.ne a b = !ops.eq a b)
    (fuel : Nat) (e : LazyLimit I) (n : Nat) :
    ∀ (k : Nat) (c : LazyLimit I) (ret : List V),
      ret.length ≤ c._index → c._index ≤ c._limit → c._limit = n →
      (LazyRange.pushed (LazyLimit.iterOps ops) fuel e k c ret).length ≤ n := by
  intro k
  induction k with
  | zero =>
    intro c ret h1 h2 h3
    simp only [LazyRange.pushed]
    omega
  | succ k ih =>
    intro c ret h1 h2 h3
    rw [LazyRange.pushed]
    split
    · cases hd : (LazyLimit.iterOps ops).deref c with
      | error f => simp only []; omega
      | ok elem =>
        obtain ⟨g1, g2⟩ := LazyLimit.deref_ok ops c elem hd
        have g3 : ops.ne c._cur c._end = true := by simp [hne, g2]
        cases hi : (LazyLimit.iterOps ops).inc fuel c with
        | error f =>
          simp only [List.length_append, List.length_singleton]
          omega
        | ok it1 =>
          obtain ⟨q1, q2⟩ := LazyLimit.inc_counter ops fuel c it1 g1 g3 hi
          simp only []
          apply ih
          · simp only [List.length_append, List.length_singleton]
            omega
          · omega
          · omega
    · omega

theorem collect_eq_pushed (ops : IterOps I V) (fuel : Nat) (e : I) :
    ∀ (k : Nat) (it : I) (ret l : List V),
      LazyRange.collect ops fuel e k it ret = .ok l → LazyRange.pushed ops fuel e k it ret = l := by
  intro k
  induction k with
  | zero => intro it ret l h; simp [LazyRange.collect] at h
  | succ k ih =>
    intro it ret l h
    rw [LazyRange.collect] at h
    rw [LazyRange.pushed]
    split at h
    · rename_i hc
      rw [if_pos hc]
      cases hd : ops.deref it with
      | error f => simp [hd] at h
      | ok elem =>
        simp only [hd] at h ⊢
        cases hi : ops.inc fuel it with
        | error f => simp [hi] at h
        | ok it1 =>
          simp only [hi] at h ⊢
          exact ih _ _ _ h
    · rename_i hc
      rw [if_neg hc]
      exact Except.ok.inj h

/-- C9: for every inner sequence whose iterators have `!=` as the negation of
`==`, and for every limit `n`, the traversal that `ToVector()` performs on
`S.Limit(n)` pushes at most `n` elements before it ends or fails, and every
list that `S.Limit(n).ToVector()` returns has length at most `n`. -/
theorem limit_at_most (rops : RangeOps R I) (ops : IterOps I V)
    (hne : ∀ a b, ops.ne a b = !ops.eq a b) (fuel : Nat) (s : LazyRange R) (n : Nat)
    (s1 : LazyRange (LazyLimit I)) (h : s.Limit rops fuel n = .ok s1) :
    (s1.ToVectorPushed (LazyLimit.rangeOps ops) (LazyLimit.iterOps ops) fuel).length ≤ n ∧
      ∀ l, s1.ToVector (LazyLimit.rangeOps ops) (LazyLimit.iterOps ops) fuel = .ok l →
        l.length ≤ n := by
  have hs : s1._range._limit = n ∧ s1._range._index = 0 := by
    unfold LazyRange.Limit at h
    split at h
    · simp at h
    · cases Except.ok.inj h
      exact ⟨rfl, rfl⟩
  have hp : (s1.ToVectorPushed (LazyLimit.rangeOps ops) (LazyLimit.iterOps ops) fuel).length
      ≤ n := by
    simp only [LazyRange.ToVectorPushed, LazyLimit.rangeOps]
    apply pushed_limit_length ops hne fuel _ n
    · simp
    · simp only [LazyLimit.begin]
      split <;> omega
    · exact hs.1
  refine ⟨hp, ?_⟩
  intro l hl
  have : s1.ToVectorPushed (LazyLimit.rangeOps ops) (LazyLimit.iterOps ops) fuel = l := by
    simp only [LazyRange.ToVector, LazyLimit.rangeOps] at hl
    simp only [LazyRange.ToVectorPushed, LazyLimit.rangeOps]
    exact collect_eq_pushed _ fuel _ fuel _ [] l hl
  rw [← this]
  exact hp

theorem limit_at_most_witness :
    limitToVector [1, 2, 3] 2 4 = .ok [1, 2] ∧
      (LazyRange.ToVectorPushed (LazyLimit.rangeOps (stdIter [1, 2, 3]))
        (LazyLimit.iterOps (stdIter [1, 2, 3])) 4
        (LazyRange.mk (LazyLimit.mk 0 3 0 0 2))).length ≤ 2 ∧
      ([1, 2] : List Nat).length ≤ 2 :=
  ⟨rfl,
    (limit_at_most ContainerRange.rangeOps (stdIter [1, 2, 3])
      (stdIter_lawful [1, 2, 3]).ne_not 4 (MakeLazy [1, 2, 3]) 2 _ rfl).1,
    (limit_at_most ContainerRange.rangeOps (stdIter [1, 2, 3])
      (stdIter_lawful [1, 2, 3]).ne_not 4 (MakeLazy [1, 2, 3]) 2 _ rfl).2 [1, 2] rfl⟩

theorem empty_source_witness :
    limitToVector ([] : List Nat) 5 1 = .ok [] ∧
      limitFirst ([] : List Nat) 5 1 = .ok Optional.False :=
  ⟨(empty_source (fun _ => true) (fun x : Nat => x) 5 1 (by decide)).1.2.2,
    (empty_source (fun _ => true) (fun x : Nat => x) 5 1 (by decide)).2.1.2.2.2.1⟩

/-! ## The Filter stage: where a cursor stands -/

theorem seek_exit (ops : IterOps I V) (fuel : Nat) (e : I) (p : V → Bool) :
    ∀ (k : Nat) (b b1 : I), LazyFilter.seek ops fuel e p k b = .ok b1 →
      ops.ne b1 e = false ∨ ∃ v, ops.deref b1 = .ok v ∧ p v = true := by
  intro k
  induction k with
  | zero => intro b b1 h; simp [LazyFilter.seek] at h
  | succ k ih =>
    intro b b1 h
    rw [LazyFilter.seek] at h
    cases hne : ops.ne b e with
    | false =>
      simp only [hne] at h
      cases Except.ok.inj h
      exact Or.inl hne
    | true =>
      simp only [hne, if_true] at h
      cases hd : ops.deref b with
      | error f => simp [hd] at h
      | ok v =>
        simp only [hd] at h
        cases hp : p v with
        | true =>
          simp only [hp] at h
          cases Except.ok.inj h
          exact Or.inr ⟨v, hd, hp⟩
        | false =>
          simp only [hp] at h
          cases hi : ops.inc fuel b with
          | error f => simp [hi] at h
          | ok b2 =>
            simp only [hi] at h
            exact ih b2 b1 (by simpa using h)

theorem skip_exit (ops : IterOps I V) (fuel : Nat) (e : I) (p : V → Bool) :
    ∀ (k : Nat) (c c1 : I), LazyFilter.skip ops fuel e p k c = .ok c1 →
      ops.ne c1 e = false ∨ ∃ v, ops.deref c1 = .ok v ∧ p v = true := by
  intro k
  induction k with
  | zero => intro c c1 h; simp [LazyFilter.skip] at h
  | succ k ih =>
    intro c c1 h
    rw [LazyFilter.skip] at h
    cases hi : ops.inc fuel c with
    | error f => simp [hi] at h
    | ok c2 =>
      simp only [hi] at h
      cases hne : ops.ne c2 e with
      | false =>
        simp only [hne] at h
        cases Except.ok.inj h
        exact Or.inl hne
      | true =>
        simp only [hne, if_true] at h
        cases hd : ops.deref c2 with
        | error f => simp [hd] at h
        | ok v =>
          simp only [hd] at h
          cases hp : p v with
          | true =>
            simp only [hp] at h
            cases Except.ok.inj h
            exact Or.inr ⟨v, hd, hp⟩
          | false =>
            simp only [hp] at h
            exact ih c2 c1 (by simpa using h)

/-- C11 (counterexample): over the source `[2, 3]` with the predicate "is odd",
the cursor stored in `MakeLazy(source).Filter(P)` is not at the end sentinel
and `LazyRange::operator*` returns `2`, for which the predicate is false. -/
theorem filter_stored_cursor_fails_pred :
    ∃ s, filterSeq [2, 3] (fun x => x % 2 == 1) 3 = .ok s ∧
      LazyFilter.IsAtEnd (stdIter [2, 3]) s._range = false ∧
      LazyRange.deref (LazyFilter.iterOps (stdIter [2, 3])) s = .ok 2 ∧
      (fun x => x % 2 == 1) 2 = false :=
  ⟨_, rfl, rfl, rfl, rfl⟩

/-- C11 (amended): every `LazyFilter` cursor returned by `begin()` or by
`operator++` keeps the predicate and the end sentinel and stands either at the
end sentinel or at an element satisfying the predicate, so a successful
dereference of such a cursor never returns an element for which the predicate
is false. -/
theorem filter_cursor_invariant (ops : IterOps I V) (hne : ∀ a b, ops.ne a b = !ops.eq a b)
    (fuel : Nat) (c c1 : LazyFilter V I)
    (h : LazyFilter.begin ops fuel c = .ok c1 ∨ LazyFilter.inc ops fuel c = .ok c1) :
    c1._pred = c._pred ∧ c1._end = c._end ∧
      (ops.eq c1._cur c1._end = true ∨ ∃ v, ops.deref c1._cur = .ok v ∧ c._pred v = true) ∧
      ∀ v, LazyFilter.deref ops c1 = .ok v → c._pred v = true := by
  have key : c1._pred = c._pred ∧ c1._end = c._end ∧
      (ops.eq c1._cur c1._end = true ∨ ∃ v, ops.deref c1._cur = .ok v ∧ c._pred v = true) := by
    rcases h with h | h
    · unfold LazyFilter.begin at h
      cases hs : LazyFilter.seek ops fuel c._end c._pred fuel c._begin with
      | error f => simp [hs] at h
      | ok b =>
        simp only [hs] at h
        cases Except.ok.inj h
        refine ⟨rfl, rfl, ?_⟩
        rcases seek_exit ops fuel _ _ fuel _ b hs with h1 | h1
        · left
          simpa [hne] using h1
        · exact Or.inr h1
    · unfold LazyFilter.inc at h
      cases he : ops.eq c._cur c._end with
      | true =>
        simp only [he, if_true] at h
        cases Except.ok.inj h
        exact ⟨rfl, rfl, Or.inl he⟩
      | false =>
        simp only [he] at h
        cases hs : LazyFilter.skip ops fuel c._end c._pred fuel c._cur with
        | error f => simp [hs] at h
        | ok b =>
          simp only [hs] at h
          have h2 : LazyFilter.mk c._begin c._end b c._pred = c1 := by simpa using h
          subst h2
          refine ⟨rfl, rfl, ?_⟩
          rcases skip_exit ops fuel _ _ fuel _ b hs with h1 | h1
          · left
            simpa [hne] using h1
          · exact Or.inr h1
  refine ⟨key.1, key.2.1, key.2.2, ?_⟩
  intro v hv
  unfold LazyFilter.deref at hv
  rcases key.2.2 with h1 | ⟨w, hw, hp⟩
  · simp [h1] at hv
  · cases he : ops.eq c1._cur c1._end with
    | true => simp [he] at hv
    | false =>
      simp only [he] at hv
      rw [hw] at hv
      have : w = v := by simpa using hv
      rw [← this]
      exact hp

theorem filter_cursor_invariant_witness :
    LazyFilter.begin (stdIter [2, 3]) 3 (LazyFilter.mk 0 2 0 (fun x => x % 2 == 1))
        = .ok (LazyFilter.mk 0 2 1 (fun x => x % 2 == 1)) ∧
      ∀ v, LazyFilter.deref (stdIter [2, 3]) (LazyFilter.mk 0 2 1 (fun x => x % 2 == 1)) = .ok v →
        (fun x => x % 2 == 1) v = true :=
  have hb : LazyFilter.begin (stdIter [2, 3]) 3 (LazyFilter.mk 0 2 0 (fun x => x % 2 == 1))
      = .ok (LazyFilter.mk 0 2 1 (fun x => x % 2 == 1)) := rfl
  ⟨hb, (filter_cursor_invariant (stdIter [2, 3]) (stdIter_lawful [2, 3]).ne_not 3
    (LazyFilter.mk 0 2 0 (fun x => x % 2 == 1)) (LazyFilter.mk 0 2 1 (fun x => x % 2 == 1))
    (Or.inl hb)).2.2.2⟩

/-! ## Cursor equality -/

/-- C12 (counterexample): two cursors of the same stage type that are both at
end and compare unequal.  The end cursors of `MakeLazy([1, 2]).Filter(P).Filter(Q)`
for two different `P` both report `IsAtEnd()`, and the end cursors of
`MakeLazy([1]).Limit(2)` and `MakeLazy([1]).Limit(3)` each equal their own
`end()`; in both pairs `==` is false. -/
theorem at_end_cursors_not_equal :
    (∃ a b, filterFilterEnd [1, 2] (fun _ => true) (fun _ => true) 3 = .ok a ∧
      filterFilterEnd [1, 2] (fun x => x == 2) (fun _ => true) 3 = .ok b ∧
      LazyFilter.IsAtEnd (LazyFilter.iterOps (stdIter [1, 2])) a = true ∧
      LazyFilter.IsAtEnd (LazyFilter.iterOps (stdIter [1, 2])) b = true ∧
      LazyFilter.eq (LazyFilter.iterOps (stdIter [1, 2])) a b = false) ∧
    (∃ a b, limitEnd [1] 2 2 = .ok a ∧ limitEnd [1] 3 2 = .ok b ∧
      LazyLimit.eq (stdIter [1]) a (LazyLimit.end_ a) = true ∧
      LazyLimit.eq (stdIter [1]) b (LazyLimit.end_ b) = true ∧
      LazyLimit.eq (stdIter [1]) a b = false) :=
  ⟨⟨_, _, rfl, rfl, rfl, rfl, rfl⟩, ⟨_, _, rfl, rfl, rfl, rfl, rfl⟩⟩

/-- C12 (amended): two cursors of the same stage type compare equal exactly
when they point at the same position of the same range: their `_begin`, `_end`
and `_cur` compare equal, and for `LazyLimit` also `_index` and `_limit`.  Over
a container this is equality of the stored positions. -/
theorem cursor_eq_iff (ops : IterOps I V) (cont : List V) :
    ((∀ a b : LazyFilter V I, LazyFilter.eq ops a b = true ↔
        (ops.eq a._begin b._begin = true ∧ ops.eq a._end b._end = true ∧
          ops.eq a._cur b._cur = true)) ∧
      (∀ a b : LazyMap V W I, LazyMap.eq ops a b = true ↔
        (ops.eq a._begin b._begin = true ∧ ops.eq a._end b._end = true ∧
          ops.eq a._cur b._cur = true)) ∧
      (∀ a b : LazyLimit I, LazyLimit.eq ops a b = true ↔
        (ops.eq a._begin b._begin = true ∧ ops.eq a._end b._end = true ∧
          ops.eq a._cur b._cur = true ∧ a._index = b._index ∧ a._limit = b._limit))) ∧
    ((∀ a b : LazyFilter V Nat, LazyFilter.eq (stdIter cont) a b = true ↔
        (a._begin = b._begin ∧ a._end = b._end ∧ a._cur = b._cur)) ∧
      (∀ a b : LazyMap V W Nat, LazyMap.eq (stdIter cont) a b = true ↔
        (a._begin = b._begin ∧ a._end = b._end ∧ a._cur = b._cur)) ∧
      (∀ a b : LazyLimit Nat, LazyLimit.eq (stdIter cont) a b = true ↔ a = b)) := by
  refine ⟨⟨?_, ?_, ?_⟩, ⟨?_, ?_, ?_⟩⟩
  · intro a b
    simp only [LazyFilter.eq, Bool.and_eq_true]
    tauto
  · intro a b
    simp only [LazyMap.eq, Bool.and_eq_true]
    tauto
  · intro a b
    simp only [LazyLimit.eq, Bool.and_eq_true, beq_iff_eq]
    tauto
  · intro a b
    simp only [LazyFilter.eq, stdIter, Bool.and_eq_true, beq_iff_eq]
    tauto
  · intro a b
    simp only [LazyMap.eq, stdIter, Bool.and_eq_true, beq_iff_eq]
    tauto
  · intro a b
    cases a
    cases b
    simp only [LazyLimit.eq, stdIter, Bool.and_eq_true, beq_iff_eq, LazyLimit.mk.injEq]
    tauto

/-! ## Dereference -/

theorem iterateFrom_eq_collect (rops : RangeOps R I) (ops : IterOps I V) (fuel : Nat)
    (s : LazyRange R) :
    ∀ (k : Nat) (it : I) (out : List V),
      LazyRange.iterateFrom rops ops fuel s k it out
        = LazyRange.collect ops fuel (rops.end_ s._range) k it out := by
  intro k
  induction k with
  | zero => intro it out; rfl
  | succ k ih =>
    intro it out
    rw [LazyRange.iterateFrom, LazyRange.collect]
    simp only [LazyRange.end_]
    split
    · cases ops.deref it with
      | error f => rfl
      | ok v =>
        simp only []
        cases ops.inc fuel it with
        | error f => rfl
        | ok it1 => exact ih it1 (out ++ [v])
    · rfl

/-- C15: for every sequence, iterating it directly through `begin()` and
`end()` with `!=`, `*` and `++` gives the same outcome as `ToVector()`: the
same list in the same order when one of them returns, and the same fault
otherwise. -/
theorem iterate_eq_toVector (rops : RangeOps R I) (ops : IterOps I V) (fuel : Nat)
    (s : LazyRange R) :
    LazyRange.iterate rops ops fuel s = LazyRange.ToVector rops ops fuel s := by
  simp only [LazyRange.iterate, LazyRange.ToVector, LazyRange.begin]
  cases rops.begin fuel s._range with
  | error f => rfl
  | ok it => exact iterateFrom_eq_collect rops ops fuel s fuel it []

/-! ## Advancing at end -/

/-- C19: a `LazyFilter`, `LazyMap`, `LazyLimit` or `ContainerRange` cursor that
compares equal to its `end()` is left unchanged by `operator++`, so `++c == c`
and advancing again changes nothing. -/
theorem inc_at_end_noop (ops : IterOps I V) (hl : Lawful ops) (cont : List V) (fuel : Nat) :
    (∀ c : LazyFilter V I, LazyFilter.eq ops c (LazyFilter.end_ c) = true →
        LazyFilter.inc ops fuel c = .ok c ∧ LazyFilter.eq ops c c = true) ∧
      (∀ c : LazyMap V W I, LazyMap.eq ops c (LazyMap.end_ c) = true →
        LazyMap.inc ops fuel c = .ok c ∧ LazyMap.eq ops c c = true) ∧
      (∀ c : LazyLimit I, LazyLimit.eq ops c (LazyLimit.end_ c) = true →
        LazyLimit.inc ops fuel c = .ok c ∧ LazyLimit.eq ops c c = true) ∧
      (∀ c : ContainerRange, ContainerRange.IsAtEnd c = true →
        ContainerRange.inc cont fuel c = .ok c ∧ ContainerRange.eq c c = true) := by
  refine ⟨?_, ?_, ?_, ?_⟩
  · intro c h
    simp only [LazyFilter.eq, LazyFilter.end_, Bool.and_eq_true] at h
    exact ⟨by simp [LazyFilter.inc, h.1.1], by simp [LazyFilter.eq, hl.eq_self]⟩
  · intro c h
    simp only [LazyMap.eq, LazyMap.end_, Bool.and_eq_true] at h
    exact ⟨by simp [LazyMap.inc, hl.ne_not, h.2], by simp [LazyMap.eq, hl.eq_self]⟩
  · intro c h
    simp only [LazyLimit.eq, LazyLimit.end_, Bool.and_eq_true, beq_iff_eq] at h
    exact ⟨by simp [LazyLimit.inc, h.1.2], by simp [LazyLimit.eq, hl.eq_self]⟩
  · intro c h
    simp only [ContainerRange.IsAtEnd, beq_iff_eq] at h
    exact ⟨by simp [ContainerRange.inc, stdIter, h], by simp [ContainerRange.eq]⟩

theorem inc_at_end_noop_witness :
    LazyFilter.inc (stdIter [1, 2]) 3 (LazyFilter.mk 0 2 2 (fun _ => true))
        = .ok (LazyFilter.mk 0 2 2 (fun _ => true)) ∧
      LazyLimit.inc (stdIter [1, 2]) 3 (LazyLimit.mk 0 2 2 1 1) = .ok (LazyLimit.mk 0 2 2 1 1) :=
  ⟨((@inc_at_end_noop Nat Nat Nat (stdIter [1, 2]) (stdIter_lawful [1, 2]) [1, 2] 3).1
      (LazyFilter.mk 0 2 2 (fun _ => true)) rfl).1,
    ((@inc_at_end_noop Nat Nat Nat (stdIter [1, 2]) (stdIter_lawful [1, 2]) [1, 2] 3).2.2.1
      (LazyLimit.mk 0 2 2 1 1) rfl).1⟩

/-! ## Filter advance finds the next match -/

/-- The loop of `LazyFilter::begin` over a container stops at the least
position from `i` on whose element satisfies the predicate, or at the end. -/
theorem seek_stdIter (s : List V) (P : V → Bool) (fuel : Nat) :
    ∀ (d k i : Nat), i + d = s.length → d < k →
      ∃ j, LazyFilter.seek (stdIter s) fuel s.length P k i = .ok j ∧ i ≤ j ∧ j ≤ s.length ∧
        (∀ v, s[j]? = some v → P v = true) ∧
        (∀ m v, i ≤ m → m < j → s[m]? = some v → P v = false) := by
  intro d
  induction d with
  | zero =>
    intro k i hi hk
    obtain ⟨k, rfl⟩ : ∃ q, k = q + 1 := ⟨k - 1, by omega⟩
    have hie : i = s.length := by omega
    subst hie
    refine ⟨s.length, by simp [LazyFilter.seek, stdIter], le_refl _, le_refl _, ?_, ?_⟩
    · intro v hv
      simp at hv
    · intro m v h1 h2
      omega
  | succ d ih =>
    intro k i hi hk
    obtain ⟨k, rfl⟩ : ∃ q, k = q + 1 := ⟨k - 1, by omega⟩
    have hlt : i < s.length := by omega
    have hget : s[i]? = some s[i] := List.getElem?_eq_getElem hlt
    have hne : i ≠ s.length := by omega
    cases hp : P s[i] with
    | true =>
      refine ⟨i, by simp [LazyFilter.seek, stdIter, hne, hget, hp], le_refl _, by omega, ?_, ?_⟩
      · intro v hv
        rw [hget] at hv
        cases hv
        exact hp
      · intro m v h1 h2
        omega
    | false =>
      obtain ⟨j, h1, h2, h3, h4, h5⟩ := ih k (i + 1) (by omega) (by omega)
      have h1u := h1
      simp only [stdIter] at h1u
      refine ⟨j, by simp [LazyFilter.seek, stdIter, hne, hget, hp, hlt, h1u], by omega, h3, h4, ?_⟩
      intro m v g1 g2 g3
      by_cases hm : m = i
      · subst hm
        rw [hget] at g3
        cases g3
        exact hp
      · exact h5 m v (by omega) g2 g3

/-- The loop of `LazyFilter::operator++` over a container moves at least one
position and stops at the least later position whose element satisfies the
predicate, or at the end. -/
theorem skip_stdIter (s : List V) (P : V → Bool) (fuel : Nat) :
    ∀ (d k i : Nat), i + 1 + d = s.length → d < k →
      ∃ j, LazyFilter.skip (stdIter s) fuel s.length P k i = .ok j ∧ i < j ∧ j ≤ s.length ∧
        (∀ v, s[j]? = some v → P v = true) ∧
        (∀ m v, i < m → m < j → s[m]? = some v → P v = false) := by
  intro d
  induction d with
  | zero =>
    intro k i hi hk
    obtain ⟨k, rfl⟩ : ∃ q, k = q + 1 := ⟨k - 1, by omega⟩
    have hlt : i < s.length := by omega
    have hie : i + 1 = s.length := by omega
    refine ⟨i + 1, by simp [LazyFilter.skip, stdIter, hlt, hie], by omega, by omega, ?_, ?_⟩
    · intro v hv
      rw [hie] at hv
      simp at hv
    · intro m v h1 h2
      omega
  | succ d ih =>
    intro k i hi hk
    obtain ⟨k, rfl⟩ : ∃ q, k = q + 1 := ⟨k - 1, by omega⟩
    have hlt : i < s.length := by omega
    have hlt1 : i + 1 < s.length := by omega
    have hget : s[i + 1]? = some s[i + 1] := List.getElem?_eq_getElem hlt1
    have hne : i + 1 ≠ s.length := by omega
    cases hp : P s[i + 1] with
    | true =>
      refine ⟨i + 1, by simp [LazyFilter.skip, stdIter, hlt, hne, hget, hp], by omega, by omega,
        ?_, ?_⟩
      · intro v hv
        rw [hget] at hv
        cases hv
        exact hp
      · intro m v h1 h2
        omega
    | false =>
      obtain ⟨j, h1, h2, h3, h4, h5⟩ := ih k (i + 1) (by omega) (by omega)
      have h1u := h1
      simp only [stdIter] at h1u
      refine ⟨j, by simp [LazyFilter.skip, stdIter, hlt, hne, hget, hp, h1u], by omega, h3, h4, ?_⟩
      intro m v g1 g2 g3
      by_cases hm : m = i + 1
      · subst hm
        rw [hget] at g3
        cases g3
        exact hp
      · exact h5 m v (by omega) g2 g3

/-- C18: for a `LazyFilter` cursor over a source `s` standing at an index
`i < |s|`, with fuel beyond the length of the source, `operator++` returns the
cursor at the least index `j > i` with `P(s[j])`, or at the end sentinel `|s|`
when there is none: `j` is beyond `i`, every index strictly between fails `P`,
and `j` is the end or satisfies `P`.  And `begin()` returns the cursor at the
least index `j >= 0` with `P(s[j])`, or at the end. -/
theorem filter_inc_next_match (s : List V) (P : V → Bool) (i fuel : Nat)
    (hi : i < s.length) (hf : s.length < fuel) :
    (∃ j, LazyFilter.inc (stdIter s) fuel (LazyFilter.mk 0 s.length i P)
          = .ok (LazyFilter.mk 0 s.length j P) ∧
        i < j ∧ j ≤ s.length ∧ (∀ v, s[j]? = some v → P v = true) ∧
        (∀ m v, i < m → m < j → s[m]? = some v → P v = false)) ∧
    (∃ j, LazyFilter.begin (stdIter s) fuel (LazyFilter.mk 0 s.length i P)
          = .ok (LazyFilter.mk 0 s.length j P) ∧
        j ≤ s.length ∧ (∀ v, s[j]? = some v → P v = true) ∧
        (∀ m v, m < j → s[m]? = some v → P v = false)) := by
  constructor
  · obtain ⟨j, h1, h2, h3, h4, h5⟩ :=
      skip_stdIter s P fuel (s.length - (i + 1)) fuel i (by omega) (by omega)
    have hne : (stdIter s).eq i s.length = false := by simp [stdIter]; omega
    refine ⟨j, ?_, h2, h3, h4, h5⟩
    simp only [LazyFilter.inc, hne]
    rw [h1]
    rfl
  · obtain ⟨j, h1, _, h3, h4, h5⟩ := seek_stdIter s P fuel s.length fuel 0 (by omega) hf
    refine ⟨j, ?_, h3, h4, ?_⟩
    · simp only [LazyFilter.begin]
      rw [h1]
    · intro m v g1 g2
      exact h5 m v (Nat.zero_le m) g1 g2

theorem filter_inc_next_match_witness :
    (∃ j, LazyFilter.inc (stdIter [1, 2, 4, 5]) 5 (LazyFilter.mk 0 4 0 (fun x => x % 2 == 1))
          = .ok (LazyFilter.mk 0 4 j (fun x => x % 2 == 1)) ∧
        0 < j ∧ j ≤ 4 ∧ (∀ v, [1, 2, 4, 5][j]? = some v → (fun x => x % 2 == 1) v = true) ∧
        (∀ m v, 0 < m → m < j → [1, 2, 4, 5][m]? = some v → (fun x => x % 2 == 1) v = false)) ∧
      LazyFilter.inc (stdIter [1, 2, 4, 5]) 5 (LazyFilter.mk 0 4 0 (fun x => x % 2 == 1))
        = .ok (LazyFilter.mk 0 4 3 (fun x => x % 2 == 1)) :=
  ⟨(filter_inc_next_match [1, 2, 4, 5] (fun x => x % 2 == 1) 0 5 (by decide) (by decide)).1, rfl⟩

end Lazy

/-! ## AnyEqual -/

namespace TupleHelper

theorem compare_true_iff {k : Nat} {T : Fin k → Type} [∀ i, BEq (T i)] (l r : Tuple T) :
    ∀ (N : Nat) (h : N < k),
      _AnyEqualHelper.Compare N h l r = true ↔ ∃ i : Fin k, i.val ≤ N ∧ (l i == r i) = true := by
  intro N
  induction N with
  | zero =>
    intro h
    simp only [_AnyEqualHelper.Compare]
    constructor
    · intro hc
      exact ⟨⟨0, h⟩, le_refl _, hc⟩
    · rintro ⟨i, hi, hc⟩
      have : i = ⟨0, h⟩ := Fin.ext (by simpa using hi)
      rw [← this]
      exact hc
  | succ N ih =>
    intro h
    simp only [_AnyEqualHelper.Compare]
    cases hc : (l ⟨N + 1, h⟩ == r ⟨N + 1, h⟩) with
    | true =>
      simp only [if_true, true_iff]
      exact ⟨⟨N + 1, h⟩, le_refl _, hc⟩
    | false =>
      simp only [Bool.false_eq_true, if_false]
      rw [ih (Nat.lt_of_succ_lt h)]
      constructor
      · rintro ⟨i, hi, hq⟩
        exact ⟨i, Nat.le_succ_of_le hi, hq⟩
      · rintro ⟨i, hi, hq⟩
        refine ⟨i, ?_, hq⟩
        by_contra hgt
        have : i = ⟨N + 1, h⟩ := Fin.ext (by simp only; omega)
        rw [this, hc] at hq
        exact Bool.false_ne_true hq

/-- `AnyEqual` is true exactly when some pair of components at the same index
is equal, and false exactly when every pair differs. -/
theorem anyEqual_spec {n : Nat} {T : Fin (n + 1) → Type} [∀ i, BEq (T i)] (l r : Tuple T) :
    (AnyEqual l r = true ↔ ∃ i, (l i == r i) = true) ∧
      (AnyEqual l r = false ↔ ∀ i, (l i == r i) = false) := by
  have h1 : AnyEqual l r = true ↔ ∃ i, (l i == r i) = true := by
    unfold AnyEqual
    rw [compare_true_iff l r n (Nat.lt_succ_self n)]
    constructor
    · rintro ⟨i, _, hq⟩
      exact ⟨i, hq⟩
    · rintro ⟨i, hq⟩
      exact ⟨i, Nat.lt_succ_iff.mp i.isLt, hq⟩
  refine ⟨h1, ?_⟩
  constructor
  · intro hf i
    cases hq : (l i == r i) with
    | false => rfl
    | true =>
      have := h1.mpr ⟨i, hq⟩
      rw [hf] at this
      exact absurd this Bool.false_ne_true
  · intro hall
    cases hq : AnyEqual l r with
    | false => rfl
    | true =>
      obtain ⟨i, hi⟩ := h1.mp hq
      rw [hall i] at hi
      exact absurd hi Bool.false_ne_true


/-- C17: for tuples `l`, `r` of the same non-zero arity, `AnyEqual(l, r)`
returns true if and only if `get<i>(l) == get<i>(r)` for some index `i`, the
two components taken at the same index; it returns false exactly when the
components differ at every index. -/
theorem anyEqual_iff {n : Nat} {T : Fin (n + 1) → Type} [∀ i, BEq (T i)] (l r : Tuple T) :
    (AnyEqual l r = true ↔ ∃ i, (l i == r i) = true) ∧
      (AnyEqual l r = false ↔ ∀ i, (l i == r i) = false) :=
  anyEqual_spec l r

end TupleHelper

/-! ## Zip -/

namespace Zip

open Lazy (Res Fault)

/-- The iterator of a zip whose components all stand at position `j`. -/
theorem ne_end_iff {n : Nat} {T : Fin (n + 1) → Type} (cs : (i : Fin (n + 1)) → List (T i))
    (j : Nat) :
    ZipIterator.ne (ZipIterator.mk (_IterCollection.mk (fun _ => j))) (Zip cs).end_ = true ↔
      ∀ i, j ≠ (cs i).length := by
  simp only [ZipIterator.ne, ZipIterator.eq, _IterCollection.MatchAny, ZipCollection.end_, Zip,
    Bool.not_eq_true']
  rw [(TupleHelper.anyEqual_spec _ _).2]
  simp

theorem loop_at {n : Nat} {T : Fin (n + 1) → Type} (cs : (i : Fin (n + 1)) → List (T i))
    (m : Nat) (hle : ∀ i, m ≤ (cs i).length) (hex : ∃ i, m = (cs i).length) :
    ∀ (d f j : Nat) (out : List (TupleHelper.Tuple T)), j + d = m → d < f →
      ∃ rest, loop cs (Zip cs).end_ f (ZipIterator.mk (_IterCollection.mk (fun _ => j))) out
          = .ok (out ++ rest) ∧ rest.length = d ∧
        ∀ x tuple, rest[x]? = some tuple → ∀ i, (cs i)[j + x]? = some (tuple i) := by
  intro d
  induction d with
  | zero =>
    intro f j out hj hf
    obtain ⟨f, rfl⟩ : ∃ q, f = q + 1 := ⟨f - 1, by omega⟩
    have hne : ZipIterator.ne (ZipIterator.mk (_IterCollection.mk (fun _ => j))) (Zip cs).end_
        = false := by
      cases h : ZipIterator.ne (ZipIterator.mk (_IterCollection.mk (fun _ => j))) (Zip cs).end_
      · rfl
      · exfalso
        obtain ⟨i, hi⟩ := hex
        exact (ne_end_iff cs j).mp h i (by omega)
    refine ⟨[], ?_, rfl, ?_⟩
    · rw [loop, hne]
      simp
    · intro x tuple h
      simp at h
  | succ d ih =>
    intro f j out hj hf
    obtain ⟨f, rfl⟩ : ∃ q, f = q + 1 := ⟨f - 1, by omega⟩
    have hlt : ∀ i, j < (cs i).length := fun i => by have := hle i; omega
    have hne : ZipIterator.ne (ZipIterator.mk (_IterCollection.mk (fun _ => j))) (Zip cs).end_
        = true := (ne_end_iff cs j).mpr (fun i => by have := hlt i; omega)
    have hd : ZipIterator.deref cs (ZipIterator.mk (_IterCollection.mk (fun _ => j)))
        = .ok (fun i => (cs i).get ⟨j, hlt i⟩) := by
      simp only [ZipIterator.deref, _IterCollection.Deref]
      rw [dif_pos hlt]
    have hi : ZipIterator.inc cs (ZipIterator.mk (_IterCollection.mk (fun _ => j)))
        = .ok (ZipIterator.mk (_IterCollection.mk (fun _ => j + 1))) := by
      simp only [ZipIterator.inc, _IterCollection.Increment]
      rw [if_pos hlt]
    obtain ⟨rest, h1, h2, h3⟩ :=
      ih f (j + 1) (out ++ [fun i => (cs i).get ⟨j, hlt i⟩]) (by omega) (by omega)
    refine ⟨(fun i => (cs i).get ⟨j, hlt i⟩) :: rest, ?_, by simp [h2], ?_⟩
    · rw [loop, hne]
      simp only [if_true, hd, hi, h1]
      simp
    · intro x tuple hx i
      cases x with
      | zero =>
        simp only [List.getElem?_cons_zero, Option.some.injEq] at hx
        rw [← hx]
        simp [List.getElem?_eq_getElem (hlt i)]
      | succ x =>
        simp only [List.getElem?_cons_succ] at hx
        have := h3 x tuple hx i
        rw [← this]
        congr 1
        omega

/-- C16: for every `k >= 1` and all finite collections, with fuel beyond the
length of one of them, the loop over `Zip(c1, ..., ck)` from `begin()` until
the iterator compares equal to `end()` returns, and yields exactly
`min(|c1|, ..., |ck|)` tuples (a number at most every length and equal to one
of them), the `j`-th tuple being `(c1[j], ..., ck[j])`; if any collection is
empty nothing is yielded. -/
theorem forEach_eq_zip {n : Nat} {T : Fin (n + 1) → Type} (cs : (i : Fin (n + 1)) → List (T i))
    (fuel : Nat) (hf : ∃ i, (cs i).length < fuel) :
    ∃ l : List (TupleHelper.Tuple T), forEach cs fuel = .ok l ∧
      ((∀ i, l.length ≤ (cs i).length) ∧ ∃ i, l.length = (cs i).length) ∧
      (∀ (j : Nat) (tuple : TupleHelper.Tuple T), l[j]? = some tuple →
        ∀ i, (cs i)[j]? = some (tuple i)) ∧
      ((∃ i, cs i = []) → l = []) := by
  obtain ⟨i0, _, hmin⟩ := Finset.exists_min_image (Finset.univ : Finset (Fin (n + 1)))
    (fun i => (cs i).length) Finset.univ_nonempty
  have hle : ∀ i, (cs i0).length ≤ (cs i).length := fun i => hmin i (Finset.mem_univ i)
  have hfuel : (cs i0).length < fuel := by
    obtain ⟨i, hi⟩ := hf
    exact lt_of_le_of_lt (hle i) hi
  obtain ⟨rest, h1, h2, h3⟩ :=
    loop_at cs (cs i0).length hle ⟨i0, rfl⟩ (cs i0).length fuel 0 [] (by omega) hfuel
  refine ⟨rest, ?_, ⟨?_, ⟨i0, h2⟩⟩, ?_, ?_⟩
  · simpa [forEach, Zip, ZipCollection.begin] using h1
  · intro i
    rw [h2]
    exact hle i
  · intro j tuple hj i
    simpa using h3 j tuple hj i
  · rintro ⟨i, hi⟩
    have h0 : (cs i0).length ≤ (cs i).length := hle i
    rw [hi, List.length_nil] at h0
    exact List.length_eq_zero.mp (by omega)

theorem forEach_eq_zip_witness :
    ∃ l : List (TupleHelper.Tuple (fun _ : Fin 2 => Nat)),
      forEach testDifferentLength 3 = .ok l ∧
      ((∀ i, l.length ≤ (testDifferentLength i).length) ∧
        ∃ i, l.length = (testDifferentLength i).length) ∧
      (∀ (j : Nat) (tuple : TupleHelper.Tuple (fun _ : Fin 2 => Nat)), l[j]? = some tuple →
        ∀ i, (testDifferentLength i)[j]? = some (tuple i)) ∧
      ((∃ i, testDifferentLength i = []) → l = []) :=
  forEach_eq_zip testDifferentLength 3 ⟨1, by decide⟩

end Zip

/-! ## The recorded operations compute what the plain operations compute -/

namespace Lazy

variable {R I V W : Type}

theorem erase_eq (ops : TIterOps I V) : ops.erase.eq = ops.eq := rfl

theorem erase_ne (ops : TIterOps I V) : ops.erase.ne = ops.ne := rfl

theorem erase_inc (ops : TIterOps I V) (fuel : Nat) (i : I) :
    ops.erase.inc fuel i = (ops.inc fuel i).map Prod.fst := rfl

theorem erase_deref (ops : TIterOps I V) (i : I) :
    ops.erase.deref i = (ops.deref i).map Prod.fst := rfl

theorem skip_erase (tag : Nat) (ops : TIterOps I V) (fuel : Nat) (e : I) (p : V → Bool) :
    ∀ (k : Nat) (c : I),
      (Traced.LazyFilter.skip tag ops fuel e p k c).map Prod.fst
        = LazyFilter.skip ops.erase fuel e p k c := by
  intro k
  induction k with
  | zero => intro c; rfl
  | succ k ih =>
    intro c
    rw [Traced.LazyFilter.skip, LazyFilter.skip, erase_inc]
    cases ops.inc fuel c with
    | error f => rfl
    | ok x =>
      obtain ⟨c1, t1⟩ := x
      simp only [Except.map, erase_ne, erase_deref]
      cases ops.ne c1 e with
      | false => rfl
      | true =>
        simp only [if_true]
        cases ops.deref c1 with
        | error f => rfl
        | ok y =>
          obtain ⟨v, t2⟩ := y
          simp only []
          cases p v with
          | true => rfl
          | false =>
            simp only [Bool.not_false, if_true]
            rw [← ih c1]
            cases Traced.LazyFilter.skip tag ops fuel e p k c1 with
            | error f => rfl
            | ok z => rfl

theorem seek_erase (tag : Nat) (ops : TIterOps I V) (fuel : Nat) (e : I) (p : V → Bool) :
    ∀ (k : Nat) (b : I),
      (Traced.LazyFilter.seek tag ops fuel e p k b).map Prod.fst
        = LazyFilter.seek ops.erase fuel e p k b := by
  intro k
  induction k with
  | zero => intro b; rfl
  | succ k ih =>
    intro b
    rw [Traced.LazyFilter.seek, LazyFilter.seek, erase_ne, erase_deref, erase_inc]
    cases ops.ne b e with
    | false => rfl
    | true =>
      simp only [if_true]
      cases ops.deref b with
      | error f => rfl
      | ok y =>
        obtain ⟨v, t1⟩ := y
        simp only [Except.map]
        cases p v with
        | true => rfl
        | false =>
          simp only [Bool.not_false, if_true]
          cases ops.inc fuel b with
          | error f => rfl
          | ok x =>
            obtain ⟨b1, t2⟩ := x
            simp only []
            rw [← ih b1]
            cases Traced.LazyFilter.seek tag ops fuel e p k b1 with
            | error f => rfl
            | ok z => rfl

theorem drain_erase (ops : TIterOps I V) (fuel : Nat) (e : I) :
    ∀ (k : Nat) (c : I),
      (Traced.LazyLimit.drain ops fuel e k c).map Prod.fst
        = LazyLimit.drain ops.erase fuel e k c := by
  intro k
  induction k with
  | zero => intro c; rfl
  | succ k ih =>
    intro c
    rw [Traced.LazyLimit.drain, LazyLimit.drain, erase_ne, erase_inc]
    cases ops.ne c e with
    | false => rfl
    | true =>
      simp only [if_true]
      cases ops.inc fuel c with
      | error f => rfl
      | ok x =>
        obtain ⟨c1, t1⟩ := x
        simp only [Except.map]
        rw [← ih c1]
        cases Traced.LazyLimit.drain ops fuel e k c1 with
        | error f => rfl
        | ok z => rfl

theorem filter_inc_erase (tag : Nat) (ops : TIterOps I V) (fuel : Nat) (c : LazyFilter V I) :
    (Traced.LazyFilter.inc tag ops fuel c).map Prod.fst = LazyFilter.inc ops.erase fuel c := by
  rw [Traced.LazyFilter.inc, LazyFilter.inc, erase_eq, ← skip_erase tag]
  by_cases h : ops.eq c._cur c._end = true
  · rw [if_pos h, if_pos h]
    rfl
  · rw [if_neg h, if_neg h]
    cases Traced.LazyFilter.skip tag ops fuel c._end c._pred fuel c._cur with
    | error f => rfl
    | ok z => rfl

theorem filter_deref_erase (ops : TIterOps I V) (c : LazyFilter V I) :
    (Traced.LazyFilter.deref ops c).map Prod.fst = LazyFilter.deref ops.erase c := by
  rw [Traced.LazyFilter.deref, LazyFilter.deref, erase_eq, erase_deref]
  by_cases h : ops.eq c._cur c._end = true
  · rw [if_pos h, if_pos h]
    rfl
  · rw [if_neg h, if_neg h]

theorem filter_begin_erase (tag : Nat) (ops : TIterOps I V) (fuel : Nat) (c : LazyFilter V I) :
    (Traced.LazyFilter.begin tag ops fuel c).map Prod.fst = LazyFilter.begin ops.erase fuel c := by
  rw [Traced.LazyFilter.begin, LazyFilter.begin, ← seek_erase tag]
  cases Traced.LazyFilter.seek tag ops fuel c._end c._pred fuel c._begin with
  | error f => rfl
  | ok z => rfl

theorem filter_iterOps_erase (tag : Nat) (ops : TIterOps I V) :
    (Traced.LazyFilter.iterOps tag ops).erase = LazyFilter.iterOps ops.erase := by
  have h1 : (fun fuel c => (Traced.LazyFilter.inc tag ops fuel c).map Prod.fst)
      = LazyFilter.inc ops.erase := by
    funext fuel c
    exact filter_inc_erase tag ops fuel c
  have h2 : (fun c => (Traced.LazyFilter.deref ops c).map Prod.fst)
      = LazyFilter.deref ops.erase := by
    funext c
    exact filter_deref_erase ops c
  show IterOps.mk _ _ (fun fuel c => (Traced.LazyFilter.inc tag ops fuel c).map Prod.fst)
      (fun c => (Traced.LazyFilter.deref ops c).map Prod.fst) = IterOps.mk _ _ _ _
  rw [h1, h2]
  rfl

theorem filter_rangeOps_erase (tag : Nat) (ops : TIterOps I V) :
    (Traced.LazyFilter.rangeOps tag ops).erase = LazyFilter.rangeOps ops.erase := by
  have h1 : (fun fuel c => (Traced.LazyFilter.begin tag ops fuel c).map Prod.fst)
      = LazyFilter.begin ops.erase := by
    funext fuel c
    exact filter_begin_erase tag ops fuel c
  show RangeOps.mk (fun fuel c => (Traced.LazyFilter.begin tag ops fuel c).map Prod.fst) _
      = RangeOps.mk _ _
  rw [h1]
  rfl

theorem map_inc_erase (ops : TIterOps I V) (fuel : Nat) (c : LazyMap V W I) :
    (Traced.LazyMap.inc ops fuel c).map Prod.fst = LazyMap.inc ops.erase fuel c := by
  rw [Traced.LazyMap.inc, LazyMap.inc, erase_ne, erase_inc]
  by_cases h : ops.ne c._cur c._end = true
  · rw [if_pos h, if_pos h]
    cases ops.inc fuel c._cur with
    | error f => rfl
    | ok z => rfl
  · rw [if_neg h, if_neg h]
    rfl

theorem map_deref_erase (tag : Nat) (ops : TIterOps I V) (c : LazyMap V W I) :
    (Traced.LazyMap.deref tag ops c).map Prod.fst = LazyMap.deref ops.erase c := by
  rw [Traced.LazyMap.deref, LazyMap.deref, erase_eq, erase_deref]
  by_cases h : ops.eq c._cur c._end = true
  · rw [if_pos h, if_pos h]
    rfl
  · rw [if_neg h, if_neg h]
    cases ops.deref c._cur with
    | error f => rfl
    | ok z => rfl

theorem map_iterOps_erase (tag : Nat) (ops : TIterOps I V) :
    (Traced.LazyMap.iterOps tag ops : TIterOps (LazyMap V W I) W).erase
      = LazyMap.iterOps ops.erase := by
  have h1 : (fun fuel (c : LazyMap V W I) => (Traced.LazyMap.inc ops fuel c).map Prod.fst)
      = LazyMap.inc ops.erase := by
    funext fuel c
    exact map_inc_erase ops fuel c
  have h2 : (fun (c : LazyMap V W I) => (Traced.LazyMap.deref tag ops c).map Prod.fst)
      = LazyMap.deref ops.erase := by
    funext c
    exact map_deref_erase tag ops c
  show IterOps.mk _ _
      (fun fuel (c : LazyMap V W I) => (Traced.LazyMap.inc ops fuel c).map Prod.fst)
      (fun (c : LazyMap V W I) => (Traced.LazyMap.deref tag ops c).map Prod.fst)
      = IterOps.mk _ _ _ _
  rw [h1, h2]
  rfl

theorem limit_inc_erase (ops : TIterOps I V) (fuel : Nat) (c : LazyLimit I) :
    (Traced.LazyLimit.inc ops fuel c).map Prod.fst = LazyLimit.inc ops.erase fuel c := by
  rw [Traced.LazyLimit.inc, LazyLimit.inc, erase_ne, erase_inc, erase_eq]
  by_cases h : (c._index != c._limit && ops.ne c._cur c._end) = true
  · rw [if_pos h, if_pos h]
    cases ops.inc fuel c._cur with
    | error f => rfl
    | ok x =>
      obtain ⟨c1, t1⟩ := x
      simp only [Except.map]
      by_cases h1 : ops.eq c1 c._end = true
      · rw [if_pos h1, if_pos h1]
      · rw [if_neg h1, if_neg h1]
        by_cases h2 : (c._index + 1 == c._limit) = true
        · rw [if_pos h2, if_pos h2, ← drain_erase]
          cases Traced.LazyLimit.drain ops fuel c._end fuel c1 with
          | error f => rfl
          | ok z => rfl
        · rw [if_neg h2, if_neg h2]
  · rw [if_neg h, if_neg h]
    rfl

theorem limit_deref_erase (ops : TIterOps I V) (c : LazyLimit I) :
    (Traced.LazyLimit.deref ops c).map Prod.fst = LazyLimit.deref ops.erase c := by
  rw [Traced.LazyLimit.deref, LazyLimit.deref, erase_eq, erase_deref]
  by_cases h : (c._index == c._limit || ops.eq c._cur c._end) = true
  · rw [if_pos h, if_pos h]
    rfl
  · rw [if_neg h, if_neg h]

theorem limit_iterOps_erase (ops : TIterOps I V) :
    (Traced.LazyLimit.iterOps ops).erase = LazyLimit.iterOps ops.erase := by
  have h1 : (fun fuel c => (Traced.LazyLimit.inc ops fuel c).map Prod.fst)
      = LazyLimit.inc ops.erase := by
    funext fuel c
    exact limit_inc_erase ops fuel c
  have h2 : (fun c => (Traced.LazyLimit.deref ops c).map Prod.fst)
      = LazyLimit.deref ops.erase := by
    funext c
    exact limit_deref_erase ops c
  show IterOps.mk _ _ (fun fuel c => (Traced.LazyLimit.inc ops fuel c).map Prod.fst)
      (fun c => (Traced.LazyLimit.deref ops c).map Prod.fst) = IterOps.mk _ _ _ _
  rw [h1, h2]
  rfl

theorem silent_erase (ops : IterOps I V) : ops.silent.erase = ops := by
  cases ops with
  | mk eq ne inc deref =>
    have h1 : (fun fuel i => ((inc fuel i).map (fun x => (x, ([] : Trace)))).map Prod.fst)
        = inc := by
      funext fuel i
      cases inc fuel i <;> rfl
    have h2 : (fun i => ((deref i).map (fun x => (x, ([] : Trace)))).map Prod.fst) = deref := by
      funext i
      cases deref i <;> rfl
    show IterOps.mk eq ne
        (fun fuel i => ((inc fuel i).map (fun x => (x, ([] : Trace)))).map Prod.fst)
        (fun i => ((deref i).map (fun x => (x, ([] : Trace)))).map Prod.fst)
        = IterOps.mk eq ne inc deref
    rw [h1, h2]

/-- The recorded transformations and `First` return what the plain ones return. -/
theorem lazyRange_erase (rops : TRangeOps R I) (ops : TIterOps I V) (fuel : Nat)
    (s : LazyRange R) (P : V → Bool) (f : V → W) (n : Nat) :
    (Traced.LazyRange.Filter rops fuel s P).map Prod.fst = s.Filter rops.erase fuel P ∧
      (Traced.LazyRange.Map rops fuel s f).map Prod.fst = s.Map rops.erase fuel f ∧
      (Traced.LazyRange.Limit rops fuel s n).map Prod.fst = s.Limit rops.erase fuel n ∧
      (Traced.LazyRange.First rops ops fuel s).map Prod.fst
        = s.First rops.erase ops.erase fuel := by
  have hb : rops.erase.begin fuel s._range = (rops.begin fuel s._range).map Prod.fst := rfl
  have he : rops.erase.end_ = rops.end_ := rfl
  refine ⟨?_, ?_, ?_, ?_⟩
  · rw [Traced.LazyRange.Filter, LazyRange.Filter, hb, he]
    cases rops.begin fuel s._range with
    | error e => rfl
    | ok x => rfl
  · rw [Traced.LazyRange.Map, LazyRange.Map, hb, he]
    cases rops.begin fuel s._range with
    | error e => rfl
    | ok x => rfl
  · rw [Traced.LazyRange.Limit, LazyRange.Limit, hb, he]
    cases rops.begin fuel s._range with
    | error e => rfl
    | ok x => rfl
  · rw [Traced.LazyRange.First, LazyRange.First, hb, he, erase_ne]
    simp only [erase_deref]
    cases rops.begin fuel s._range with
    | error e => rfl
    | ok x =>
      obtain ⟨it, t1⟩ := x
      simp only [Except.map]
      by_cases h : ops.ne it (rops.end_ s._range) = true
      · rw [if_pos h, if_pos h]
        cases ops.deref it with
        | error e => rfl
        | ok y => rfl
      · rw [if_neg h, if_neg h]

end Lazy

/-! ## Which user functions a transformation invokes -/

namespace Lazy

variable {R I V W : Type}

/-- The recorded loop of `LazyFilter::begin` over a container returns with enough fuel. -/
theorem traced_seek_stdIter (tag : Nat) (s : List V) (P : V → Bool) (fuel k i : Nat)
    (hi : i ≤ s.length) (hk : s.length - i < k) :
    ∃ j t, Traced.LazyFilter.seek tag (stdIter s).silent fuel s.length P k i = .ok (j, t) := by
  obtain ⟨j, hj, _⟩ := seek_stdIter s P fuel (s.length - i) k i (by omega) hk
  have h := seek_erase tag (stdIter s).silent fuel s.length P k i
  rw [silent_erase, hj] at h
  cases hs : Traced.LazyFilter.seek tag (stdIter s).silent fuel s.length P k i with
  | error e =>
    rw [hs] at h
    simp [Except.map] at h
  | ok x => exact ⟨x.1, x.2, rfl⟩

/-- C14 (counterexample): with `S = MakeLazy([2, 3]).Filter(P)` for the
predicate "is odd" (tag `0`), the call `S.Map(f)` returns after invoking the
predicate four times: each of its two evaluations of `S.begin()` tests `2`
and `3`. -/
theorem map_over_filter_invokes_pred :
    ∃ s, Traced.mapOverFilter [2, 3] (fun x => x % 2 == 1) (fun x => x + 1) 3
      = .ok (s, [0, 0, 0, 0]) :=
  ⟨_, rfl⟩

/-- The loop of `LazyFilter::begin` is not entered when the stored `_begin`
equals `_end`: no user function is invoked. -/
theorem traced_filter_begin_at_end (tag : Nat) (ops : TIterOps I V) (fuel : Nat)
    (c : LazyFilter V I) (hne : ops.ne c._begin c._end = false) (hf : 0 < fuel) :
    Traced.LazyFilter.begin tag ops fuel c
      = .ok (LazyFilter.mk c._begin c._end c._begin c._pred, []) := by
  obtain ⟨k, rfl⟩ : ∃ q, fuel = q + 1 := ⟨fuel - 1, by omega⟩
  simp [Traced.LazyFilter.begin, Traced.LazyFilter.seek, hne]

/-- The loop of `LazyFilter::begin` with the stored `_begin` different from
`_end` dereferences `_begin` and tests the predicate on the value; it stops
there if the predicate accepts it. -/
theorem traced_filter_begin_off_end (tag : Nat) (ops : TIterOps I V) (fuel : Nat)
    (c : LazyFilter V I) (v : V) (t1 : Trace) (hne : ops.ne c._begin c._end = true)
    (hd : ops.deref c._begin = .ok (v, t1)) (hf : 0 < fuel) :
    (c._pred v = true →
      Traced.LazyFilter.begin tag ops fuel c
        = .ok (LazyFilter.mk c._begin c._end c._begin c._pred, t1 ++ [tag])) ∧
    (∀ b tr, Traced.LazyFilter.begin tag ops fuel c = .ok (b, tr) →
      ∃ rest, tr = t1 ++ tag :: rest) := by
  obtain ⟨k, rfl⟩ : ∃ q, fuel = q + 1 := ⟨fuel - 1, by omega⟩
  constructor
  · intro hp
    simp [Traced.LazyFilter.begin, Traced.LazyFilter.seek, hne, hd, hp]
  · intro b tr h
    simp only [Traced.LazyFilter.begin] at h
    rw [Traced.LazyFilter.seek] at h
    simp only [hne, if_true, hd] at h
    cases hp : c._pred v with
    | true =>
      simp only [hp, Bool.not_true, Bool.false_eq_true, if_false] at h
      injection h with h
      injection h with _ h2
      exact ⟨[], h2.symm⟩
    | false =>
      simp only [hp, Bool.not_false, if_true] at h
      cases hi : ops.inc (k + 1) c._begin with
      | error e => simp [hi] at h
      | ok x =>
        obtain ⟨b1, t2⟩ := x
        simp only [hi] at h
        cases hs : Traced.LazyFilter.seek tag ops (k + 1) c._end c._pred k b1 with
        | error e => simp [hs] at h
        | ok y =>
          obtain ⟨b2, t3⟩ := y
          simp only [hs] at h
          injection h with h
          injection h with _ h2
          exact ⟨t2 ++ t3, by rw [← h2]; simp⟩

/-- C14 (amended): `S.Filter(P)`, `S.Map(f)` and `S.Limit(n)` never invoke the
new predicate or conversion function: they evaluate `S.begin()` twice and
invoke exactly the user functions of these two evaluations.  `S.begin()`
invokes no user function when `S` is a source or ends in a `Map` or `Limit`
stage, and then the construction invokes none.  When `S` ends in a `Filter`
stage, `S.begin()` runs the loop of that stage from the stage's stored
`_begin`: if the stored `_begin` equals `_end` it invokes nothing, as with
`S = MakeLazy([1]).Filter(never).Filter(Q)`, on which `S.Map(f)` invokes
nothing either; otherwise it first dereferences the stored `_begin` and then
invokes the predicate on that element, and invokes nothing more if the
predicate accepts it; so for `S = MakeLazy(source).Filter(Q)` over a
non-empty `source` it invokes the predicate at least once. -/
theorem construction_invocations (rops : TRangeOps R I) (ops : TIterOps I V) (fuel : Nat)
    (s : LazyRange R) (P : V → Bool) (f : V → W) (n : Nat) :
    (∀ b t, rops.begin fuel s._range = .ok (b, t) →
      Traced.LazyRange.Filter rops fuel s P
          = .ok (LazyRange.mk (LazyFilter.mk b (rops.end_ s._range) b P), t ++ t) ∧
        Traced.LazyRange.Map rops fuel s f
          = .ok (LazyRange.mk (LazyMap.mk b (rops.end_ s._range) b f), t ++ t) ∧
        Traced.LazyRange.Limit rops fuel s n
          = .ok (LazyRange.mk (LazyLimit.mk b (rops.end_ s._range) b 0 n), t ++ t)) ∧
    (SilentBegin Traced.ContainerRange.rangeOps ∧
      SilentBegin (Traced.LazyMap.rangeOps : TRangeOps (LazyMap V W I) (LazyMap V W I)) ∧
      SilentBegin (Traced.LazyLimit.rangeOps ops)) ∧
    (SilentBegin rops →
      ∃ s1 s2 s3, Traced.LazyRange.Filter rops fuel s P = .ok (s1, []) ∧
        Traced.LazyRange.Map rops fuel s f = .ok (s2, []) ∧
        Traced.LazyRange.Limit rops fuel s n = .ok (s3, [])) ∧
    (∀ (tag : Nat) (c : LazyFilter V I), ops.ne c._begin c._end = false → 0 < fuel →
      (Traced.LazyFilter.rangeOps tag ops).begin fuel c
        = .ok (LazyFilter.mk c._begin c._end c._begin c._pred, [])) ∧
    (∀ (tag : Nat) (c : LazyFilter V I) (v : V) (t1 : Trace),
      ops.ne c._begin c._end = true → ops.deref c._begin = .ok (v, t1) → 0 < fuel →
      (c._pred v = true →
        (Traced.LazyFilter.rangeOps tag ops).begin fuel c
          = .ok (LazyFilter.mk c._begin c._end c._begin c._pred, t1 ++ [tag])) ∧
      (∀ b tr, (Traced.LazyFilter.rangeOps tag ops).begin fuel c = .ok (b, tr) →
        ∃ rest, tr = t1 ++ tag :: rest)) ∧
    (∀ (tag : Nat) (v : V) (t : List V) (Q : V → Bool), (v :: t).length < fuel →
      ∃ b tr, (Traced.LazyFilter.rangeOps tag (stdIter (v :: t)).silent).begin fuel
          (LazyFilter.mk 0 (v :: t).length 0 Q) = .ok (b, tag :: tr)) ∧
    (∀ (Q : Nat → Bool) (g : Nat → Nat),
      (∃ b, Traced.filterOverFilterBegin [1] (fun _ => false) Q 3 = .ok (b, [])) ∧
      (∃ m, Traced.mapOverFilterFilter [1] (fun _ => false) Q g 3 = .ok (m, []))) := by
  have hgen : ∀ b t, rops.begin fuel s._range = .ok (b, t) →
      Traced.LazyRange.Filter rops fuel s P
          = .ok (LazyRange.mk (LazyFilter.mk b (rops.end_ s._range) b P), t ++ t) ∧
        Traced.LazyRange.Map rops fuel s f
          = .ok (LazyRange.mk (LazyMap.mk b (rops.end_ s._range) b f), t ++ t) ∧
        Traced.LazyRange.Limit rops fuel s n
          = .ok (LazyRange.mk (LazyLimit.mk b (rops.end_ s._range) b 0 n), t ++ t) := by
    intro b t hb
    simp [Traced.LazyRange.Filter, Traced.LazyRange.Map, Traced.LazyRange.Limit, hb]
  refine ⟨hgen, ⟨?_, ?_, ?_⟩, ?_, ?_, ?_, ?_, ?_⟩
  · intro fu r
    exact ⟨_, rfl⟩
  · intro fu r
    exact ⟨_, rfl⟩
  · intro fu r
    exact ⟨_, rfl⟩
  · intro hs
    obtain ⟨b, hb⟩ := hs fuel s._range
    obtain ⟨h1, h2, h3⟩ := hgen b [] hb
    exact ⟨_, _, _, h1, h2, h3⟩
  · intro tag c hne hf
    exact traced_filter_begin_at_end tag ops fuel c hne hf
  · intro tag c v t1 hne hd hf
    exact traced_filter_begin_off_end tag ops fuel c v t1 hne hd hf
  · intro tag v t Q hf
    obtain ⟨k, rfl⟩ : ∃ q, fuel = q + 1 := ⟨fuel - 1, by omega⟩
    have hne : (stdIter (v :: t)).silent.ne 0 (v :: t).length = true := by
      simp [IterOps.silent, stdIter]
    have hd : (stdIter (v :: t)).silent.deref 0 = .ok (v, []) := by
      simp [IterOps.silent, stdIter, Except.map]
    have hi : (stdIter (v :: t)).silent.inc (k + 1) 0 = .ok (1, []) := by
      simp [IterOps.silent, stdIter, Except.map]
    simp only [Traced.LazyFilter.rangeOps, Traced.LazyFilter.begin]
    rw [Traced.LazyFilter.seek]
    simp only [hne, if_true, hd]
    cases hq : Q v with
    | true => exact ⟨_, [], rfl⟩
    | false =>
      simp only [Bool.not_false, if_true, hi]
      obtain ⟨j, tr, hj⟩ := traced_seek_stdIter tag (v :: t) Q (k + 1) k 1
        (by simp) (by simp only [List.length_cons] at hf ⊢; omega)
      rw [hj]
      exact ⟨_, _, rfl⟩
  · intro Q g
    exact ⟨⟨_, rfl⟩, ⟨_, rfl⟩⟩

/-! ## Which user functions First invokes -/

/-- C20 (counterexample): with `S = MakeLazy([1]).Map(f).Filter(P)`, the
conversion function tagged `0` and the predicate tagged `1`, the call
`S.First()` invokes the conversion function twice: once when the filter's
`begin()` tests the element and once more for the dereference. -/
theorem first_invokes_map_twice :
    Traced.mapFilterFirst [1] (fun x => x + 1) (fun _ => true) 3
        = .ok (Optional.True 2, [0, 1, 0]) ∧
      List.count 0 [0, 1, 0] = 2 :=
  ⟨rfl, rfl⟩

/-- C20 (amended): `S.First()` performs no advance on the cursor of `S`: it
evaluates `begin()` once, compares with `end()` and dereferences the begin
cursor at most once, and the user functions it invokes are those of that
`begin()` followed by those of that dereference.  For a sequence ending in a
`Map` stage the conversion function of that stage is invoked exactly once,
after the inner dereference, when the result is present, and no user function
is invoked when `begin()` equals `end()`; for `MakeLazy(source).Map(f)` this is
one invocation for a non-empty source and none for an empty one. -/
theorem first_invocations (rops : TRangeOps R I) (ops : TIterOps I V) (tag : Nat) (fuel : Nat)
    (s : LazyRange R) (m : LazyMap V W I) (source : List V) (f : V → W) :
    (∀ inc1, Traced.LazyRange.First rops (TIterOps.mk ops.eq ops.ne inc1 ops.deref) fuel s
        = Traced.LazyRange.First rops ops fuel s) ∧
    (∀ b t0, rops.begin fuel s._range = .ok (b, t0) →
      (ops.ne b (rops.end_ s._range) = false →
        Traced.LazyRange.First rops ops fuel s = .ok (Optional.False, t0)) ∧
      (∀ v t1, ops.ne b (rops.end_ s._range) = true → ops.deref b = .ok (v, t1) →
        Traced.LazyRange.First rops ops fuel s = .ok (Optional.True v, t0 ++ t1))) ∧
    ((Traced.LazyMap.iterOps tag ops).ne (LazyMap.begin m) (LazyMap.end_ m) = false →
      Traced.LazyRange.First Traced.LazyMap.rangeOps (Traced.LazyMap.iterOps tag ops) fuel
        (LazyRange.mk m) = .ok (Optional.False, [])) ∧
    (∀ v t1, ops.eq m._begin m._end = false → ops.deref m._begin = .ok (v, t1) →
      Traced.LazyRange.First Traced.LazyMap.rangeOps (Traced.LazyMap.iterOps tag ops) fuel
        (LazyRange.mk m) = .ok (Optional.True (m._map v), t1 ++ [tag])) ∧
    Traced.mapFirst source f fuel
      = .ok (match source with
        | [] => (Optional.False, [])
        | v :: _ => (Optional.True (f v), [0])) := by
  refine ⟨fun _ => rfl, ?_, ?_, ?_, ?_⟩
  · intro b t0 hb
    constructor
    · intro hne
      simp [Traced.LazyRange.First, hb, hne]
    · intro v t1 hne hd
      simp [Traced.LazyRange.First, hb, hne, hd]
  · intro hne
    simp only [Traced.LazyRange.First, Traced.LazyMap.rangeOps]
    rw [if_neg (by simp [hne])]
  · intro v t1 he hd
    have hne : (Traced.LazyMap.iterOps tag ops).ne (LazyMap.begin m) (LazyMap.end_ m) = true := by
      simp [Traced.LazyMap.iterOps, LazyMap.ne, LazyMap.eq, LazyMap.begin, LazyMap.end_,
        erase_eq, he]
    have hdm : (Traced.LazyMap.iterOps tag ops).deref (LazyMap.begin m)
        = .ok (m._map v, t1 ++ [tag]) := by
      simp [Traced.LazyMap.iterOps, Traced.LazyMap.deref, LazyMap.begin, he, hd]
    simp only [Traced.LazyRange.First, Traced.LazyMap.rangeOps]
    rw [if_pos hne, hdm]
    simp
  · cases source with
    | nil => rfl
    | cons v t =>
      simp [Traced.mapFirst, Traced.LazyRange.Map, Traced.LazyRange.First,
        Traced.ContainerRange.rangeOps, Traced.LazyMap.rangeOps, Traced.LazyMap.iterOps,
        Traced.LazyMap.deref, MakeLazy, ContainerRange.ofCont, ContainerRange.begin,
        ContainerRange.end_, LazyMap.begin, LazyMap.end_, LazyMap.ne, LazyMap.eq,
        TIterOps.erase, IterOps.silent, stdIter, Except.map]

end Lazy

/-! ## Advancing keeps the range -/

namespace Lazy

variable {R I V W : Type}

theorem filter_inc_fields (ops : IterOps I V) (fuel : Nat) (c c1 : LazyFilter V I)
    (h : LazyFilter.inc ops fuel c = .ok c1) :
    c1._begin = c._begin ∧ c1._end = c._end ∧ c1._pred = c._pred := by
  unfold LazyFilter.inc at h
  split at h
  · cases Except.ok.inj h
    exact ⟨rfl, rfl, rfl⟩
  · cases hs : LazyFilter.skip ops fuel c._end c._pred fuel c._cur with
    | error f => simp [hs] at h
    | ok b =>
      simp only [hs] at h
      cases Except.ok.inj h
      exact ⟨rfl, rfl, rfl⟩

theorem map_inc_fields (ops : IterOps I V) (fuel : Nat) (c c1 : LazyMap V W I)
    (h : LazyMap.inc ops fuel c = .ok c1) :
    c1._begin = c._begin ∧ c1._end = c._end ∧ c1._map = c._map := by
  unfold LazyMap.inc at h
  split at h
  · cases hs : ops.inc fuel c._cur with
    | error f => simp [hs] at h
    | ok b =>
      simp only [hs] at h
      cases Except.ok.inj h
      exact ⟨rfl, rfl, rfl⟩
  · cases Except.ok.inj h
    exact ⟨rfl, rfl, rfl⟩

theorem limit_inc_fields (ops : IterOps I V) (fuel : Nat) (c c1 : LazyLimit I)
    (h : LazyLimit.inc ops fuel c = .ok c1) :
    c1._begin = c._begin ∧ c1._end = c._end ∧ c1._limit = c._limit := by
  unfold LazyLimit.inc at h
  split at h
  · cases hi : ops.inc fuel c._cur with
    | error f => simp [hi] at h
    | ok cur1 =>
      simp only [hi] at h
      split at h
      · cases Except.ok.inj h
        exact ⟨rfl, rfl, rfl⟩
      · split at h
        · cases hd : LazyLimit.drain ops fuel c._end fuel cur1 with
          | error f => simp [hd] at h
          | ok cur2 =>
            simp only [hd] at h
            cases Except.ok.inj h
            exact ⟨rfl, rfl, rfl⟩
        · cases Except.ok.inj h
          exact ⟨rfl, rfl, rfl⟩
  · cases Except.ok.inj h
    exact ⟨rfl, rfl, rfl⟩

/-- C21: `operator++` on a `LazyFilter`, `LazyMap` or `LazyLimit` cursor leaves
the stored begin and end sentinels and the predicate, conversion function or
limit unchanged, so `begin()` and `end()` of the advanced cursor are those of
the original cursor (and compare equal to them), and `ToVector()` of a
sequence whose cursor was advanced returns what it returned before. -/
theorem inc_keeps_range (ops : IterOps I V) (hl : Lawful ops) (fuel : Nat) :
    (∀ c c1 : LazyFilter V I, LazyFilter.inc ops fuel c = .ok c1 →
      (c1._begin = c._begin ∧ c1._end = c._end ∧ c1._pred = c._pred) ∧
      LazyFilter.begin ops fuel c1 = LazyFilter.begin ops fuel c ∧
      LazyFilter.end_ c1 = LazyFilter.end_ c ∧
      LazyFilter.eq ops (LazyFilter.end_ c1) (LazyFilter.end_ c) = true ∧
      (∀ b, LazyFilter.begin ops fuel c = .ok b →
        ∃ b1, LazyFilter.begin ops fuel c1 = .ok b1 ∧ LazyFilter.eq ops b1 b = true) ∧
      (LazyRange.mk c1).ToVector (LazyFilter.rangeOps ops) (LazyFilter.iterOps ops) fuel
        = (LazyRange.mk c).ToVector (LazyFilter.rangeOps ops) (LazyFilter.iterOps ops) fuel) ∧
    (∀ c c1 : LazyMap V W I, LazyMap.inc ops fuel c = .ok c1 →
      (c1._begin = c._begin ∧ c1._end = c._end ∧ c1._map = c._map) ∧
      LazyMap.begin c1 = LazyMap.begin c ∧ LazyMap.end_ c1 = LazyMap.end_ c ∧
      LazyMap.eq ops (LazyMap.begin c1) (LazyMap.begin c) = true ∧
      LazyMap.eq ops (LazyMap.end_ c1) (LazyMap.end_ c) = true ∧
      (LazyRange.mk c1).ToVector LazyMap.rangeOps (LazyMap.iterOps ops) fuel
        = (LazyRange.mk c).ToVector LazyMap.rangeOps (LazyMap.iterOps ops) fuel) ∧
    (∀ c c1 : LazyLimit I, LazyLimit.inc ops fuel c = .ok c1 →
      (c1._begin = c._begin ∧ c1._end = c._end ∧ c1._limit = c._limit) ∧
      LazyLimit.begin ops c1 = LazyLimit.begin ops c ∧ LazyLimit.end_ c1 = LazyLimit.end_ c ∧
      LazyLimit.eq ops (LazyLimit.begin ops c1) (LazyLimit.begin ops c) = true ∧
      LazyLimit.eq ops (LazyLimit.end_ c1) (LazyLimit.end_ c) = true ∧
      (LazyRange.mk c1).ToVector (LazyLimit.rangeOps ops) (LazyLimit.iterOps ops) fuel
        = (LazyRange.mk c).ToVector (LazyLimit.rangeOps ops) (LazyLimit.iterOps ops) fuel) := by
  refine ⟨?_, ?_, ?_⟩
  · intro c c1 h
    obtain ⟨h1, h2, h3⟩ := filter_inc_fields ops fuel c c1 h
    have hb : LazyFilter.begin ops fuel c1 = LazyFilter.begin ops fuel c := by
      simp only [LazyFilter.begin, h1, h2, h3]
    have he : LazyFilter.end_ c1 = LazyFilter.end_ c := by
      simp only [LazyFilter.end_, h1, h2, h3]
    refine ⟨⟨h1, h2, h3⟩, hb, he, ?_, ?_, ?_⟩
    · rw [he]
      simp [LazyFilter.eq, hl.eq_self]
    · intro b hbb
      exact ⟨b, by rw [hb, hbb], by simp [LazyFilter.eq, hl.eq_self]⟩
    · simp only [LazyRange.ToVector, LazyFilter.rangeOps, hb, he]
  · intro c c1 h
    obtain ⟨h1, h2, h3⟩ := map_inc_fields ops fuel c c1 h
    have hb : LazyMap.begin c1 = LazyMap.begin c := by
      simp only [LazyMap.begin, h1, h2, h3]
    have he : LazyMap.end_ c1 = LazyMap.end_ c := by
      simp only [LazyMap.end_, h1, h2, h3]
    refine ⟨⟨h1, h2, h3⟩, hb, he, ?_, ?_, ?_⟩
    · rw [hb]
      simp [LazyMap.eq, hl.eq_self]
    · rw [he]
      simp [LazyMap.eq, hl.eq_self]
    · simp only [LazyRange.ToVector, LazyMap.rangeOps, hb, he]
  · intro c c1 h
    obtain ⟨h1, h2, h3⟩ := limit_inc_fields ops fuel c c1 h
    have hb : LazyLimit.begin ops c1 = LazyLimit.begin ops c := by
      simp only [LazyLimit.begin, h1, h2, h3]
    have he : LazyLimit.end_ c1 = LazyLimit.end_ c := by
      simp only [LazyLimit.end_, h1, h2, h3]
    refine ⟨⟨h1, h2, h3⟩, hb, he, ?_, ?_, ?_⟩
    · rw [hb]
      simp [LazyLimit.eq, hl.eq_self]
    · rw [he]
      simp [LazyLimit.eq, hl.eq_self]
    · simp only [LazyRange.ToVector, LazyLimit.rangeOps, hb, he]

theorem inc_keeps_range_witness :
    LazyFilter.inc (stdIter [1, 2, 3]) 4 (LazyFilter.mk 0 3 0 (fun x => x % 2 == 1))
        = .ok (LazyFilter.mk 0 3 2 (fun x => x % 2 == 1)) ∧
      (LazyRange.mk (LazyFilter.mk 0 3 2 (fun x => x % 2 == 1))).ToVector
          (LazyFilter.rangeOps (stdIter [1, 2, 3])) (LazyFilter.iterOps (stdIter [1, 2, 3])) 4
        = (LazyRange.mk (LazyFilter.mk 0 3 0 (fun x => x % 2 == 1))).ToVector
          (LazyFilter.rangeOps (stdIter [1, 2, 3])) (LazyFilter.iterOps (stdIter [1, 2, 3])) 4 :=
  have hi : LazyFilter.inc (stdIter [1, 2, 3]) 4 (LazyFilter.mk 0 3 0 (fun x => x % 2 == 1))
      = .ok (LazyFilter.mk 0 3 2 (fun x => x % 2 == 1)) := rfl
  ⟨hi, ((@inc_keeps_range Nat Nat Nat (stdIter [1, 2, 3]) (stdIter_lawful [1, 2, 3]) 4).1
    _ _ hi).2.2.2.2.2⟩

/-! ## != and == -/

/-- For `LazyFilter`, `LazyMap`, `LazyLimit` and `LazyRange`, `!=` is the negation of `==`. -/
theorem ne_is_not_eq (ops : IterOps I V) (sops : IterOps R V) :
    (∀ a b : LazyFilter V I, LazyFilter.ne ops a b = !LazyFilter.eq ops a b) ∧
      (∀ a b : LazyMap V W I, LazyMap.ne ops a b = !LazyMap.eq ops a b) ∧
      (∀ a b : LazyLimit I, LazyLimit.ne ops a b = !LazyLimit.eq ops a b) ∧
      (∀ a b : LazyRange R, LazyRange.ne sops a b = !LazyRange.eq sops a b) :=
  ⟨fun _ _ => rfl, fun _ _ => rfl, fun _ _ => rfl, fun _ _ => rfl⟩

/-- C25 (at the failing input): `ContainerRange::operator!=` returns what
`operator==` returns; for the `ContainerRange` of the container `[1]` compared
with itself both `==` and `!=` are true. -/
theorem containerRange_ne_is_eq :
    (∀ a b : ContainerRange, ContainerRange.ne a b = ContainerRange.eq a b) ∧
      ContainerRange.eq (ContainerRange.ofCont [1]) (ContainerRange.ofCont [1]) = true ∧
      ContainerRange.ne (ContainerRange.ofCont [1]) (ContainerRange.ofCont [1]) = true :=
  ⟨fun _ _ => rfl, rfl, rfl⟩

/-! ## Termination of advance -/

/-- C24 (at the failing input): on the begin cursor of
`MakeLazy([1]).Limit(0).Limit(1)` the loop `while ( _cur != _end ) ++_cur;` of
`LazyLimit::operator++` never ends: the inner cursor has its counter at its
limit, so its `++` changes nothing, and it differs from the inner end.
Whatever the fuel, the model of `++it` runs out of fuel. -/
theorem limit_over_limit_zero_inc_diverges (fuel : Nat) :
    limitLimitBegin [1] 0 1 fuel
        = .ok (LazyLimit.mk (LazyLimit.mk 0 1 0 0 0) (LazyLimit.mk 0 1 1 0 0)
          (LazyLimit.mk 0 1 0 0 0) 0 1) ∧
      limitLimitBeginInc [1] 0 1 fuel = .error Fault.outOfFuel := by
  have hb : limitLimitBegin [1] 0 1 fuel
      = .ok (LazyLimit.mk (LazyLimit.mk 0 1 0 0 0) (LazyLimit.mk 0 1 1 0 0)
        (LazyLimit.mk 0 1 0 0 0) 0 1) := rfl
  refine ⟨hb, ?_⟩
  have hd : ∀ k, LazyLimit.drain (LazyLimit.iterOps (stdIter [1])) fuel (LazyLimit.mk 0 1 1 0 0) k
      (LazyLimit.mk 0 1 0 0 0) = .error Fault.outOfFuel := by
    intro k
    induction k with
    | zero => rfl
    | succ k ih =>
      rw [LazyLimit.drain]
      have h1 : (LazyLimit.iterOps (stdIter [1])).ne (LazyLimit.mk 0 1 0 0 0)
          (LazyLimit.mk 0 1 1 0 0) = true := rfl
      have h2 : (LazyLimit.iterOps (stdIter [1])).inc fuel (LazyLimit.mk 0 1 0 0 0)
          = .ok (LazyLimit.mk 0 1 0 0 0) := rfl
      simp only [h1, if_true, h2, ih]
  simp only [limitLimitBeginInc, hb]
  have h2 : (LazyLimit.iterOps (stdIter [1])).inc fuel (LazyLimit.mk 0 1 0 0 0)
      = .ok (LazyLimit.mk 0 1 0 0 0) := rfl
  have h1 : (LazyLimit.iterOps (stdIter [1])).ne (LazyLimit.mk 0 1 0 0 0)
      (LazyLimit.mk 0 1 1 0 0) = true := rfl
  have h3 : (LazyLimit.iterOps (stdIter [1])).eq (LazyLimit.mk 0 1 0 0 0)
      (LazyLimit.mk 0 1 1 0 0) = false := rfl
  simp [LazyLimit.inc, h1, h2, h3, hd fuel]

end Lazy

/-! ## Map: dereference and advance -/

namespace Lazy

variable {R I V W : Type}

/-- C22: a successful `operator*` of a `LazyMap` cursor dereferences the inner
cursor and then invokes the conversion function once, on the inner current
element; two dereferences at the same position invoke it twice and return
equal values; `operator++` invokes exactly what the one inner `++` invokes,
never the conversion function, and moves the inner cursor by that one step
when not at end.  Over a container the dereference invokes the conversion
function exactly once and the advance invokes nothing. -/
theorem map_deref_uncached (ops : TIterOps I V) (tag : Nat) (fuel : Nat) (c : LazyMap V W I)
    (cont : List V) (m : LazyMap V W Nat) :
    (∀ v t, ops.eq c._cur c._end = false → ops.deref c._cur = .ok (v, t) →
      Traced.LazyMap.deref tag ops c = .ok (c._map v, t ++ [tag]) ∧
      Traced.LazyMap.derefTwice tag ops c
        = .ok ((c._map v, c._map v), (t ++ [tag]) ++ (t ++ [tag]))) ∧
    (∀ c1 t, ops.ne c._cur c._end = true → ops.inc fuel c._cur = .ok (c1, t) →
      Traced.LazyMap.inc ops fuel c = .ok (LazyMap.mk c._begin c._end c1 c._map, t)) ∧
    (ops.ne c._cur c._end = false → Traced.LazyMap.inc ops fuel c = .ok (c, [])) ∧
    (∀ v, m._cur ≠ m._end → cont[m._cur]? = some v →
      Traced.LazyMap.deref tag (stdIter cont).silent m = .ok (m._map v, [tag]) ∧
      List.count tag [tag] = 1 ∧
      Traced.LazyMap.derefTwice tag (stdIter cont).silent m
        = .ok ((m._map v, m._map v), [tag, tag]) ∧
      Traced.LazyMap.inc (stdIter cont).silent fuel m
        = .ok (LazyMap.mk m._begin m._end (m._cur + 1) m._map, [])) := by
  have hgen : ∀ (o : TIterOps I V) (d : LazyMap V W I) v t, o.eq d._cur d._end = false →
      o.deref d._cur = .ok (v, t) →
      Traced.LazyMap.deref tag o d = .ok (d._map v, t ++ [tag]) := by
    intro o d v t he hd
    simp [Traced.LazyMap.deref, he, hd]
  refine ⟨?_, ?_, ?_, ?_⟩
  · intro v t he hd
    have h1 := hgen ops c v t he hd
    exact ⟨h1, by simp [Traced.LazyMap.derefTwice, h1]⟩
  · intro c1 t hne hi
    simp [Traced.LazyMap.inc, hne, hi]
  · intro hne
    simp [Traced.LazyMap.inc, hne]
  · intro v hne hv
    have he : (stdIter cont).silent.eq m._cur m._end = false := by
      simp [IterOps.silent, stdIter, hne]
    have hd : (stdIter cont).silent.deref m._cur = .ok (v, []) := by
      simp [IterOps.silent, stdIter, hv, Except.map]
    have hlt : m._cur < cont.length := by
      by_contra hge
      rw [List.getElem?_eq_none (by omega)] at hv
      exact Option.noConfusion hv
    have h1 : Traced.LazyMap.deref tag (stdIter cont).silent m = .ok (m._map v, [tag]) := by
      simp [Traced.LazyMap.deref, he, hd]
    refine ⟨h1, by simp, by simp [Traced.LazyMap.derefTwice, h1], ?_⟩
    simp [Traced.LazyMap.inc, IterOps.silent, stdIter, hne, hlt, Except.map]

/-! ## Limit over a sequence whose traversal succeeds -/

theorem Reads.nil_def (ops : IterOps I V) (fuel : Nat) (e it : I) :
    Reads ops fuel e it [] ↔ ops.ne it e = false := Iff.rfl

theorem Reads.cons_def (ops : IterOps I V) (fuel : Nat) (e it : I) (v : V) (t : List V) :
    Reads ops fuel e it (v :: t) ↔
      (ops.ne it e = true ∧ ops.deref it = .ok v ∧
        ∃ it1, ops.inc fuel it = .ok it1 ∧ Reads ops fuel e it1 t) := Iff.rfl

/-- A traversal that returns has read what it returns. -/
theorem collect_reads (ops : IterOps I V) (fuel : Nat) (e : I) :
    ∀ (k : Nat) (it : I) (acc l : List V), LazyRange.collect ops fuel e k it acc = .ok l →
      ∃ r, l = acc ++ r ∧ Reads ops fuel e it r ∧ r.length < k := by
  intro k
  induction k with
  | zero => intro it acc l h; simp [LazyRange.collect] at h
  | succ k ih =>
    intro it acc l h
    rw [LazyRange.collect] at h
    cases hne : ops.ne it e with
    | false =>
      simp only [hne] at h
      refine ⟨[], ?_, hne, by simp⟩
      simpa using (Except.ok.inj h).symm
    | true =>
      simp only [hne, if_true] at h
      cases hd : ops.deref it with
      | error f => simp [hd] at h
      | ok v =>
        simp only [hd] at h
        cases hi : ops.inc fuel it with
        | error f => simp [hi] at h
        | ok it1 =>
          simp only [hi] at h
          obtain ⟨r, h1, h2, h3⟩ := ih it1 (acc ++ [v]) l h
          refine ⟨v :: r, by simpa using h1, ?_, by simp; omega⟩
          exact ⟨hne, hd, it1, hi, h2⟩

/-- A traversal over what the iterator reads returns it. -/
theorem reads_collect (ops : IterOps I V) (fuel : Nat) (e : I) :
    ∀ (l : List V) (k : Nat) (it : I) (acc : List V), Reads ops fuel e it l → l.length < k →
      LazyRange.collect ops fuel e k it acc = .ok (acc ++ l) := by
  intro l
  induction l with
  | nil =>
    intro k it acc h hk
    obtain ⟨k, rfl⟩ : ∃ q, k = q + 1 := ⟨k - 1, by simp at hk; omega⟩
    rw [Reads.nil_def] at h
    simp [LazyRange.collect, h]
  | cons v t ih =>
    intro k it acc h hk
    obtain ⟨k, rfl⟩ : ∃ q, k = q + 1 := ⟨k - 1, by simp at hk; omega⟩
    rw [Reads.cons_def] at h
    obtain ⟨h1, h2, it1, h3, h4⟩ := h
    have hk2 : t.length < k := by simp at hk; omega
    simp [LazyRange.collect, h1, h2, h3, ih k it1 (acc ++ [v]) h4 hk2]

theorem reads_stopsAt (ops : IterOps I V) (fuel : Nat) (e : I) :
    ∀ (l : List V) (k : Nat) (it : I), Reads ops fuel e it l → l.length < k →
      ∃ it2, LazyRange.stopsAt ops fuel e k it = .ok it2 ∧ ops.ne it2 e = false := by
  intro l
  induction l with
  | nil =>
    intro k it h hk
    obtain ⟨k, rfl⟩ : ∃ q, k = q + 1 := ⟨k - 1, by simp at hk; omega⟩
    rw [Reads.nil_def] at h
    exact ⟨it, by simp [LazyRange.stopsAt, h], h⟩
  | cons v t ih =>
    intro k it h hk
    obtain ⟨k, rfl⟩ : ∃ q, k = q + 1 := ⟨k - 1, by simp at hk; omega⟩
    rw [Reads.cons_def] at h
    obtain ⟨h1, h2, it1, h3, h4⟩ := h
    have hk2 : t.length < k := by simp at hk; omega
    obtain ⟨it2, g1, g2⟩ := ih k it1 h4 hk2
    exact ⟨it2, by simp [LazyRange.stopsAt, h1, h2, h3, g1], g2⟩

theorem drain_of_reads (ops : IterOps I V) (fuel : Nat) (e : I) :
    ∀ (l : List V) (k : Nat) (c : I), Reads ops fuel e c l → l.length < k →
      ∃ c2, LazyLimit.drain ops fuel e k c = .ok c2 ∧ ops.ne c2 e = false := by
  intro l
  induction l with
  | nil =>
    intro k c h hk
    obtain ⟨k, rfl⟩ : ∃ q, k = q + 1 := ⟨k - 1, by simp at hk; omega⟩
    rw [Reads.nil_def] at h
    exact ⟨c, by simp [LazyLimit.drain, h], h⟩
  | cons v t ih =>
    intro k c h hk
    obtain ⟨k, rfl⟩ : ∃ q, k = q + 1 := ⟨k - 1, by simp at hk; omega⟩
    rw [Reads.cons_def] at h
    obtain ⟨h1, _, c1, h3, h4⟩ := h
    have hk2 : t.length < k := by simp at hk; omega
    obtain ⟨c2, g1, g2⟩ := ih k c1 h4 hk2
    exact ⟨c2, by simp [LazyLimit.drain, h1, h3, g1], g2⟩

/-- A limit cursor below its limit over an inner iterator that reads `l`
reads the next `_limit - _index` elements of `l`. -/
theorem limit_reads (ops : IterOps I V) (hl : Lawful ops) (fuel : Nat) (b e : I) (n : Nat) :
    ∀ (l : List V) (c : I) (idx : Nat), Reads ops fuel e c l → l ≠ [] → idx < n →
      l.length < fuel →
      Reads (LazyLimit.iterOps ops) fuel (LazyLimit.mk b e e n n) (LazyLimit.mk b e c idx n)
        (l.take (n - idx)) := by
  intro l
  induction l with
  | nil => intro c idx _ h; exact absurd rfl h
  | cons v t ih =>
    intro c idx hr _ hidx hf
    rw [Reads.cons_def] at hr
    obtain ⟨h1, h2, c1, h3, h4⟩ := hr
    have he : ops.eq c e = false := by
      have := hl.ne_not c e
      rw [h1] at this
      simpa using this.symm
    have htf : t.length < fuel := by simp at hf; omega
    obtain ⟨m, hm⟩ : ∃ m, n - idx = m + 1 := ⟨n - idx - 1, by omega⟩
    have hne : idx ≠ n := by omega
    rw [hm, List.take_succ_cons, Reads.cons_def]
    refine ⟨by simp [LazyLimit.iterOps, LazyLimit.ne, LazyLimit.eq, he],
      by simp [LazyLimit.iterOps, LazyLimit.deref, he, h2, hne], ?_⟩
    cases t with
    | nil =>
      rw [Reads.nil_def] at h4
      have he1 : ops.eq c1 e = true := by
        have := hl.ne_not c1 e
        rw [h4] at this
        simpa using this.symm
      refine ⟨LazyLimit.mk b e c1 n n,
        by simp [LazyLimit.iterOps, LazyLimit.inc, h1, h3, hne, he1], ?_⟩
      rw [List.take_nil, Reads.nil_def]
      simp [LazyLimit.iterOps, LazyLimit.ne, LazyLimit.eq, hl.eq_self, he1]
    | cons w u =>
      have h40 := h4
      rw [Reads.cons_def] at h4
      obtain ⟨g1, _, _⟩ := h4
      have he1 : ops.eq c1 e = false := by
        have := hl.ne_not c1 e
        rw [g1] at this
        simpa using this.symm
      by_cases hlim : idx + 1 = n
      · obtain ⟨c2, hd, hd2⟩ := drain_of_reads ops fuel e (w :: u) fuel c1 h40 htf
        have he2 : ops.eq c2 e = true := by
          have := hl.ne_not c2 e
          rw [hd2] at this
          simpa using this.symm
        have hm0 : m = 0 := by omega
        refine ⟨LazyLimit.mk b e c2 (idx + 1) n,
          by simp [LazyLimit.iterOps, LazyLimit.inc, h1, h3, hne, he1, hlim, hd], ?_⟩
        subst hm0
        rw [List.take_zero, Reads.nil_def]
        simp [LazyLimit.iterOps, LazyLimit.ne, LazyLimit.eq, hl.eq_self, he2, hlim]
      · have hrec := ih c1 (idx + 1) h40 (by simp) (by omega) htf
        have hm1 : n - (idx + 1) = m := by omega
        rw [hm1] at hrec
        exact ⟨LazyLimit.mk b e c1 (idx + 1) n,
          by simp [LazyLimit.iterOps, LazyLimit.inc, h1, h3, hne, he1, hlim], hrec⟩

/-- C23: for every inner sequence `S` with lawful iterators on which
`ToVector()` returns a list `l`, and every limit `n >= 1`, with the same fuel
`S.Limit(n).ToVector()` returns the first `min(n, |l|)` elements of `l`, and
the cursor at which that traversal stops compares equal to `end()`. -/
theorem limit_of_toVector (rops : RangeOps R I) (ops : IterOps I V) (hl : Lawful ops)
    (fuel : Nat) (s : LazyRange R) (l : List V) (n : Nat) (hn : 1 ≤ n)
    (h : s.ToVector rops ops fuel = .ok l) :
    ∃ s1, s.Limit rops fuel n = .ok s1 ∧
      s1.ToVector (LazyLimit.rangeOps ops) (LazyLimit.iterOps ops) fuel
        = .ok (l.take (min n l.length)) ∧
      s1.reachedIsEnd (LazyLimit.rangeOps ops) (LazyLimit.iterOps ops) fuel = .ok true := by
  simp only [LazyRange.ToVector] at h
  cases hb : rops.begin fuel s._range with
  | error f => simp [hb] at h
  | ok b =>
    simp only [hb] at h
    obtain ⟨r, hr1, hr2, hr3⟩ := collect_reads ops fuel _ fuel b [] l h
    have hlr : l = r := by simpa using hr1
    subst hlr
    have htake : l.take (min n l.length) = l.take n := by
      rcases Nat.le_total n l.length with h1 | h1
      · rw [Nat.min_eq_left h1]
      · rw [Nat.min_eq_right h1, List.take_of_length_le h1, List.take_of_length_le (le_refl _)]
    have hreads : Reads (LazyLimit.iterOps ops) fuel
        (LazyLimit.mk b (rops.end_ s._range) (rops.end_ s._range) n n)
        (LazyLimit.begin ops (LazyLimit.mk b (rops.end_ s._range) b 0 n)) (l.take n) := by
      cases l with
      | nil =>
        rw [Reads.nil_def] at hr2
        have he : ops.eq b (rops.end_ s._range) = true := by
          have := hl.ne_not b (rops.end_ s._range)
          rw [hr2] at this
          simpa using this.symm
        rw [List.take_nil, Reads.nil_def]
        simp [LazyLimit.iterOps, LazyLimit.begin, LazyLimit.ne, LazyLimit.eq, hl.eq_self, he]
      | cons v t =>
        have hr20 := hr2
        rw [Reads.cons_def] at hr2
        have he : ops.eq b (rops.end_ s._range) = false := by
          have := hl.ne_not b (rops.end_ s._range)
          rw [hr2.1] at this
          simpa using this.symm
        have := limit_reads ops hl fuel b (rops.end_ s._range) n (v :: t) b 0 hr20 (by simp)
          (by omega) hr3
        simpa [LazyLimit.begin, he] using this
    have hlen : (l.take n).length < fuel := by
      rw [List.length_take]
      omega
    refine ⟨LazyRange.mk (LazyLimit.mk b (rops.end_ s._range) b 0 n),
      by simp [LazyRange.Limit, hb], ?_, ?_⟩
    · rw [htake]
      have := reads_collect (LazyLimit.iterOps ops) fuel _ (l.take n) fuel _ [] hreads hlen
      simpa [LazyRange.ToVector, LazyLimit.rangeOps, LazyLimit.end_] using this
    · obtain ⟨it2, g1, g2⟩ :=
        reads_stopsAt (LazyLimit.iterOps ops) fuel _ (l.take n) fuel _ hreads hlen
      have g3 : (LazyLimit.iterOps ops).eq it2
          (LazyLimit.mk b (rops.end_ s._range) (rops.end_ s._range) n n) = true := by
        have := (limit_iterOps_lawful ops hl).ne_not it2
          (LazyLimit.mk b (rops.end_ s._range) (rops.end_ s._range) n n)
        rw [g2] at this
        simpa using this.symm
      simp only [LazyRange.reachedIsEnd, LazyLimit.rangeOps, LazyLimit.end_]
      rw [g1]
      simp only [g3]

theorem limit_of_toVector_witness :
    ∃ s1, (MakeLazy [1, 2, 3]).Limit ContainerRange.rangeOps 4 2 = .ok s1 ∧
      s1.ToVector (LazyLimit.rangeOps (stdIter [1, 2, 3])) (LazyLimit.iterOps (stdIter [1, 2, 3])) 4
        = .ok ([1, 2, 3].take (min 2 [1, 2, 3].length)) ∧
      s1.reachedIsEnd (LazyLimit.rangeOps (stdIter [1, 2, 3]))
        (LazyLimit.iterOps (stdIter [1, 2, 3])) 4 = .ok true :=
  limit_of_toVector ContainerRange.rangeOps (stdIter [1, 2, 3]) (stdIter_lawful [1, 2, 3]) 4
    (MakeLazy [1, 2, 3]) [1, 2, 3] 2 (by decide) rfl

end Lazy

/-! ## ForEachInTuple: the order of the invocations -/

namespace TupleHelper

theorem call_eq_foldl {k : Nat} {T : Fin k → Type} {σ : Type}
    (action : Nat → Tuple T → σ → Tuple T × σ) :
    ∀ (N : Nat) (tuple : Tuple T) (st : σ),
      _ForEachInTupleHelper.Call action N tuple st
        = (List.range (N + 1)).reverse.foldl (fun p i => action i p.1 p.2) (tuple, st) := by
  intro N
  induction N with
  | zero => intro tuple st; rfl
  | succ N ih =>
    intro tuple st
    rw [_ForEachInTupleHelper.Call, List.range_succ, List.reverse_append]
    simp only [List.reverse_cons, List.reverse_nil, List.nil_append, List.singleton_append,
      List.foldl_cons]
    exact ih _ _

theorem foldl_recordIndex {k : Nat} {T : Fin k → Type} (tuple : Tuple T) :
    ∀ (l log : List Nat),
      l.foldl (fun (p : Tuple T × List Nat) i => recordIndex i p.1 p.2) (tuple, log)
        = (tuple, log ++ l) := by
  intro l
  induction l with
  | nil => intro log; simp
  | cons i t ih =>
    intro log
    rw [List.foldl_cons]
    have h := ih (log ++ [i])
    simp only [recordIndex] at h ⊢
    rw [h]
    simp

/-- C30: for a tuple of arity `N = n + 1`, `ForEachInTuple(tuple, action)`
invokes the action at the indices `N-1, N-2, ..., 0` in this order: its effect
is that of these invocations one after another, and an action recording its
index records exactly this list, in which every index below `N` occurs once
and no other index occurs. -/
theorem forEachInTuple_order {n : Nat} {T : Fin (n + 1) → Type} {σ : Type} (tuple : Tuple T)
    (action : Nat → Tuple T → σ → Tuple T × σ) (st : σ) :
    ForEachInTuple tuple action st
        = (List.range (n + 1)).reverse.foldl (fun p i => action i p.1 p.2) (tuple, st) ∧
      ForEachInTuple tuple recordIndex [] = (tuple, (List.range (n + 1)).reverse) ∧
      (∀ i, ((List.range (n + 1)).reverse).count i = if i < n + 1 then 1 else 0) ∧
      (∀ j, j < n + 1 → ((List.range (n + 1)).reverse)[j]? = some (n - j)) := by
  refine ⟨call_eq_foldl action n tuple st, ?_, ?_, ?_⟩
  · unfold ForEachInTuple
    rw [call_eq_foldl, foldl_recordIndex]
    simp
  · intro i
    rw [List.count_reverse]
    by_cases h : i < n + 1
    · rw [if_pos h]
      exact List.count_eq_one_of_mem (List.nodup_range (n + 1)) (List.mem_range.mpr h)
    · rw [if_neg h]
      exact List.count_eq_zero_of_not_mem (fun hm => h (List.mem_range.mp hm))
  · intro j hj
    rw [List.getElem?_reverse (by simpa using hj)]
    simp only [List.length_range]
    rw [List.getElem?_range (by omega)]
    congr 1

end TupleHelper

/-! ## Zip: the traversal stays inside the collections -/

namespace Zip

open Lazy (Res Fault)

theorem visited_at {n : Nat} {T : Fin (n + 1) → Type} (cs : (i : Fin (n + 1)) → List (T i))
    (m : Nat) (hle : ∀ i, m ≤ (cs i).length) (hex : ∃ i, m = (cs i).length) :
    ∀ (d f j : Nat) (seen : List (ZipIterator (n + 1))), j + d = m → d < f →
      visited cs (Zip cs).end_ f (allAt (n + 1) j) seen
        = .ok (seen ++ (List.range' j (d + 1)).map (allAt (n + 1))) := by
  intro d
  induction d with
  | zero =>
    intro f j seen hj hf
    obtain ⟨f, rfl⟩ : ∃ q, f = q + 1 := ⟨f - 1, by omega⟩
    have hne : ZipIterator.ne (allAt (n + 1) j) (Zip cs).end_ = false := by
      cases h : ZipIterator.ne (allAt (n + 1) j) (Zip cs).end_
      · rfl
      · exfalso
        obtain ⟨i, hi⟩ := hex
        exact (ne_end_iff cs j).mp h i (by omega)
    rw [visited, hne]
    simp [List.range']
  | succ d ih =>
    intro f j seen hj hf
    obtain ⟨f, rfl⟩ : ∃ q, f = q + 1 := ⟨f - 1, by omega⟩
    have hlt : ∀ i, j < (cs i).length := fun i => by have := hle i; omega
    have hne : ZipIterator.ne (allAt (n + 1) j) (Zip cs).end_ = true :=
      (ne_end_iff cs j).mpr (fun i => by have := hlt i; omega)
    have hd : ZipIterator.deref cs (allAt (n + 1) j)
        = .ok (fun i => (cs i).get ⟨j, hlt i⟩) := by
      simp only [ZipIterator.deref, _IterCollection.Deref, allAt]
      rw [dif_pos hlt]
    have hi : ZipIterator.inc cs (allAt (n + 1) j) = .ok (allAt (n + 1) (j + 1)) := by
      simp only [ZipIterator.inc, _IterCollection.Increment, allAt]
      rw [if_pos hlt]
    rw [visited, hne]
    simp only [if_true, hd, hi]
    rw [ih f (j + 1) (seen ++ [allAt (n + 1) j]) (by omega) (by omega)]
    simp [List.range']

/-- C26: for all finite collections, with fuel beyond the length of one of
them, the loop from `Zip(...).begin()` to `end()` visits the iterators whose
components all stand at the same index `0, 1, ..., m`, where `m` is
`min(|c1|, ..., |ck|)`, and stops at the last; it never runs into undefined
behaviour.  The iterators it dereferences and increments are those at an
index below `m`, which is strictly below every collection's length, and no
component goes beyond its collection's end position. -/
theorem zip_traversal_safe {n : Nat} {T : Fin (n + 1) → Type}
    (cs : (i : Fin (n + 1)) → List (T i)) (fuel : Nat) (hf : ∃ i, (cs i).length < fuel) :
    ∃ m, ((∀ i, m ≤ (cs i).length) ∧ ∃ i, m = (cs i).length) ∧
      forEachVisited cs fuel = .ok ((List.range (m + 1)).map (allAt (n + 1))) ∧
      (∃ l : List (TupleHelper.Tuple T), forEach cs fuel = .ok l ∧ l.length = m) ∧
      (∀ j, j < m → ∀ i, (allAt (n + 1) j)._curIters._iteratorPack i < (cs i).length) ∧
      (∀ j, j ≤ m → ∀ i, (allAt (n + 1) j)._curIters._iteratorPack i ≤ (cs i).length) := by
  obtain ⟨i0, _, hmin⟩ := Finset.exists_min_image (Finset.univ : Finset (Fin (n + 1)))
    (fun i => (cs i).length) Finset.univ_nonempty
  have hle : ∀ i, (cs i0).length ≤ (cs i).length := fun i => hmin i (Finset.mem_univ i)
  have hfuel : (cs i0).length < fuel := by
    obtain ⟨i, hi⟩ := hf
    exact lt_of_le_of_lt (hle i) hi
  have hv := visited_at cs (cs i0).length hle ⟨i0, rfl⟩ (cs i0).length fuel 0 [] (by omega) hfuel
  obtain ⟨rest, h1, h2, _⟩ :=
    loop_at cs (cs i0).length hle ⟨i0, rfl⟩ (cs i0).length fuel 0 [] (by omega) hfuel
  refine ⟨(cs i0).length, ⟨hle, ⟨i0, rfl⟩⟩, ?_, ⟨rest, ?_, h2⟩, ?_, ?_⟩
  · rw [List.range_eq_range']
    simpa [forEachVisited, Zip, ZipCollection.begin, allAt] using hv
  · simpa [forEach, Zip, ZipCollection.begin] using h1
  · intro j hj i
    have := hle i
    simp only [allAt]
    omega
  · intro j hj i
    have := hle i
    simp only [allAt]
    omega

theorem zip_traversal_safe_witness :
    ∃ m, ((∀ i, m ≤ (testDifferentLength i).length) ∧
        ∃ i, m = (testDifferentLength i).length) ∧
      forEachVisited testDifferentLength 3 = .ok ((List.range (m + 1)).map (allAt 2)) ∧
      (∃ l : List (TupleHelper.Tuple (fun _ : Fin 2 => Nat)),
        forEach testDifferentLength 3 = .ok l ∧ l.length = m) ∧
      (∀ j, j < m → ∀ i, (allAt 2 j)._curIters._iteratorPack i < (testDifferentLength i).length) ∧
      (∀ j, j ≤ m → ∀ i, (allAt 2 j)._curIters._iteratorPack i ≤ (testDifferentLength i).length) :=
  zip_traversal_safe testDifferentLength 3 ⟨1, by decide⟩

end Zip

/-! ## BuildExpr evaluates by truth tables -/

namespace Propositional

variable {Var : Type} [DecidableEq Var]

theorem getArg_of_mem :
    ∀ (args : List (Var × Bool)), (args.map Prod.fst).Nodup →
      ∀ p ∈ args, TypeArgMatching.GetArg p.1 args = some p.2 := by
  intro args
  induction args with
  | nil => intro _ p hp; simp at hp
  | cons a rest ih =>
    intro hnd p hp
    obtain ⟨a1, a2⟩ := a
    rw [List.map_cons, List.nodup_cons] at hnd
    rcases List.mem_cons.mp hp with h | h
    · subst h
      simp [TypeArgMatching.GetArg]
    · have hne : p.1 ≠ a1 := by
        intro heq
        exact hnd.1 (List.mem_map.mpr ⟨p, h, heq⟩)
      simp only [TypeArgMatching.GetArg, hne, if_false]
      exact ih hnd.2 p h

theorem doBuild_call (args : List (Var × Bool)) (assignment : Var → Bool) :
    ∀ (Exp : ExpType Var),
      (∀ v ∈ Exp.vars, TypeArgMatching.GetArg v args = some (assignment v)) →
      ∃ obj, BuildExpr.DoBuild Exp args = some obj ∧ obj.call = Exp.value assignment := by
  intro Exp
  induction Exp with
  | truth v =>
    intro h
    have hv := h v (by simp [ExpType.vars])
    exact ⟨Expr.truth v (assignment v), by simp [BuildExpr.DoBuild, hv], rfl⟩
  | Not X ih =>
    intro h
    obtain ⟨o, h1, h2⟩ := ih (fun v hv => h v (by simpa [ExpType.vars] using hv))
    exact ⟨Expr.Not o, by simp [BuildExpr.DoBuild, h1], by simp [Expr.call, ExpType.value, h2]⟩
  | And X Y ihx ihy =>
    intro h
    obtain ⟨o1, h1, h2⟩ := ihx (fun v hv => h v (by simp [ExpType.vars, hv]))
    obtain ⟨o2, h3, h4⟩ := ihy (fun v hv => h v (by simp [ExpType.vars, hv]))
    exact ⟨Expr.And o1 o2, by simp [BuildExpr.DoBuild, h1, h3],
      by simp [Expr.call, ExpType.value, h2, h4]⟩
  | Or X Y ihx ihy =>
    intro h
    obtain ⟨o1, h1, h2⟩ := ihx (fun v hv => h v (by simp [ExpType.vars, hv]))
    obtain ⟨o2, h3, h4⟩ := ihy (fun v hv => h v (by simp [ExpType.vars, hv]))
    exact ⟨Expr.Or o1 o2, by simp [BuildExpr.DoBuild, h1, h3],
      by simp [Expr.call, ExpType.value, h2, h4]⟩
  | Implies X Y ihx ihy =>
    intro h
    obtain ⟨o1, h1, h2⟩ := ihx (fun v hv => h v (by simp [ExpType.vars, hv]))
    obtain ⟨o2, h3, h4⟩ := ihy (fun v hv => h v (by simp [ExpType.vars, hv]))
    refine ⟨Expr.Implies o1 o2, by simp [BuildExpr.DoBuild, h1, h3], ?_⟩
    simp only [Expr.call, ExpType.value, h2, h4]
    cases X.value assignment <;> cases Y.value assignment <;> rfl
  | Equals X Y ihx ihy =>
    intro h
    obtain ⟨o1, h1, h2⟩ := ihx (fun v hv => h v (by simp [ExpType.vars, hv]))
    obtain ⟨o2, h3, h4⟩ := ihy (fun v hv => h v (by simp [ExpType.vars, hv]))
    refine ⟨Expr.Equals o1 o2, by simp [BuildExpr.DoBuild, h1, h3], ?_⟩
    simp only [Expr.call, ExpType.value, h2, h4]
    cases X.value assignment <;> cases Y.value assignment <;> decide

theorem result_eq_value (args : List (Var × Bool)) (assignment : Var → Bool) (Exp : ExpType Var)
    (h : ∀ v ∈ Exp.vars, TypeArgMatching.GetArg v args = some (assignment v)) :
    BuildExpr.result Exp args = some (Exp.value assignment) := by
  obtain ⟨o, h1, h2⟩ := doBuild_call args assignment Exp h
  simp [BuildExpr.result, BuildExpr.Build, h1, h2]

/-- C29: for an expression type `Exp` whose variable types are among the
pairwise distinct types of the arguments, `BuildExpr<Exp, V1..Vn>::Build(b1..bn)()`
returns the truth-table value of `Exp` under the assignment `Vi := bi`
(`Not` negation, `And` conjunction, `Or` disjunction, `Implies<X, Y>` (not X)
or Y, `Equals<X, Y>` X iff Y), and `TypeArgMatching::GetArg` hands every
variable type the argument at its own position. -/
theorem build_eq_truth_table (Exp : ExpType Var) (args : List (Var × Bool))
    (hnd : (args.map Prod.fst).Nodup) (hv : ∀ v ∈ Exp.vars, v ∈ args.map Prod.fst)
    (assignment : Var → Bool) (ha : ∀ p ∈ args, assignment p.1 = p.2) :
    BuildExpr.result Exp args = some (Exp.value assignment) ∧
      ∀ p ∈ args, TypeArgMatching.GetArg p.1 args = some p.2 := by
  refine ⟨result_eq_value args assignment Exp ?_, getArg_of_mem args hnd⟩
  intro v hvv
  obtain ⟨p, hp, rfl⟩ := List.mem_map.mp (hv v hvv)
  rw [getArg_of_mem args hnd p hp, ha p hp]

theorem build_eq_truth_table_witness :
    BuildExpr.result
        (ExpType.And (.Not (.truth Atom.A)) (.Or (.truth Atom.A) (.Not (.truth Atom.B))))
        [(Atom.A, false), (Atom.B, true)]
      = some ((ExpType.And (.Not (.truth Atom.A))
          (.Or (.truth Atom.A) (.Not (.truth Atom.B)))).value (assign2 Atom.A Atom.B false true)) :=
  (build_eq_truth_table _ [(Atom.A, false), (Atom.B, true)] (by decide) (by decide)
    (assign2 Atom.A Atom.B false true) (by decide)).1

/-! ## CheckValidity -/

theorem result_two_vars (Exp : ExpType Var) (T1 T2 : Var) (hne : T1 ≠ T2)
    (hv : ∀ v ∈ Exp.vars, v = T1 ∨ v = T2) (b1 b2 : Bool) :
    BuildExpr.result Exp [(T1, b1), (T2, b2)] = some (Exp.value (assign2 T1 T2 b1 b2)) := by
  apply result_eq_value
  intro v hvv
  rcases hv v hvv with h | h
  · subst h
    simp [TypeArgMatching.GetArg, assign2]
  · subst h
    have : ¬ v = T1 := fun h => hne h.symm
    simp [TypeArgMatching.GetArg, assign2, this]

theorem result_one_var (Exp : ExpType Var) (T1 : Var) (hv : ∀ v ∈ Exp.vars, v = T1) (b1 : Bool) :
    BuildExpr.result Exp [(T1, b1)] = some (Exp.value (assign1 T1 b1)) := by
  apply result_eq_value
  intro v hvv
  have h := hv v hvv
  subst h
  simp [TypeArgMatching.GetArg, assign1]

/-- C28: for an expression type over two distinct variable types `T1`, `T2`,
`CheckValidity<Exp, T1, T2>()` returns `Always` iff `Exp` is true under all
four assignments, `Never` iff it is false under all four, and `Unknown`
otherwise; the overload with one variable type does the same over its two
assignments.  It returns `Always` for `Equals<And<A,B>, Not<Or<Not<A>,Not<B>>>>`
and `Equals<Implies<A,B>, Implies<Not<B>,Not<A>>>`, and `Never` for
`And<Implies<A,B>, Not<Or<Not<A>,B>>>`. -/
theorem checkValidity_two_one (Exp : ExpType Var) (T1 T2 : Var) :
    (T1 ≠ T2 → (∀ v ∈ Exp.vars, v = T1 ∨ v = T2) →
      ∃ r, CheckValidity2 Exp T1 T2 = some r ∧
        (r = Validity.Always ↔ ∀ b1 b2, Exp.value (assign2 T1 T2 b1 b2) = true) ∧
        (r = Validity.Never ↔ ∀ b1 b2, Exp.value (assign2 T1 T2 b1 b2) = false) ∧
        (r = Validity.Unknown ↔
          ¬ (∀ b1 b2, Exp.value (assign2 T1 T2 b1 b2) = true) ∧
          ¬ (∀ b1 b2, Exp.value (assign2 T1 T2 b1 b2) = false))) ∧
    ((∀ v ∈ Exp.vars, v = T1) →
      ∃ r, CheckValidity1 Exp T1 = some r ∧
        (r = Validity.Always ↔ ∀ b1, Exp.value (assign1 T1 b1) = true) ∧
        (r = Validity.Never ↔ ∀ b1, Exp.value (assign1 T1 b1) = false) ∧
        (r = Validity.Unknown ↔
          ¬ (∀ b1, Exp.value (assign1 T1 b1) = true) ∧
          ¬ (∀ b1, Exp.value (assign1 T1 b1) = false))) ∧
    (CheckValidity2 (ExpType.Equals (.And (.truth Atom.A) (.truth Atom.B))
        (.Not (.Or (.Not (.truth Atom.A)) (.Not (.truth Atom.B))))) Atom.A Atom.B
        = some Validity.Always ∧
      CheckValidity2 (ExpType.Equals (.Implies (.truth Atom.A) (.truth Atom.B))
        (.Implies (.Not (.truth Atom.B)) (.Not (.truth Atom.A)))) Atom.A Atom.B
        = some Validity.Always ∧
      CheckValidity2 (ExpType.And (.Implies (.truth Atom.A) (.truth Atom.B))
        (.Not (.Or (.Not (.truth Atom.A)) (.truth Atom.B)))) Atom.A Atom.B
        = some Validity.Never) := by
  refine ⟨?_, ?_, ⟨by decide, by decide, by decide⟩⟩
  · intro hne hv
    simp only [CheckValidity2, result_two_vars Exp T1 T2 hne hv, Bool.forall_bool]
    cases Exp.value (assign2 T1 T2 true true) <;> cases Exp.value (assign2 T1 T2 true false) <;>
      cases Exp.value (assign2 T1 T2 false true) <;>
      cases Exp.value (assign2 T1 T2 false false) <;> simp
  · intro hv
    simp only [CheckValidity1, result_one_var Exp T1 hv, Bool.forall_bool]
    cases Exp.value (assign1 T1 true) <;> cases Exp.value (assign1 T1 false) <;> simp

/-- C27 (at the failing input): for `Exp = Or<A, Or<B, Not<C>>>` the overload
`CheckValidity<Exp, A, B, C>()` returns `Always`, although `Exp` is false under
the assignment `A = false, B = false, C = true`.  The loop builds the
arguments `( i / 2 != 0, i % 2 != 0, i % 4 != 0 )` for `i = 1..7`, which with
the first call are only five of the eight assignments. -/
theorem checkValidity3_misses_assignment :
    CheckValidity3 (ExpType.Or (.truth Atom.A) (.Or (.truth Atom.B) (.Not (.truth Atom.C))))
        Atom.A Atom.B Atom.C = some Validity.Always ∧
      (ExpType.Or (.truth Atom.A) (.Or (.truth Atom.B) (.Not (.truth Atom.C)))).value
        (assign3 Atom.A Atom.B Atom.C false false true) = false ∧
      ([1, 2, 3, 4, 5, 6, 7].map (fun i => (i / 2 != 0, i % 2 != 0, i % 4 != 0))).dedup
        = [(false, true, true), (true, false, false), (true, false, true), (true, true, true)] := by
  refine ⟨by decide, by decide, by decide⟩

end Propositional
